import Mathlib

/-!
Verification of the room session coordinator of the Timed Doodle Challenge
server (`server/index.js`, validation helpers in `server/validation.js`,
prompt catalog in `server/prompts.js`).

The JavaScript code is shallowly embedded:
* strings that undergo character-level processing (nicknames) are `List Char`;
  identifiers, room codes, prompts and drawing payloads are `String`;
* JS timestamps (`Date.now()`, `endsAt`) are `Nat` milliseconds;
* nullable fields are `Option`; `room.roundTimeout` (a timer handle that is
  either armed or cleared) is a `Bool`; the `pending.playerRemoval` map is the
  list of player ids with a scheduled grace-removal;
* each socket handler becomes a pure function from the room (or room table)
  and the handler inputs to the new state, the list of emitted socket events,
  and the acknowledgment value.
-/

/-- ASCII space character (written via `Char.ofNat` to keep literals simple). -/
def spaceChar : Char := Char.ofNat 32

/-- Opening parenthesis character. -/
def lparChar : Char := Char.ofNat 40

/-- Closing parenthesis character. -/
def rparChar : Char := Char.ofNat 41

/-- JS regex `\d`, i.e. the ASCII digits `0`–`9` (codes 48–57). -/
def isDigitCh (c : Char) : Bool :=
  decide (48 ≤ c.toNat ∧ c.toNat ≤ 57)

/-- JS `toLowerCase` restricted to ASCII: `A`–`Z` (codes 65–90) shift by 32,
every other character is returned unchanged.  Nicknames are kept inside the
ASCII range by `validateNickname`, so this matches the JS behaviour on all
strings the server processes. -/
def jsToLower (c : Char) : Char :=
  if 65 ≤ c.toNat ∧ c.toNat ≤ 90 then Char.ofNat (c.toNat + 32) else c

/-- JS `\s` whitespace class, restricted to its ASCII members (space, tab,
LF, VT, FF, CR).  The Unicode space characters matched by JS `\s` are not
modelled; all reasoning stays inside this character set. -/
def isWs (c : Char) : Bool :=
  c = spaceChar || c = Char.ofNat 9 || c = Char.ofNat 10 ||
  c = Char.ofNat 11 || c = Char.ofNat 12 || c = Char.ofNat 13

/-- JS `String.prototype.trim`: drop whitespace from both ends. -/
def trimWs (l : List Char) : List Char :=
  ((l.dropWhile isWs).reverse.dropWhile isWs).reverse

/-- Helper for `collapseWs`: the boolean records whether the previous
character was whitespace (in which case further whitespace is dropped). -/
def collapseAux : Bool → List Char → List Char
  | _, [] => []
  | prevWs, c :: cs =>
    if isWs c then
      if prevWs then collapseAux true cs
      else spaceChar :: collapseAux true cs
    else c :: collapseAux false cs

/-- JS `replace(/\s+/g, ' ')`: every maximal whitespace run becomes one
single space. -/
def collapseWs (l : List Char) : List Char := collapseAux false l

/-- The `trim().replace(/\s+/g, ' ')` combination used throughout the
nickname helpers in `server/index.js`. -/
def normDisplay (l : List Char) : List Char := collapseWs (trimWs l)

/-- ASCII lower-casing, matching JS `toLowerCase` on the ASCII range used by
valid nicknames. -/
def lowerStr (l : List Char) : List Char := l.map jsToLower

/-- `normalizeNickname` from `server/index.js`:
`name.trim().replace(/\s+/g, ' ').toLowerCase()` (empty for non-strings). -/
def normalizeNickname (l : List Char) : List Char := lowerStr (normDisplay l)

/-- Digit-string to number, as `parseInt(·, 10)` on a nonempty digit string.
(`parseInt` would return `Infinity` on digit strings of three hundred or more
characters; that case is not modelled since `Nat` is unbounded.) -/
def digitsToNat (ds : List Char) : Nat :=
  ds.foldl (fun a c => a * 10 + (c.toNat - 48)) 0

/-- The regex `^(.*)\s*\((\d+)\)\s*$` of `stripSuffix`/`assignUniqueNickname`
in `server/index.js`.  Because `(.*)` is greedy and `\s*` can match the empty
string, a match decomposes the string as: group 1 = everything before the
final `(`, then `(`, digits, `)`, trailing whitespace.  Returns
`some (group1, numeric value of the digits)`. -/
def suffixSplit (l : List Char) : Option (List Char × Nat) :=
  match l.reverse.dropWhile isWs with
  | [] => none
  | c :: r2 =>
    if c = rparChar then
      let ds := r2.takeWhile isDigitCh
      if ds = [] then none
      else
        match r2.dropWhile isDigitCh with
        | c2 :: r3 => if c2 = lparChar then some (r3.reverse, digitsToNat ds.reverse) else none
        | [] => none
    else none

/-- The numeric component of `suffixSplit` alone (`m[2]` of the regex match,
when the regex matches). -/
def sNum (l : List Char) : Option Nat :=
  match suffixSplit l with
  | some (_, k) => some k
  | none => none

/-- The final maximal run of non-whitespace characters of `l`, reversed:
after discarding the trailing whitespace matched by the final `\s*` of the
suffix regex, the whole `\((\d+)\)` group must sit inside this run. -/
def frontRun (l : List Char) : List Char :=
  (l.reverse.dropWhile isWs).takeWhile (fun c => !isWs c)

/-- The suffix-number parse restricted to a (reversed) trailing
non-whitespace run: the regex `\((\d+)\)` read from the right. -/
def parseNum (r : List Char) : Option Nat :=
  match r with
  | [] => none
  | c :: r2 =>
    if c = rparChar then
      let ds := r2.takeWhile isDigitCh
      if ds = [] then none
      else
        match r2.dropWhile isDigitCh with
        | c2 :: _ => if c2 = lparChar then some (digitsToNat ds.reverse) else none
        | [] => none
    else none

/-- `stripSuffix` from `server/index.js`: remove a trailing `" (n)"` if
present, then `trim().replace(/\s+/g, ' ')`. -/
def stripSuffix (l : List Char) : List Char :=
  match suffixSplit l with
  | some (g1, _) => normDisplay g1
  | none => normDisplay l

/-- The `taken` set built by `assignUniqueNickname`: walking the existing
nicknames, a player whose suffix-stripped normalized base equals `baseNorm`
contributes `1` when unsuffixed and its suffix number when that number is at
least `2` (`parseInt` results below `2` are ignored). -/
def takenSlots (baseNorm : List Char) (existing : List (List Char)) : List Nat :=
  existing.foldr
    (fun n acc =>
      let pBaseDisplay := normDisplay (stripSuffix n)
      let pBaseNorm := normalizeNickname pBaseDisplay
      if pBaseNorm = baseNorm then
        match suffixSplit n with
        | some (_, num) => if 2 ≤ num then num :: acc else acc
        | none => 1 :: acc
      else acc)
    []

/-- The `while (taken.has(k)) k++` loop of `assignUniqueNickname`. -/
def nextFree (taken : List Nat) (k : Nat) : Nat :=
  if h : k ∈ taken then nextFree taken (k + 1) else k
termination_by taken.foldr max 0 + 1 - k
decreasing_by
  have hle : ∀ l : List Nat, k ∈ l → k ≤ l.foldr max 0 := by
    intro l hl
    induction l with
    | nil => cases hl
    | cons a t ih =>
      rcases List.mem_cons.mp hl with rfl | hm
      · exact le_max_left _ _
      · exact le_trans (ih hm) (le_max_right _ _)

  have := hle taken h
  omega

/-- Decimal rendering of a natural number (the JS template interpolation
`${k}` for a non-negative integer): most significant digit first, no
leading zeros. -/
def natDigits (n : Nat) : List Char :=
  if h : n < 10 then [Char.ofNat (48 + n)]
  else natDigits (n / 10) ++ [Char.ofNat (48 + n % 10)]
termination_by n
decreasing_by
  exact Nat.div_lt_self (by omega) (by omega)

/-- `assignUniqueNickname` from `server/index.js`.  `existing` is the list of
current nicknames (`players.map(p => p.nickname)`; a non-string nickname would
read as the empty string). -/
def assignUniqueNickname (preferred : List Char) (existing : List (List Char)) : List Char :=
  let baseRaw := if preferred = [] then ("Player".data) else preferred
  let baseDisplay := normDisplay baseRaw
  let baseNorm := normalizeNickname (stripSuffix baseRaw)
  let taken := takenSlots baseNorm existing
  if 1 ∈ taken then
    let k := nextFree taken 2
    baseDisplay ++ spaceChar :: lparChar :: (natDigits k ++ [rparChar])
  else baseDisplay

/-- A player record as stored in `room.players` (`server/index.js`):
`{ id, socketId, nickname, isReady }`.  `id` is the stable player id,
`socketId` the transport connection id. -/
structure Player where
  id : String
  socketId : String
  nickname : List Char
  isReady : Bool
deriving DecidableEq, Repr

/-- A player object as it appears inside an emitted payload.  The
`socketId` field is `none` when the emitting code stripped it (the
`publicPlayers` helper) and `some` when the raw `room.players` objects were
sent on the wire. -/
structure WirePlayer where
  id : String
  nickname : List Char
  isReady : Bool
  socketId : Option String
deriving DecidableEq, Repr

/-- Delivery target of an emitted event: multicast to a socket room, or
unicast to a single socket. -/
inductive Tgt where
  | room (code : String)
  | sock (sid : String)
deriving DecidableEq, Repr

/-- The outbound socket events emitted by the handlers under verification. -/
inductive Ev where
  | lobbyUpdate (t : Tgt) (players : List WirePlayer) (hostId : String)
  | settingsUpdate (t : Tgt) (roundDuration : Nat) (category : Option String)
  | roundStart (t : Tgt) (prompt : Option String) (duration : Nat) (category : Option String) (endsAt : Nat)
  | roundEnd (t : Tgt) (drawings : List (String × String))
deriving DecidableEq, Repr

/-- Is an event a `round-end` broadcast? -/
def Ev.isRoundEnd : Ev → Bool
  | Ev.roundEnd _ _ => true
  | _ => false

/-- A room object (`rooms[code]` in `server/index.js`).  `roundTimeout`
records whether the deadline timer is armed; `pendingRemovals` the player ids
with a scheduled disconnect-grace removal (`room.pending.playerRemoval`);
`lastActivityAt` is set by `update-settings`. -/
structure Room where
  host : String
  hostSocketId : String
  players : List Player
  drawings : List (String × String)
  prompt : Option String
  category : Option String
  roundDuration : Nat
  createdAt : Nat
  participants : Option (List String)
  endsAt : Option Nat
  roundTimeout : Bool
  pendingRemovals : List String
  lastActivityAt : Option Nat
deriving DecidableEq, Repr

/-- The in-memory `rooms` table: an association list from room code to room
(JS object insertion-order semantics). -/
def RoomTable : Type := List (String × Room)

instance : DecidableEq RoomTable := inferInstanceAs (DecidableEq (List (String × Room)))

/-- `rooms[code]` lookup. -/
def getRoom (code : String) : RoomTable → Option Room
  | [] => none
  | (c, r) :: t => if c = code then some r else getRoom code t

/-- `rooms[code] = room` (update in place, else append — JS object key
assignment). -/
def setRoom (code : String) (room : Room) : RoomTable → RoomTable
  | [] => [(code, room)]
  | (c, r) :: t => if c = code then (c, room) :: t else (c, r) :: setRoom code room t

/-- `delete rooms[code]`. -/
def delRoom (code : String) : RoomTable → RoomTable
  | [] => []
  | (c, r) :: t => if c = code then t else (c, r) :: delRoom code t

/-- `obj[k]` on a JS object modelled as an association list. -/
def getA (k : String) : List (String × String) → Option String
  | [] => none
  | (a, b) :: t => if a = k then some b else getA k t

/-- `obj[k] = v` on a JS object modelled as an association list. -/
def setA (k v : String) : List (String × String) → List (String × String)
  | [] => [(k, v)]
  | (a, b) :: t => if a = k then (a, v) :: t else (a, b) :: setA k v t

/-- JS truthiness of `obj[k]` for string-valued keys: present and nonempty. -/
def truthyA (k : String) (m : List (String × String)) : Bool :=
  match getA k m with
  | some s => s ≠ ""
  | none => false

/-- Update the first element satisfying the predicate (JS `find` followed by
in-place mutation of the found object). -/
def updateFirst (p : α → Bool) (f : α → α) : List α → List α
  | [] => []
  | a :: t => if p a then f a :: t else a :: updateFirst p f t

/-- `publicPlayers` from `server/index.js`: strip the `socketId` field,
keeping `id`, `nickname` and coerced `isReady`. -/
def publicPlayers (l : List Player) : List WirePlayer :=
  l.map fun p => { id := p.id, nickname := p.nickname, isReady := p.isReady, socketId := none }

/-- The raw `room.players` objects as sent by the `toggle-ready` handler
(every stored field, `socketId` included). -/
def rawWirePlayers (l : List Player) : List WirePlayer :=
  l.map fun p => { id := p.id, nickname := p.nickname, isReady := p.isReady, socketId := some p.socketId }

/-- `normalizeCode` from `server/index.js`: `code.trim().toUpperCase()`
(`none` for a missing/non-string/empty code, which the callers treat as
not-found). -/
def normalizeCode (code : String) : String :=
  String.mk ((trimWs code.data).map Char.toUpper)

/-- The category names of the prompt catalog (`server/prompts.js`). -/
def promptKeys : List String :=
  ["animals", "objects", "nature", "food", "vehicles", "fantasy", "buildings", "sports"]

/-- Characters allowed by the nickname regex `[a-zA-Z0-9\s._-]` of
`validateNickname` (`server/validation.js`). -/
def nickChar (c : Char) : Bool :=
  c.isAlpha || c.isDigit || isWs c ||
  c = Char.ofNat 46 || c = Char.ofNat 95 || c = Char.ofNat 45

/-- `validateNickname` from `server/validation.js`; the argument is `none`
for a missing or non-string payload field.  Returns the error message, or
`none` on success. -/
def validateNickname (v : Option String) : Option String :=
  match v with
  | none => some ("Invalid nickname")
  | some s =>
    if s = "" then some ("Invalid nickname")
    else
      let trimmed := trimWs s.data
      if trimmed.length < 2 then some ("Nickname must be at least 2 characters")
      else if 15 < trimmed.length then some ("Nickname must be 15 characters or less")
      else if ¬ trimmed.all nickChar then some ("Nickname contains invalid characters")
      else if trimmed ≠ collapseWs trimmed then
        some ("Please avoid excessive spaces in your nickname")
      else none

/-- Characters allowed by the room-code regex `[A-Z0-9]`. -/
def codeChar (c : Char) : Bool :=
  (65 ≤ c.toNat && c.toNat ≤ 90) || (48 ≤ c.toNat && c.toNat ≤ 57)

/-- `validateRoomCode` from `server/validation.js`. -/
def validateRoomCode (v : Option String) : Option String :=
  match v with
  | none => some ("Invalid room code")
  | some s =>
    if s = "" then some ("Invalid room code")
    else
      let trimmed := (trimWs s.data).map Char.toUpper
      if trimmed.length ≠ 5 then some ("Room code must be 5 characters")
      else if ¬ trimmed.all codeChar then some ("Room code contains invalid characters")
      else none

/-- Duration payload field of `update-settings`: absent, a non-number, a
non-integral number, or an integer.  (`NaN`, which is falsy, behaves like the
non-number case: both yield the same rejection.) -/
inductive JsDur where
  | undef
  | notNum
  | nonIntNum
  | num (n : Int)
deriving DecidableEq, Repr

/-- `validateRoundDuration` from `server/validation.js`: rejects falsy or
non-number values, non-integers, and integers outside `[15, 300]`. -/
def validateRoundDuration : JsDur → Option String
  | JsDur.undef => some ("Invalid duration")
  | JsDur.notNum => some ("Invalid duration")
  | JsDur.nonIntNum => some ("Duration must be a whole number")
  | JsDur.num n =>
    if n = 0 then some ("Invalid duration")
    else if n < 15 then some ("Duration must be at least 15 seconds")
    else if 300 < n then some ("Duration cannot exceed 5 minutes (300 seconds)")
    else none

/-- Category payload field of `update-settings`: absent, `null`, a string,
or some other value. -/
inductive JsCat where
  | undef
  | null
  | str (s : String)
  | other
deriving DecidableEq, Repr

/-- Value of one hex digit, both cases accepted (Node `Buffer.from(·, 'hex')`
semantics). -/
def hexVal (c : Char) : Option Nat :=
  if 48 ≤ c.toNat ∧ c.toNat ≤ 57 then some (c.toNat - 48)
  else if 97 ≤ c.toNat ∧ c.toNat ≤ 102 then some (c.toNat - 87)
  else if 65 ≤ c.toNat ∧ c.toNat ≤ 70 then some (c.toNat - 55)
  else none

/-- Node `Buffer.from(s, 'hex')`: decode pairs of hex digits into bytes,
stopping at the first invalid pair; a trailing unpaired character is
dropped. -/
def hexDecode : List Char → List Nat
  | a :: b :: rest =>
    (match hexVal a, hexVal b with
     | some x, some y => (16 * x + y) :: hexDecode rest
     | _, _ => [])
  | _ => []

/-- `safeEqualHex` from `server/index.js`: hex-decode both strings, require
equal nonzero byte lengths, then constant-time byte equality
(`crypto.timingSafeEqual`). -/
def safeEqualHex (a b : String) : Bool :=
  let aBuf := hexDecode a.data
  let bBuf := hexDecode b.data
  if aBuf.length ≠ bBuf.length then false
  else if aBuf.length = 0 then false
  else aBuf = bBuf

/-- `s.startsWith(pre)` on the underlying character lists (JS
`String.prototype.startsWith`). -/
def startsWithL : List Char → List Char → Bool
  | [], _ => true
  | _ :: _, [] => false
  | a :: asx, b :: bs => b = a && startsWithL asx bs

/-- JS `String.prototype.startsWith` for `String`s. -/
def jsStartsWith (s pre : String) : Bool := startsWithL pre.data s.data

/-- JS `String.prototype.indexOf` for a single character (`-1` if absent). -/
def jsIndexOf (s : String) (c : Char) : Int :=
  match s.data.findIdx? (fun x => x = c) with
  | some i => (i : Int)
  | none => -1

/-- JS `String.prototype.slice(start, end)` with its negative-index
clamping. -/
def jsSlice (s : String) (start endI : Int) : String :=
  let len : Int := (s.data.length : Int)
  let a := if start < 0 then max (len + start) 0 else min start len
  let b := if endI < 0 then max (len + endI) 0 else min endI len
  String.mk ((s.data.drop a.toNat).take (b - a).toNat)

/-- One-argument JS `slice(start)`. -/
def jsSliceFrom (s : String) (start : Int) : String :=
  jsSlice s start (s.data.length : Int)

/-- The mime extraction of the `submit-drawing` handler:
`drawing.slice(5, drawing.indexOf(';'))`. -/
def mimeOf (drawing : String) : String :=
  jsSlice drawing 5 (jsIndexOf drawing (Char.ofNat 59))

/-- The base64 part extraction of the `submit-drawing` handler:
`drawing.slice(drawing.indexOf(',') + 1)`. -/
def b64Of (drawing : String) : String :=
  jsSliceFrom drawing (jsIndexOf drawing (Char.ofNat 44) + 1)

/-- `Math.floor(b64.length * 3 / 4)` of the `submit-drawing` handler. -/
def approxBytesOf (drawing : String) : Nat :=
  (b64Of drawing).data.length * 3 / 4

/-- `endRound` from `server/index.js`: looked-up room (no-op when absent),
clear the deadline timer, emit `round-end` with the current drawings, then
null out `endsAt`, `participants` and `prompt`.  Note that nothing guards
against the round being already over. -/
def endRound (code : String) (rooms : RoomTable) : RoomTable × List Ev :=
  match getRoom code rooms with
  | none => (rooms, [])
  | some room =>
    (setRoom code
      { room with roundTimeout := false, endsAt := none, participants := none, prompt := none }
      rooms,
     [Ev.roundEnd (Tgt.room code) room.drawings])

/-- `maybeEndRoundEarly` from `server/index.js`: the required ids are the
`participants` snapshot (falling back to the current players when the
snapshot is `null`); an empty required list returns without ending; otherwise
the round ends as soon as every required id has a truthy drawing. -/
def maybeEndRoundEarly (code : String) (rooms : RoomTable) : RoomTable × List Ev :=
  match getRoom code rooms with
  | none => (rooms, [])
  | some room =>
    let requiredIds :=
      match room.participants with
      | some l => l
      | none => room.players.map (fun p => p.id)
    if requiredIds = [] then (rooms, [])
    else
      let submittedCount := (requiredIds.filter (fun i => truthyA i room.drawings)).length
      if requiredIds.length ≤ submittedCount then endRound code rooms
      else (rooms, [])

/-- Firing of the deadline timer scheduled by `start-round`
(`setTimeout(() => endRound(code), ...)`).  A cleared timer never runs, so
the callback executes only while the handle is armed; the body is
`endRound`. -/
def deadlineFire (code : String) (rooms : RoomTable) : RoomTable × List Ev :=
  match getRoom code rooms with
  | none => (rooms, [])
  | some room => if room.roundTimeout then endRound code rooms else (rooms, [])

/-- The `toggle-ready` handler: a non-host player found by socket id has its
`isReady` flipped; the lobby update is emitted with the raw `room.players`
objects (not `publicPlayers`). -/
def toggleReady (sid code : String) (rooms : RoomTable) : RoomTable × List Ev :=
  let trimmedCode := normalizeCode code
  match getRoom trimmedCode rooms with
  | none => (rooms, [])
  | some room =>
    match room.players.find? (fun p => p.socketId = sid) with
    | none => (rooms, [])
    | some player =>
      if player.id ≠ room.host then
        let players1 := updateFirst (fun p => p.socketId = sid)
          (fun p => { p with isReady := ¬ p.isReady }) room.players
        let room1 := { room with players := players1 }
        (setRoom trimmedCode room1 rooms,
         [Ev.lobbyUpdate (Tgt.room trimmedCode) (rawWirePlayers room1.players) room1.host])
      else (rooms, [])

/-- The `start-round` handler.  Randomness is passed in: `pickedPrompt` is
the draw `getRandomPromptFromCategory` would return for a valid stored
category preference, `pickedRandom` the `(category, prompt)` pair
`getRandomPrompt` would return otherwise.  Note the chosen category is only
broadcast, never stored back into `room.category`. -/
def startRound (sid code : String) (now : Nat) (pickedPrompt : String)
    (pickedRandom : String × String) (rooms : RoomTable) : RoomTable × List Ev :=
  if (validateRoomCode (some code)).isSome then (rooms, [])
  else
    let trimmedCode := normalizeCode code
    match getRoom trimmedCode rooms with
    | none => (rooms, [])
    | some room =>
      match room.players.find? (fun p => p.socketId = sid) with
      | none => (rooms, [])
      | some player =>
        if player.id ≠ room.host then (rooms, [])
        else
          let duration := room.roundDuration
          let chosen : String × String :=
            match room.category with
            | some c => if promptKeys.contains c then (c, pickedPrompt) else pickedRandom
            | none => pickedRandom
          let endsAt := now + duration * 1000
          let room1 := { room with
            hostSocketId := sid,
            prompt := some chosen.2,
            drawings := [],
            participants := some (room.players.map (fun p => p.id)),
            players := room.players.map
              (fun p => if p.id ≠ room.host then { p with isReady := false } else p),
            endsAt := some endsAt,
            roundTimeout := true }
          (setRoom trimmedCode room1 rooms,
           [Ev.roundStart (Tgt.room trimmedCode) (some chosen.2) duration (some chosen.1) endsAt])

/-- The `update-settings` handler.  Mutation order follows the source: the
host binding is refreshed before the mid-round guard, and `roundDuration` is
written before the category is validated, so an invalid category returns with
the new duration already stored. -/
def updateSettings (sid code : String) (now : Nat) (rd : JsDur) (cat : JsCat)
    (rooms : RoomTable) : RoomTable × List Ev :=
  let trimmedCode := normalizeCode code
  match getRoom trimmedCode rooms with
  | none => (rooms, [])
  | some room =>
    match room.players.find? (fun p => p.socketId = sid) with
    | none => (rooms, [])
    | some player =>
      if player.id ≠ room.host then (rooms, [])
      else
        let room0 := { room with hostSocketId := sid }
        if room0.endsAt.isSome then (setRoom trimmedCode room0 rooms, [])
        else
          let step1 : Option Room :=
            match rd with
            | JsDur.undef => some room0
            | JsDur.num n =>
              if (validateRoundDuration (JsDur.num n)).isSome then none
              else some { room0 with roundDuration := n.toNat }
            | _ => none
          match step1 with
          | none => (setRoom trimmedCode room0 rooms, [])
          | some room1 =>
            let step2 : Option Room :=
              match cat with
              | JsCat.undef => some room1
              | JsCat.null => some { room1 with category := none }
              | JsCat.str s =>
                if promptKeys.contains s then some { room1 with category := some s } else none
              | JsCat.other => none
            match step2 with
            | none => (setRoom trimmedCode room1 rooms, [])
            | some room2 =>
              let room3 := { room2 with lastActivityAt := some now }
              (setRoom trimmedCode room3 rooms,
               [Ev.settingsUpdate (Tgt.room trimmedCode) room3.roundDuration room3.category])

/-- The `submit-drawing` handler.  `payload` is `none` for a non-string
`drawing` value; `maxBytes` is the configured `MAX_DRAWING_BYTES` ceiling.
Returns the new table, emitted events, and the acknowledgment. -/
def submitDrawing (sid code : String) (payload : Option String) (now maxBytes : Nat)
    (rooms : RoomTable) : RoomTable × List Ev × Except String Unit :=
  let trimmedCode := normalizeCode code
  match getRoom trimmedCode rooms with
  | none => (rooms, [], Except.error ("room-not-found"))
  | some room =>
    match room.endsAt with
    | none => (rooms, [], Except.error ("round-inactive-or-ended"))
    | some t =>
      if t < now then (rooms, [], Except.error ("round-inactive-or-ended"))
      else
        match room.players.find? (fun p => p.socketId = sid) with
        | none => (rooms, [], Except.error ("not-in-room"))
        | some player =>
          match payload with
          | none => (rooms, [], Except.error ("invalid-type"))
          | some drawing =>
            if ¬ jsStartsWith drawing ("data:image/") then
              (rooms, [], Except.error ("invalid-type"))
            else if ¬ (["image/png", "image/jpeg", "image/webp"].contains (mimeOf drawing)) then
              (rooms, [], Except.error ("unsupported-mime"))
            else if approxBytesOf drawing = 0 ∨ maxBytes < approxBytesOf drawing then
              (rooms, [], Except.error ("too-large"))
            else
              let room1 := { room with drawings := setA player.id drawing room.drawings }
              let res := maybeEndRoundEarly trimmedCode (setRoom trimmedCode room1 rooms)
              (res.1, res.2, Except.ok ())

/-- The `leave-room` handler: remove every player bound to the leaving
socket, prune an active round's participants and re-run the early-completion
check, then reassign the host (earliest remaining player) or delete the
now-empty room, finally broadcasting the membership. -/
def leaveRoom (sid code : String) (rooms : RoomTable) : RoomTable × List Ev :=
  let trimmedCode := normalizeCode code
  match getRoom trimmedCode rooms with
  | none => (rooms, [])
  | some room =>
    let leavingPlayer := room.players.find? (fun p => p.socketId = sid)
    let wasHost := sid = room.hostSocketId
    let players1 := room.players.filter (fun p => p.socketId ≠ sid)
    let room1 := { room with players := players1 }
    let pruned :=
      match room1.participants, leavingPlayer with
      | some parts, some lp =>
        maybeEndRoundEarly trimmedCode
          (setRoom trimmedCode
            { room1 with participants := some (parts.filter (fun i => i ≠ lp.id)) } rooms)
      | _, _ => (setRoom trimmedCode room1 rooms, [])
    match getRoom trimmedCode pruned.1 with
    | none => pruned
    | some room2 =>
      if wasHost then
        match room2.players with
        | newHost :: _ =>
          let room3 := { room2 with host := newHost.id, hostSocketId := newHost.socketId }
          (setRoom trimmedCode room3 pruned.1,
           pruned.2 ++ [Ev.lobbyUpdate (Tgt.room trimmedCode) (publicPlayers room3.players) room3.host])
        | [] => (delRoom trimmedCode pruned.1, pruned.2)
      else
        if room2.players = [] then (delRoom trimmedCode pruned.1, pruned.2)
        else
          (pruned.1,
           pruned.2 ++ [Ev.lobbyUpdate (Tgt.room trimmedCode) (publicPlayers room2.players) room2.host])

/-- Remove the first element satisfying the predicate, returning it
(`findIndex` followed by `splice(idx, 1)`). -/
def removeFirst (p : α → Bool) : List α → Option α × List α
  | [] => (none, [])
  | a :: t =>
    if p a then (some a, t)
    else
      let r := removeFirst p t
      (r.1, a :: r.2)

/-- Expiry of a disconnect-grace timer for player `pid` (the `setTimeout`
callback body in the `disconnecting` handler): remove the player, prune an
active round's participants and re-check early completion, then promote a
new host or delete the empty room, broadcasting membership to survivors. -/
def graceExpire (code pid : String) (rooms : RoomTable) : RoomTable × List Ev :=
  match getRoom code rooms with
  | none => (rooms, [])
  | some r =>
    let rem := removeFirst (fun p => p.id = pid) r.players
    match rem.1 with
    | none => (rooms, [])
    | some removedPlayer =>
      let wasHost := r.host = removedPlayer.id
      let r1 := { r with players := rem.2 }
      let pruned :=
        match r1.participants with
        | some parts =>
          maybeEndRoundEarly code
            (setRoom code
              { r1 with participants := some (parts.filter (fun i => i ≠ removedPlayer.id)) } rooms)
        | none => (setRoom code r1 rooms, [])
      match getRoom code pruned.1 with
      | none => pruned
      | some r2 =>
        if wasHost then
          match r2.players with
          | newHost :: _ =>
            let r3 := { r2 with host := newHost.id, hostSocketId := newHost.socketId }
            (setRoom code r3 pruned.1,
             pruned.2 ++ [Ev.lobbyUpdate (Tgt.room code) (publicPlayers r3.players) r3.host])
          | [] => (delRoom code pruned.1, pruned.2)
        else
          if r2.players ≠ [] then
            (pruned.1,
             pruned.2 ++ [Ev.lobbyUpdate (Tgt.room code) (publicPlayers r2.players) r2.host])
          else (delRoom code pruned.1, pruned.2)

/-- The `disconnecting` handler for one room containing the closing socket:
schedule (or reschedule) a grace removal for the bound player. -/
def disconnecting (sid code : String) (rooms : RoomTable) : RoomTable :=
  match getRoom code rooms with
  | none => rooms
  | some room =>
    match room.players.find? (fun p => p.socketId = sid) with
    | none => rooms
    | some lp =>
      setRoom code
        { room with pendingRemovals :=
            if room.pendingRemovals.contains lp.id then room.pendingRemovals
            else room.pendingRemovals ++ [lp.id] } rooms

/-- The `rejoin-room` handler.  `sign` abstracts the HMAC-SHA256 hex-digest
issuer `sign(value)` (the digest of `value` under the process secret; its
outputs are 64 lowercase hex characters).  `nickname` is `none` for a
missing or non-string nickname field.  On a verified token the player's
socket binding is refreshed (or the pruned seat is recreated under the same
id), the pending grace removal is cancelled, settings are replayed to the
rejoining socket, an active round is replayed with the remaining time
recomputed from `endsAt`, and membership is broadcast. -/
def rejoinRoom (sign : String → String) (sid code pid token : String)
    (nickname : Option String) (now : Nat) (rooms : RoomTable) :
    RoomTable × List Ev × Except String (String × String) :=
  let trimmedCode := normalizeCode code
  match getRoom trimmedCode rooms with
  | none => (rooms, [], Except.error ("Room not found"))
  | some room =>
    if pid = "" ∨ token = "" then (rooms, [], Except.error ("Missing credentials"))
    else
      let expected := sign (trimmedCode ++ "|" ++ pid)
      if ¬ safeEqualHex token expected then (rooms, [], Except.error ("Invalid token"))
      else
        let players1 :=
          match room.players.find? (fun p => p.id = pid) with
          | some _ =>
            updateFirst (fun q => q.id = pid) (fun q => { q with socketId := sid }) room.players
          | none =>
            let restoredNickname :=
              match nickname with
              | some s => if trimWs s.data ≠ [] then trimWs s.data else ("Player".data)
              | none => ("Player".data)
            room.players ++
              [{ id := pid, socketId := sid, nickname := restoredNickname, isReady := false }]
        let room1 := { room with
          players := players1
          pendingRemovals := room.pendingRemovals.filter (fun i => i ≠ pid) }
        let room2 := if room1.host = pid then { room1 with hostSocketId := sid } else room1
        let evs :=
          [Ev.settingsUpdate (Tgt.sock sid) room2.roundDuration room2.category] ++
          (match room2.endsAt with
           | some t =>
             if now < t then
               [Ev.roundStart (Tgt.sock sid) room2.prompt ((t - now + 999) / 1000) room2.category t]
             else []
           | none => []) ++
          [Ev.lobbyUpdate (Tgt.room trimmedCode) (publicPlayers room2.players) room2.host]
        (setRoom trimmedCode room2 rooms, evs, Except.ok (pid, room2.host))

/-- The `join-room` handler.  `newId` stands for the fresh `generateId()`
draw, `rateLimited` for the per-IP sliding-window verdict (bucket state is
socket-local), `maxPlayers` for `MAX_PLAYERS_PER_ROOM`. -/
def joinRoom (sign : String → String) (sid code nickname newId : String)
    (maxPlayers : Nat) (rateLimited : Bool) (rooms : RoomTable) :
    RoomTable × List Ev × Except String (String × String × List Char) :=
  match validateRoomCode (some code) with
  | some e => (rooms, [], Except.error e)
  | none =>
    match validateNickname (some nickname) with
    | some e => (rooms, [], Except.error e)
    | none =>
      let trimmedCode := normalizeCode code
      let trimmedNickname := trimWs nickname.data
      match getRoom trimmedCode rooms with
      | none => (rooms, [], Except.error ("Room not found"))
      | some room =>
        if rateLimited then (rooms, [], Except.error ("Too many join attempts"))
        else if maxPlayers ≤ room.players.length then (rooms, [], Except.error ("Room is full"))
        else
          let assignedNickname :=
            assignUniqueNickname trimmedNickname (room.players.map (fun p => p.nickname))
          if (room.players.find? (fun p => p.socketId = sid)).isSome then
            (rooms, [], Except.error ("Already joined"))
          else
            let player : Player :=
              { id := newId, socketId := sid, nickname := assignedNickname, isReady := false }
            let room1 := { room with players := room.players ++ [player] }
            (setRoom trimmedCode room1 rooms,
             [Ev.lobbyUpdate (Tgt.room trimmedCode) (publicPlayers room1.players) room1.host,
              Ev.settingsUpdate (Tgt.sock sid) room1.roundDuration room1.category],
             Except.ok (newId, sign (trimmedCode ++ "|" ++ newId), assignedNickname))

/-- Fractional base-36 digits of the dyadic rational `k / 2 ^ 53` (the exact
set of values `Math.random()` ranges over), most significant first.  The
expansion terminates within 27 digits because `2 ^ 53` divides `36 ^ 27`;
`toString(36)` prints exactly these digits after `0.` for values whose
expansion is short. -/
def frac36 (k : Nat) : Nat → List Nat
  | 0 => []
  | fuel + 1 =>
    if k = 0 then []
    else (k * 36 / 2 ^ 53) :: frac36 (k * 36 % 2 ^ 53) fuel

/-- Base-36 digit character (`0`-`9` then `a`-`z`), as produced by JS
`Number.prototype.toString(36)`. -/
def base36Char (d : Nat) : Char :=
  if d < 10 then Char.ofNat (48 + d) else Char.ofNat (87 + d)

/-- `Math.random().toString(36).substring(2, 7).toUpperCase()` for the draw
`k / 2 ^ 53`: up to five characters — fewer when the expansion of the drawn
value has fewer than five fractional digits. -/
def randCode (k : Nat) : String :=
  String.mk (((frac36 k 54).take 5).map (fun d => Char.toUpper (base36Char d)))

/-- The code-generation `do … while` loop of the `host-room` handler over a
stream of `Math.random()` draws (each a numerator over `2 ^ 53`).  Returns
the final code and the attempt count; the caller fails when ten attempts
were used up. -/
def genCodeAux (rooms : RoomTable) : List Nat → Nat → String × Nat
  | [], attempts => ("", attempts)
  | k :: rest, attempts =>
    let code := randCode k
    let attempts1 := attempts + 1
    if (getRoom code rooms).isSome ∧ attempts1 < 10 then genCodeAux rooms rest attempts1
    else (code, attempts1)

/-- The `host-room` handler: validate the nickname, draw a room code not
already in the table (bounded retries, failing loudly when exhausted),
create the room with the creator as permanently-ready host, and emit the
initial membership plus a private settings snapshot. -/
def hostRoom (sid : String) (nickname : Option String) (newPid : String) (now : Nat)
    (stream : List Nat) (sign : String → String) (rooms : RoomTable) :
    RoomTable × List Ev × Except String (String × String × String) :=
  match validateNickname nickname with
  | some e => (rooms, [], Except.error e)
  | none =>
    let trimmedNickname := trimWs ((nickname.getD "").data)
    let gen := genCodeAux rooms stream 0
    if 10 ≤ gen.2 then (rooms, [], Except.error ("Unable to generate unique room code"))
    else
      let code := gen.1
      let room : Room :=
        { host := newPid, hostSocketId := sid,
          players := [{ id := newPid, socketId := sid, nickname := trimmedNickname, isReady := true }],
          drawings := [], prompt := none, category := none, roundDuration := 60,
          createdAt := now, participants := none, endsAt := none, roundTimeout := false,
          pendingRemovals := [], lastActivityAt := none }
      (setRoom code room rooms,
       [Ev.lobbyUpdate (Tgt.room code) (publicPlayers room.players) room.host,
        Ev.settingsUpdate (Tgt.sock sid) room.roundDuration room.category],
       Except.ok (code, newPid, sign (code ++ "|" ++ newPid)))

/-- C1 fixture: a room that has already left `RoundActive` — `endsAt`,
`participants` and `prompt` cleared, deadline timer disarmed — with the
previous round's drawings still stored (`endRound` never clears them). -/
def c1Room : Room :=
  { host := "h1", hostSocketId := "s1",
    players := [{ id := "h1", socketId := "s1", nickname := "Ann".data, isReady := true }],
    drawings := [("h1", "data:image/png;base64,AAAA")],
    prompt := none, category := none, roundDuration := 60, createdAt := 0,
    participants := none, endsAt := none, roundTimeout := false,
    pendingRemovals := [], lastActivityAt := none }

/-- C3 fixture: a lobby-state room with the default duration of 60 and no
category preference. -/
def c3Room : Room :=
  { host := "h3", hostSocketId := "s3",
    players := [{ id := "h3", socketId := "s3", nickname := "Ann".data, isReady := true }],
    drawings := [], prompt := none, category := none, roundDuration := 60, createdAt := 0,
    participants := none, endsAt := none, roundTimeout := false,
    pendingRemovals := [], lastActivityAt := none }

/-- C4 fixture: an active round whose `participants` snapshot has shrunk to
the single player `p42` (the other current player joined mid-round), with no
drawings submitted. -/
def c4Room : Room :=
  { host := "p42", hostSocketId := "s42",
    players := [{ id := "p42", socketId := "s42", nickname := "Bob".data, isReady := true },
                { id := "p43", socketId := "s43", nickname := "Cat".data, isReady := false }],
    drawings := [], prompt := some "cat", category := none, roundDuration := 30, createdAt := 0,
    participants := some ["p42"], endsAt := some 50000, roundTimeout := true,
    pendingRemovals := [], lastActivityAt := none }

/-- C4 witness fixture: an active round where every participant has a truthy
recorded drawing. -/
def c4RoomW : Room :=
  { host := "h4", hostSocketId := "s4",
    players := [{ id := "h4", socketId := "s4", nickname := "Ann".data, isReady := true }],
    drawings := [("h4", "data:image/png;base64,AAAA")],
    prompt := some "cat", category := none, roundDuration := 30, createdAt := 0,
    participants := some ["h4"], endsAt := some 40000, roundTimeout := true,
    pendingRemovals := [], lastActivityAt := none }

/-- C5 fixture: lobby room with a random category preference
(`category = none`) about to start a round. -/
def c5Room : Room :=
  { host := "h5", hostSocketId := "s5",
    players := [{ id := "h5", socketId := "s5", nickname := "Ann".data, isReady := true }],
    drawings := [], prompt := none, category := none, roundDuration := 30, createdAt := 0,
    participants := none, endsAt := none, roundTimeout := false,
    pendingRemovals := [], lastActivityAt := none }

/-- C5 stand-in for the HMAC issuer: a constant 64-lowercase-hex digest
(every HMAC-SHA256 hex digest has this shape). -/
def c5sign : String → String := fun _ => String.mk (List.replicate 64 'a')

/-- C5 token equal to the issued digest. -/
def c5tok : String := String.mk (List.replicate 64 'a')

/-- C5: the round started at time 0 where `getRandomPrompt` drew the category
`animals` with prompt `cat`. -/
def c5Start : RoomTable × List Ev :=
  startRound "s5" "RRRRR" 0 "unused" ("animals", "cat") [("RRRRR", c5Room)]

/-- C6 stand-in for the HMAC issuer (64 lowercase hex characters, the shape
of every HMAC-SHA256 hex digest regardless of the secret). -/
def c6sign : String → String := fun _ => String.mk (List.replicate 64 'a')

/-- C6: the upper-cased form of the issued digest — a different string with
the same hex decoding. -/
def c6tokU : String := String.mk (List.replicate 64 'A')

/-- C6 fixture room. -/
def c6Room : Room :=
  { host := "h6", hostSocketId := "s6",
    players := [{ id := "h6", socketId := "s6", nickname := "Ann".data, isReady := true },
                { id := "p61", socketId := "s61", nickname := "Bob".data, isReady := false }],
    drawings := [], prompt := none, category := none, roundDuration := 60, createdAt := 0,
    participants := none, endsAt := none, roundTimeout := false,
    pendingRemovals := [], lastActivityAt := none }

/-- C9 stand-in for the token issuer (its value is irrelevant here). -/
def c9sign : String → String := fun _ => "t"

/-- C10 fixture: host plus one non-host player. -/
def c10Room : Room :=
  { host := "hX", hostSocketId := "sX",
    players := [{ id := "hX", socketId := "sX", nickname := "Ann".data, isReady := true },
                { id := "pY", socketId := "sY", nickname := "Bob".data, isReady := false }],
    drawings := [], prompt := none, category := none, roundDuration := 60, createdAt := 0,
    participants := none, endsAt := none, roundTimeout := false,
    pendingRemovals := [], lastActivityAt := none }

/-- The host invariant of a live room: the player list is non-empty, stable
ids are pairwise distinct, the host id belongs to a current player, and the
host player's socket binding agrees with `room.hostSocketId`. -/
def HostInv (r : Room) : Prop :=
  r.players ≠ [] ∧
  (r.players.map Player.id).Nodup ∧
  r.host ∈ r.players.map Player.id ∧
  ∀ p ∈ r.players, p.id = r.host → p.socketId = r.hostSocketId

/-- Invariant of the whole room table: room codes are distinct keys and every
stored room satisfies `HostInv`. -/
def TableInv (tbl : RoomTable) : Prop :=
  (tbl.map Prod.fst).Nodup ∧ ∀ c r, getRoom c tbl = some r → HostInv r

/-- The tables reachable from the empty server state by the embedded
handlers and timer firings.  `sign` is the (arbitrary) token issuer.  The
`generateId()` draws (`newPid`, `newId`) carry the freshness assumption the
server relies on for its random ids. -/
inductive Reachable (sign : String → String) : RoomTable → Prop where
  | empty : Reachable sign []
  | host : ∀ sid nickname newPid now stream tbl, Reachable sign tbl →
      Reachable sign (hostRoom sid nickname newPid now stream sign tbl).1
  | join : ∀ sid code nickname newId maxPlayers rateLimited tbl, Reachable sign tbl →
      (∀ c r, getRoom c tbl = some r → ∀ p ∈ r.players, p.id ≠ newId) →
      Reachable sign (joinRoom sign sid code nickname newId maxPlayers rateLimited tbl).1
  | rejoin : ∀ sid code pid token nickname now tbl, Reachable sign tbl →
      Reachable sign (rejoinRoom sign sid code pid token nickname now tbl).1
  | toggle : ∀ sid code tbl, Reachable sign tbl →
      Reachable sign (toggleReady sid code tbl).1
  | start : ∀ sid code now pickedPrompt pickedRandom tbl, Reachable sign tbl →
      Reachable sign (startRound sid code now pickedPrompt pickedRandom tbl).1
  | settings : ∀ sid code now rd cat tbl, Reachable sign tbl →
      Reachable sign (updateSettings sid code now rd cat tbl).1
  | submit : ∀ sid code payload now maxB tbl, Reachable sign tbl →
      Reachable sign (submitDrawing sid code payload now maxB tbl).1
  | leave : ∀ sid code tbl, Reachable sign tbl →
      Reachable sign (leaveRoom sid code tbl).1
  | gracex : ∀ code pid tbl, Reachable sign tbl →
      Reachable sign (graceExpire code pid tbl).1
  | deadline : ∀ code tbl, Reachable sign tbl →
      Reachable sign (deadlineFire code tbl).1
  | disc : ∀ sid code tbl, Reachable sign tbl →
      Reachable sign (disconnecting sid code tbl)

/-- C2 stand-in for the token issuer. -/
def c2sign : String → String := fun _ => "aa"

/-- C2 fixture, step 1: `Ann` hosts; the first `Math.random()` draw
`1234567890123456 / 2 ^ 53` yields the 5-character code `4XMVU`. -/
def c2t1 : RoomTable := (hostRoom ("sA") (some ("Ann")) ("idA") 0 [1234567890123456] c2sign []).1

/-- C2 fixture, step 2: `Bob` joins with fresh id `idB`. -/
def c2t2 : RoomTable := (joinRoom c2sign ("sB") ("4XMVU") ("Bob") ("idB") 12 false c2t1).1

/-- C2 fixture, step 3: the host leaves, promoting `Bob`. -/
def c2t3 : RoomTable := (leaveRoom ("sA") ("4XMVU") c2t2).1

/-- C2: the room as it stands after step 1. -/
def c2RoomA : Room :=
  { host := "idA", hostSocketId := "sA",
    players := [{ id := "idA", socketId := "sA", nickname := "Ann".data, isReady := true }],
    drawings := [], prompt := none, category := none, roundDuration := 60, createdAt := 0,
    participants := none, endsAt := none, roundTimeout := false,
    pendingRemovals := [], lastActivityAt := none }

/-- C2: the room as it stands after step 3 — `Bob` is host, still not
ready. -/
def c2FinalRoom : Room :=
  { host := "idB", hostSocketId := "sB",
    players := [{ id := "idB", socketId := "sB", nickname := "Bob".data, isReady := false }],
    drawings := [], prompt := none, category := none, roundDuration := 60, createdAt := 0,
    participants := none, endsAt := none, roundTimeout := false,
    pendingRemovals := [], lastActivityAt := none }

/-- Claim-side reading of a well-typed drawing payload (used only to state
the C7 counterexample): a `data:image/` URI whose MIME type — the mediatype
ending at the first `;` or `,` per the data-URI grammar — is `png`, `jpeg`
or `webp`. -/
def claimMimeAllowed (s : String) : Bool :=
  (["png", "jpeg", "webp"]).any (fun m =>
    jsStartsWith s ("data:image/" ++ m ++ ";") || jsStartsWith s ("data:image/" ++ m ++ ","))

/-- C7 fixture: an active round with the host as sole participant. -/
def c7Room : Room :=
  { host := "h7", hostSocketId := "s7",
    players := [{ id := "h7", socketId := "s7", nickname := "Ann".data, isReady := true }],
    drawings := [], prompt := some "cat", category := none, roundDuration := 60, createdAt := 0,
    participants := some ["h7"], endsAt := some 60000, roundTimeout := true,
    pendingRemovals := [], lastActivityAt := none }

/-- C7 witness fixture: an active round, host not yet submitted. -/
def c7RoomW : Room :=
  { host := "h8", hostSocketId := "s8",
    players := [{ id := "h8", socketId := "s8", nickname := "Ann".data, isReady := true },
                { id := "p81", socketId := "s81", nickname := "Bob".data, isReady := false }],
    drawings := [], prompt := some "dog", category := none, roundDuration := 60, createdAt := 0,
    participants := some ["h8", "p81"], endsAt := some 60000, roundTimeout := true,
    pendingRemovals := [], lastActivityAt := none }

/-- Looking up the key just written returns the written room. -/
theorem getRoom_setRoom_eq (code : String) (room : Room) (tbl : RoomTable) :
    getRoom code (setRoom code room tbl) = some room := by
  induction tbl with
  | nil => simp [setRoom, getRoom]
  | cons hd t ih =>
    by_cases h : hd.1 = code
    · simp [setRoom, getRoom, h]
    · simp [setRoom, getRoom, h, ih]

/-- Looking up a different key after a write is unchanged. -/
theorem getRoom_setRoom_ne (code code2 : String) (room : Room) (tbl : RoomTable)
    (h : code2 ≠ code) : getRoom code2 (setRoom code room tbl) = getRoom code2 tbl := by
  induction tbl with
  | nil => simp [setRoom, getRoom, Ne.symm h]
  | cons hd t ih =>
    by_cases hh : hd.1 = code
    · simp [setRoom, getRoom, hh, h, Ne.symm h]
    · simp [setRoom, getRoom, hh, ih]

/-- C1 counterexample: calling `endRound` on a room that has already left
`RoundActive` (`endsAt`, `participants`, `prompt` all cleared, timer
disarmed) is not a no-op — it emits a second `round-end` broadcast carrying
the stale drawings. -/
theorem endRound_reemits_after_round_over :
    c1Room.endsAt = none ∧ c1Room.participants = none ∧ c1Room.prompt = none ∧
    c1Room.roundTimeout = false ∧
    (endRound ("ABCDE") [("ABCDE", c1Room)]).2 =
      [Ev.roundEnd (Tgt.room ("ABCDE")) [("h1", "data:image/png;base64,AAAA")]] :=
  ⟨rfl, rfl, rfl, rfl, rfl⟩

/-- C1 amended: `endRound` itself is unguarded, but once a room has left
`RoundActive` (fields cleared, deadline timer disarmed — exactly the state
`endRound` leaves behind, final conjunct) none of the triggers emits another
`round-end`: the deadline timer cannot fire, a submission is rejected before
reaching the early-completion check, and the two pruning paths skip the check
because the `participants` snapshot is gone.  Hence the round-end broadcast
fires at most once per round. -/
theorem round_end_not_retriggered (code : String) (tbl : RoomTable) (r : Room)
    (hNorm : normalizeCode code = code) (hGet : getRoom code tbl = some r)
    (hEnds : r.endsAt = none) (hParts : r.participants = none)
    (hTim : r.roundTimeout = false) :
    (deadlineFire code tbl).2 = [] ∧
    (∀ sid payload now maxB, (submitDrawing sid code payload now maxB tbl).2.1 = []) ∧
    (∀ sid, ((leaveRoom sid code tbl).2.any Ev.isRoundEnd) = false) ∧
    (∀ pid, ((graceExpire code pid tbl).2.any Ev.isRoundEnd) = false) ∧
    (∀ tbl2 r2, getRoom code tbl2 = some r2 →
      ∃ r3, getRoom code (endRound code tbl2).1 = some r3 ∧ r3.endsAt = none ∧
        r3.participants = none ∧ r3.roundTimeout = false) := by
  refine ⟨?_, ?_, ?_, ?_, ?_⟩
  · simp [deadlineFire, hGet, hTim]
  · intro sid payload now maxB
    simp only [submitDrawing, hNorm, hGet, hEnds]
  · intro sid
    simp only [leaveRoom, hNorm, hGet, hParts]
    cases hfind : r.players.find? (fun p => p.socketId = sid) <;>
      simp only [getRoom_setRoom_eq] <;>
      split <;> (try split) <;> simp [Ev.isRoundEnd]
  · intro pid
    simp only [graceExpire, hGet]
    cases hrem : (removeFirst (fun p => p.id = pid) r.players).1 <;> simp only []
    · simp
    · simp only [hParts, getRoom_setRoom_eq]
      split <;> (try split) <;> simp [Ev.isRoundEnd]
  · intro tbl2 r2 hget2
    simp only [endRound, hget2]
    exact ⟨_, getRoom_setRoom_eq _ _ _, rfl, rfl, rfl⟩

/-- C1 witness: the hypotheses of `round_end_not_retriggered` hold at the
concrete fixture and its first conclusion evaluates there. -/
theorem round_end_not_retriggered_witness :
    normalizeCode ("ABCDE") = "ABCDE" ∧
    getRoom ("ABCDE") [("ABCDE", c1Room)] = some c1Room ∧
    c1Room.endsAt = none ∧ c1Room.participants = none ∧ c1Room.roundTimeout = false ∧
    (deadlineFire ("ABCDE") [("ABCDE", c1Room)]).2 = [] :=
  ⟨rfl, rfl, rfl, rfl, rfl,
    (round_end_not_retriggered "ABCDE" [("ABCDE", c1Room)] c1Room rfl rfl rfl rfl rfl).1⟩

/-- C3: evaluation at the failing input.  The host updates settings with a
valid duration (30) and an invalid category while no round is active: the
request is rejected (no `settings-update` broadcast is emitted), yet
`roundDuration` has been mutated from 60 to 30 — the handler validates the
category only after writing the duration. -/
theorem updateSettings_partial_mutation :
    c3Room.roundDuration = 60 ∧
    (updateSettings ("s3") ("QQQQQ") 1000 (JsDur.num 30) (JsCat.str ("bogus"))
      [("QQQQQ", c3Room)]).2 = [] ∧
    getRoom ("QQQQQ") (updateSettings ("s3") ("QQQQQ") 1000 (JsDur.num 30)
      (JsCat.str ("bogus")) [("QQQQQ", c3Room)]).1 =
      some { c3Room with roundDuration := 30 } :=
  ⟨rfl, rfl, rfl⟩

/-- C4 counterexample: during an active round (`endsAt = 50000`), the last
remaining participant leaves; the pruned snapshot becomes empty, so every id
in it vacuously has a drawing, yet no `round-end` is emitted and `endsAt`
stays set — `maybeEndRoundEarly` returns early on an empty required list and
the round waits for the deadline timer. -/
theorem leave_empty_participants_round_stalls :
    c4Room.participants = some ["p42"] ∧ c4Room.endsAt = some 50000 ∧
    ((leaveRoom ("s42") ("WWWWW") [("WWWWW", c4Room)]).2.any Ev.isRoundEnd) = false ∧
    (getRoom ("WWWWW") (leaveRoom ("s42") ("WWWWW") [("WWWWW", c4Room)]).1).map
      (fun r => (r.endsAt, r.participants)) = some (some 50000, some []) :=
  ⟨rfl, rfl, rfl, rfl⟩

/-- C4 amended: whenever the live `participants` snapshot is non-empty and
every id in it has a truthy recorded drawing, the early-completion check ends
the round on the spot — `round-end` is broadcast and `endsAt`,
`participants`, `prompt` and the deadline timer are cleared; but when pruning
has left the snapshot empty the check does nothing and the round only ends at
the deadline (final conjunct). -/
theorem early_end_when_all_submitted (code : String) (tbl : RoomTable) (r : Room)
    (l : List String) (hGet : getRoom code tbl = some r) (hParts : r.participants = some l)
    (hne : l ≠ []) (hall : ∀ i ∈ l, truthyA i r.drawings = true) :
    (maybeEndRoundEarly code tbl).2 = [Ev.roundEnd (Tgt.room code) r.drawings] ∧
    (∃ r1, getRoom code (maybeEndRoundEarly code tbl).1 = some r1 ∧ r1.endsAt = none ∧
      r1.participants = none ∧ r1.prompt = none ∧ r1.roundTimeout = false) ∧
    (∀ code2 tbl2 r2, getRoom code2 tbl2 = some r2 → r2.participants = some [] →
      maybeEndRoundEarly code2 tbl2 = (tbl2, [])) := by
  have hfilter : l.filter (fun i => truthyA i r.drawings) = l :=
    List.filter_eq_self.mpr hall
  refine ⟨?_, ?_, ?_⟩
  · simp [maybeEndRoundEarly, hGet, hParts, hne, hfilter, endRound]
  · simp only [maybeEndRoundEarly, hGet, hParts, if_neg hne, hfilter, le_refl, if_pos]
    simp only [endRound, hGet]
    exact ⟨_, getRoom_setRoom_eq _ _ _, rfl, rfl, rfl, rfl⟩
  · intro code2 tbl2 r2 hget2 hparts2
    simp [maybeEndRoundEarly, hget2, hparts2]

/-- C4 witness: the hypotheses of `early_end_when_all_submitted` hold at the
concrete fixture, where the check does end the round immediately. -/
theorem early_end_when_all_submitted_witness :
    getRoom ("VVVVV") [("VVVVV", c4RoomW)] = some c4RoomW ∧
    c4RoomW.participants = some ["h4"] ∧
    (["h4"] ≠ ([] : List String)) ∧
    truthyA ("h4") c4RoomW.drawings = true ∧
    (maybeEndRoundEarly ("VVVVV") [("VVVVV", c4RoomW)]).2 =
      [Ev.roundEnd (Tgt.room ("VVVVV")) c4RoomW.drawings] := by
  refine ⟨rfl, rfl, by decide, rfl, ?_⟩
  exact (early_end_when_all_submitted "VVVVV" [("VVVVV", c4RoomW)] c4RoomW ["h4"] rfl rfl
    (by decide) (by intro i hi; simp only [List.mem_singleton] at hi; subst hi; rfl)).1

/-- C5 counterexample: the round was started with a random category draw
(`animals`, prompt `cat`) while the room's stored preference is `none`; the
original broadcast carries `category = some "animals"`, but the rejoin replay
carries `category = none` — the round's actual category is not replayed,
because `start-round` never stores the drawn category back into
`room.category`. -/
theorem rejoin_replay_category_mismatch :
    c5Start.2 = [Ev.roundStart (Tgt.room ("RRRRR")) (some ("cat")) 30 (some ("animals")) 30000] ∧
    (rejoinRoom c5sign ("s5b") ("RRRRR") ("h5") c5tok none 5000 c5Start.1).2.1 =
      [Ev.settingsUpdate (Tgt.sock ("s5b")) 30 none,
       Ev.roundStart (Tgt.sock ("s5b")) (some ("cat")) 25 none 30000,
       Ev.lobbyUpdate (Tgt.room ("RRRRR"))
         [{ id := "h5", nickname := "Ann".data, isReady := true, socketId := none }] ("h5")] := by
  constructor
  · rfl
  · rfl

/-- C5 amended: on a successful rejoin while a round is active the server
unicasts a `round-start` replay to the rejoining connection with `duration`
recomputed as the remaining whole seconds (`max(0, ceil((endsAt - now) /
1000))`, here in its `Nat` form) and the original `prompt` and `endsAt`;
its `category` field is the room's stored preference — `null` when the
round's category was drawn randomly — not necessarily the round's actual
category. -/
theorem rejoin_replay_remaining (sign : String → String) (sid code pid token : String)
    (nickname : Option String) (now : Nat) (tbl : RoomTable) (room : Room) (t : Nat)
    (hGet : getRoom (normalizeCode code) tbl = some room)
    (hPid : pid ≠ "") (hTok : token ≠ "")
    (hSig : safeEqualHex token (sign (normalizeCode code ++ "|" ++ pid)) = true)
    (hEnds : room.endsAt = some t) (hNow : now < t) :
    ((rejoinRoom sign sid code pid token nickname now tbl).2.1.take 2 =
      [Ev.settingsUpdate (Tgt.sock sid) room.roundDuration room.category,
       Ev.roundStart (Tgt.sock sid) room.prompt ((t - now + 999) / 1000) room.category t]) ∧
    (rejoinRoom sign sid code pid token nickname now tbl).2.2 = Except.ok (pid, room.host) := by
  simp only [rejoinRoom, hGet]
  rw [if_neg (by simp [hPid, hTok]), if_neg (by simp [hSig])]
  cases hfind : room.players.find? (fun p => p.id = pid) <;>
    simp only [hfind] <;>
    by_cases hhost : room.host = pid <;>
    simp [hhost, hEnds, hNow]

/-- C5 witness: the hypotheses of `rejoin_replay_remaining` hold at the
concrete started round and the rejoin acknowledgment succeeds there. -/
theorem rejoin_replay_remaining_witness :
    safeEqualHex c5tok (c5sign (normalizeCode ("RRRRR") ++ "|" ++ "h5")) = true ∧
    (5000 : Nat) < 30000 ∧
    (rejoinRoom c5sign ("s5b") ("RRRRR") ("h5") c5tok none 5000 c5Start.1).2.2 =
      Except.ok (("h5" : String), ("h5" : String)) := by
  have hGet : getRoom (normalizeCode ("RRRRR")) c5Start.1 = some
      { host := "h5", hostSocketId := "s5",
        players := [{ id := "h5", socketId := "s5", nickname := "Ann".data, isReady := true }],
        drawings := [], prompt := some "cat", category := none, roundDuration := 30,
        createdAt := 0, participants := some ["h5"], endsAt := some 30000,
        roundTimeout := true, pendingRemovals := [], lastActivityAt := none } := rfl
  refine ⟨by decide, by decide, ?_⟩
  exact (rejoin_replay_remaining c5sign "s5b" "RRRRR" "h5" c5tok none 5000 c5Start.1 _ 30000
    hGet (by decide) (by decide) (by decide) rfl (by decide)).2

/-- C6 counterexample: the upper-cased form of the issued signature differs
from the recomputed signature as a string, yet `rejoin-room` acknowledges
success, because `safeEqualHex` compares the hex-decoded bytes and Node hex
decoding is case-insensitive.  (The stand-in issuer returns a constant
64-lowercase-hex digest — the shape every HMAC-SHA256 hex digest has, for
every secret.) -/
theorem rejoin_accepts_uppercase_token :
    c6tokU ≠ c6sign ("EEEEE|p61") ∧
    (rejoinRoom c6sign ("s61b") ("EEEEE") ("p61") c6tokU none 0
      [("EEEEE", c6Room)]).2.2 = Except.ok (("p61" : String), ("h6" : String)) := by
  exact ⟨by decide, rfl⟩

/-- C6 amended: `rejoin-room` succeeds only when the presented token
hex-decodes to the same non-empty byte sequence as the recomputed signature
(`safeEqualHex`); whenever the decoded bytes differ the acknowledgment is an
error and the table — players, host, pending removal timers, everything — is
left unchanged, with no events emitted. -/
theorem rejoin_token_reject (sign : String → String) (sid code pid token : String)
    (nickname : Option String) (now : Nat) (tbl : RoomTable)
    (hSig : safeEqualHex token (sign (normalizeCode code ++ "|" ++ pid)) = false) :
    (∃ e, (rejoinRoom sign sid code pid token nickname now tbl).2.2 = Except.error e) ∧
    (rejoinRoom sign sid code pid token nickname now tbl).1 = tbl ∧
    (rejoinRoom sign sid code pid token nickname now tbl).2.1 = [] := by
  simp only [rejoinRoom]
  cases hGet : getRoom (normalizeCode code) tbl with
  | none => exact ⟨⟨_, rfl⟩, rfl, rfl⟩
  | some room =>
    dsimp only
    by_cases hpt : pid = "" ∨ token = ""
    · rw [if_pos hpt]
      exact ⟨⟨_, rfl⟩, rfl, rfl⟩
    · rw [if_neg hpt, if_pos (by simp [hSig])]
      exact ⟨⟨_, rfl⟩, rfl, rfl⟩

/-- C6 witness: a token whose bytes differ from the signature is rejected and
mutates nothing, at a concrete instance. -/
theorem rejoin_token_reject_witness :
    safeEqualHex ("bb") (c6sign (normalizeCode ("EEEEE") ++ "|" ++ "p61")) = false ∧
    (rejoinRoom c6sign ("s61b") ("EEEEE") ("p61") ("bb") none 0
      [("EEEEE", c6Room)]).1 = [("EEEEE", c6Room)] := by
  refine ⟨by decide, ?_⟩
  exact (rejoin_token_reject c6sign "s61b" "EEEEE" "p61" "bb" none 0
    [("EEEEE", c6Room)] (by decide)).2.1

/-- C9: evaluation at the failing input.  `Math.random()` can return exactly
one half (`2 ^ 52 / 2 ^ 53`), whose base-36 string is `0.i`; the generated
room code is then the single character `I`: the room is created under a
1-character code, which the server's own `validateRoomCode` (applied on every
join) rejects.  (`host-room` succeeds and hands out this code.) -/
theorem host_room_generates_short_code :
    (hostRoom ("s9") (some ("Ann")) ("pid9") 0 [2 ^ 52] c9sign []).2.2 =
      Except.ok (("I" : String), ("pid9" : String), ("t" : String)) ∧
    ("I" : String).length = 1 ∧
    (getRoom ("I") (hostRoom ("s9") (some ("Ann")) ("pid9") 0 [2 ^ 52] c9sign []).1).isSome
      = true ∧
    validateRoomCode (some ("I")) = some ("Room code must be 5 characters") := by
  refine ⟨rfl, rfl, rfl, rfl⟩

/-- C10: evaluation at the failing input.  A non-host player toggles ready:
the `lobby-update` broadcast carries the raw stored player objects, socketId
field included (`some "sX"`, `some "sY"`) — the handler sends `room.players`
instead of `publicPlayers(room.players)`. -/
theorem toggle_ready_broadcasts_socketId :
    (toggleReady ("sY") ("TTTTT") [("TTTTT", c10Room)]).2 =
      [Ev.lobbyUpdate (Tgt.room ("TTTTT"))
        [{ id := "hX", nickname := "Ann".data, isReady := true, socketId := some ("sX") },
         { id := "pY", nickname := "Bob".data, isReady := true, socketId := some ("sY") }]
        ("hX")] := rfl

/-- C7 counterexample: the payload `data:image/pngZ` is not a `data:image/`
URI with MIME type png/jpeg/webp (its mediatype is `image/pngZ`, and it has
no `,` at all), yet the handler acknowledges success and records it: with no
`;` present, `drawing.slice(5, drawing.indexOf(';'))` becomes
`drawing.slice(5, -1)`, which here reads exactly `image/png`. -/
theorem submit_accepts_malformed_mime :
    claimMimeAllowed ("data:image/pngZ") = false ∧
    (submitDrawing ("s7") ("PPPPP") (some ("data:image/pngZ")) 100 204800
      [("PPPPP", c7Room)]).2.2 = Except.ok () := by
  exact ⟨by decide, rfl⟩

/-- C7 amended: `submit-drawing` acknowledges success if and only if the room
exists, `endsAt` is set and not yet passed, the calling connection maps to a
player, and the string payload starts with `data:image/`, its extracted mime
(the characters from index 5 to the first `;`, or to the last character when
no `;` exists) is `image/png`, `image/jpeg` or `image/webp`, and the
approximate decoded size — three quarters of the length of the part after
the first `,` (the whole string when no `,` exists) — is positive and at
most the ceiling.  Every rejection leaves the table unchanged and emits
nothing; on success the drawing is recorded under the caller's stable player
id, overwriting any prior submission. -/
theorem submit_accept_iff (sid code : String) (payload : Option String) (now maxB : Nat)
    (tbl : RoomTable) :
    ((submitDrawing sid code payload now maxB tbl).2.2 = Except.ok () ↔
      (∃ room, getRoom (normalizeCode code) tbl = some room ∧
        (∃ t, room.endsAt = some t ∧ now ≤ t) ∧
        (∃ p, room.players.find? (fun q => q.socketId = sid) = some p) ∧
        (∃ s, payload = some s ∧ jsStartsWith s ("data:image/") = true ∧
          (["image/png", "image/jpeg", "image/webp"].contains (mimeOf s)) = true ∧
          0 < approxBytesOf s ∧ approxBytesOf s ≤ maxB))) ∧
    (∀ e, (submitDrawing sid code payload now maxB tbl).2.2 = Except.error e →
      (submitDrawing sid code payload now maxB tbl).1 = tbl ∧
      (submitDrawing sid code payload now maxB tbl).2.1 = []) ∧
    (∀ room p s, getRoom (normalizeCode code) tbl = some room →
      room.players.find? (fun q => q.socketId = sid) = some p → payload = some s →
      (submitDrawing sid code payload now maxB tbl).2.2 = Except.ok () →
      ∃ room1,
        getRoom (normalizeCode code) (submitDrawing sid code payload now maxB tbl).1 = some room1 ∧
        room1.drawings = setA p.id s room.drawings) := by
  simp only [submitDrawing]
  cases hGet : getRoom (normalizeCode code) tbl with
  | none =>
    refine ⟨by simp, by simp, ?_⟩
    intro room p s hr
    simp at hr
  | some room =>
    dsimp only
    cases hEnds : room.endsAt with
    | none =>
      refine ⟨by simp [hEnds], by simp, ?_⟩
      intro room2 p s hr hfind hpay hok
      simp at hok
    | some t =>
      dsimp only
      by_cases hLate : t < now
      · rw [if_pos hLate]
        refine ⟨?_, by simp, ?_⟩
        · simp only [hGet]
          constructor
          · intro h; cases h
          · rintro ⟨room2, hr2, ⟨t2, ht2, hle2⟩, _⟩
            cases hr2
            rw [hEnds] at ht2
            cases ht2
            omega
        · intro room2 p s hr hfind hpay hok
          simp at hok
      · rw [if_neg hLate]
        cases hfind : room.players.find? (fun q => q.socketId = sid) with
        | none =>
          refine ⟨?_, by simp, ?_⟩
          · simp only [hGet]
            constructor
            · intro h; cases h
            · rintro ⟨room2, hr2, _, ⟨p, hp⟩, _⟩
              cases hr2
              rw [hfind] at hp
              cases hp
          · intro room2 p s hr hfind2 hpay hok
            cases hr
            rw [hfind] at hfind2
            cases hfind2
        | some player =>
          dsimp only
          cases hpay : payload with
          | none =>
            refine ⟨?_, by simp, ?_⟩
            · simp only [hGet]
              constructor
              · intro h; cases h
              · rintro ⟨room2, hr2, _, _, ⟨s, hs, _⟩⟩
                cases hs
            · intro room2 p s hr hfind2 hpay2 hok
              simp at hok
          | some s =>
            dsimp only
            by_cases hStart : jsStartsWith s ("data:image/") = true
            · rw [if_neg (fun h => h hStart)]
              by_cases hMime : (["image/png", "image/jpeg", "image/webp"].contains (mimeOf s)) = true
              · rw [if_neg (fun h => h hMime)]
                by_cases hSize : approxBytesOf s = 0 ∨ maxB < approxBytesOf s
                · rw [if_pos hSize]
                  refine ⟨?_, by simp, ?_⟩
                  · simp only [hGet]
                    constructor
                    · intro h; cases h
                    · rintro ⟨room2, hr2, _, _, ⟨s2, hs2, _, _, hpos, hle⟩⟩
                      cases hs2
                      rcases hSize with h0 | hbig <;> omega
                  · intro room2 p s2 hr hfind2 hpay2 hok
                    simp at hok
                · rw [if_neg hSize]
                  refine ⟨?_, ?_, ?_⟩
                  · simp only [hGet]
                    constructor
                    · intro _
                      exact ⟨room, rfl, ⟨t, hEnds, by omega⟩, ⟨player, hfind⟩,
                        ⟨s, rfl, hStart, hMime, by omega, by omega⟩⟩
                    · intro _; trivial
                  · intro e he
                    cases he
                  · intro room2 p s2 hr hfind2 hpay2 hok
                    cases hr
                    rw [hfind] at hfind2
                    cases hfind2
                    cases hpay2
                    simp only [maybeEndRoundEarly, getRoom_setRoom_eq]
                    split
                    · exact ⟨_, getRoom_setRoom_eq _ _ _, rfl⟩
                    · split
                      · simp only [endRound, getRoom_setRoom_eq]
                        exact ⟨_, rfl, rfl⟩
                      · exact ⟨_, getRoom_setRoom_eq _ _ _, rfl⟩
              · rw [if_pos hMime]
                refine ⟨?_, by simp, ?_⟩
                · simp only [hGet]
                  constructor
                  · intro h; cases h
                  · rintro ⟨room2, hr2, _, _, ⟨s2, hs2, _, hm, _⟩⟩
                    cases hs2
                    exact (hMime hm).elim
                · intro room2 p s2 hr hfind2 hpay2 hok
                  simp at hok
            · rw [if_pos hStart]
              refine ⟨?_, by simp, ?_⟩
              · simp only [hGet]
                constructor
                · intro h; cases h
                · rintro ⟨room2, hr2, _, _, ⟨s2, hs2, hst, _⟩⟩
                  cases hs2
                  exact (hStart hst).elim
              · intro room2 p s2 hr hfind2 hpay2 hok
                simp at hok

/-- C7 witness: a well-formed png submission by `s8` during the active round
is accepted and recorded under the stable player id `h8`. -/
theorem submit_accept_iff_witness :
    (submitDrawing ("s8") ("YYYYY") (some ("data:image/png;base64,AAAA")) 100 204800
      [("YYYYY", c7RoomW)]).2.2 = Except.ok () ∧
    (∃ room1,
      getRoom ("YYYYY") (submitDrawing ("s8") ("YYYYY") (some ("data:image/png;base64,AAAA"))
        100 204800 [("YYYYY", c7RoomW)]).1 = some room1 ∧
      room1.drawings = setA ("h8") ("data:image/png;base64,AAAA") c7RoomW.drawings) := by
  have h := submit_accept_iff "s8" "YYYYY" (some ("data:image/png;base64,AAAA")) 100 204800
    [("YYYYY", c7RoomW)]
  have hok := h.1.mpr ⟨c7RoomW, rfl, ⟨60000, rfl, by decide⟩,
    ⟨{ id := "h8", socketId := "s8", nickname := "Ann".data, isReady := true }, rfl⟩,
    ⟨_, rfl, by decide, by decide, by decide, by decide⟩⟩
  exact ⟨hok,
    h.2.2 c7RoomW { id := "h8", socketId := "s8", nickname := "Ann".data, isReady := true }
      _ rfl rfl rfl hok⟩

/-- Full characterization of a lookup after a write. -/
theorem getRoom_setRoom (c c2 : String) (r : Room) (tbl : RoomTable) :
    getRoom c (setRoom c2 r tbl) = if c = c2 then some r else getRoom c tbl := by
  by_cases h : c = c2
  · subst h; simp [getRoom_setRoom_eq]
  · simp [h, getRoom_setRoom_ne _ _ _ _ h]

/-- A successful lookup means the key occurs in the table. -/
theorem getRoom_some_mem_keys (c : String) (tbl : RoomTable) (r : Room)
    (h : getRoom c tbl = some r) : c ∈ tbl.map Prod.fst := by
  induction tbl with
  | nil => cases h
  | cons hd t ih =>
    obtain ⟨k, v⟩ := hd
    rw [List.map_cons]
    by_cases hk : k = c
    · exact hk ▸ List.mem_cons_self _ _
    · simp only [getRoom, if_neg hk] at h
      exact List.mem_cons_of_mem _ (ih h)

/-- Keys of a table after a write are among the written key and the old
keys. -/
theorem keys_setRoom_sub (c : String) (r : Room) (tbl : RoomTable) :
    ∀ k ∈ (setRoom c r tbl).map Prod.fst, k = c ∨ k ∈ tbl.map Prod.fst := by
  induction tbl with
  | nil =>
    intro k hk
    simp only [setRoom, List.map_cons, List.map_nil] at hk
    rcases List.mem_cons.mp hk with h1 | h1
    · exact Or.inl h1
    · cases h1
  | cons hd t ih =>
    obtain ⟨kk, v⟩ := hd
    intro k hk
    by_cases h : kk = c
    · simp only [setRoom, if_pos h, List.map_cons] at hk
      rcases List.mem_cons.mp hk with h1 | h1
      · exact Or.inl (h1.trans h)
      · exact Or.inr (List.mem_cons_of_mem _ h1)
    · simp only [setRoom, if_neg h, List.map_cons] at hk
      rcases List.mem_cons.mp hk with h1 | h1
      · exact Or.inr (by rw [List.map_cons]; exact h1 ▸ List.mem_cons_self _ _)
      · rcases ih k h1 with h2 | h2
        · exact Or.inl h2
        · exact Or.inr (by rw [List.map_cons]; exact List.mem_cons_of_mem _ h2)

/-- A write preserves distinctness of the table keys. -/
theorem keys_setRoom_nodup (c : String) (r : Room) (tbl : RoomTable)
    (h : (tbl.map Prod.fst).Nodup) : ((setRoom c r tbl).map Prod.fst).Nodup := by
  induction tbl with
  | nil => simp [setRoom]
  | cons hd t ih =>
    obtain ⟨kk, v⟩ := hd
    rw [List.map_cons, List.nodup_cons] at h
    by_cases hh : kk = c
    · simp only [setRoom, if_pos hh, List.map_cons, List.nodup_cons]
      exact ⟨h.1, h.2⟩
    · simp only [setRoom, if_neg hh, List.map_cons, List.nodup_cons]
      refine ⟨?_, ih h.2⟩
      intro hmem
      rcases keys_setRoom_sub c r t kk hmem with h1 | h1
      · exact hh h1
      · exact h.1 h1

/-- Deleting a key yields a sublist of the table. -/
theorem delRoom_sublist (c : String) (tbl : RoomTable) :
    List.Sublist (delRoom c tbl) tbl := by
  induction tbl with
  | nil => simp [delRoom]
  | cons hd t ih =>
    obtain ⟨kk, v⟩ := hd
    by_cases h : kk = c
    · subst h
      simp only [delRoom, if_pos]
      exact List.sublist_cons_of_sublist (kk, v) (List.Sublist.refl t)
    · simpa [delRoom, h] using List.Sublist.cons₂ (kk, v) ih

/-- Deleting preserves key distinctness. -/
theorem keys_delRoom_nodup (c : String) (tbl : RoomTable)
    (h : (tbl.map Prod.fst).Nodup) : ((delRoom c tbl).map Prod.fst).Nodup :=
  h.sublist ((delRoom_sublist c tbl).map Prod.fst)

/-- A delete does not affect lookups of other keys. -/
theorem getRoom_delRoom_ne (c c2 : String) (tbl : RoomTable) (h : c ≠ c2) :
    getRoom c (delRoom c2 tbl) = getRoom c tbl := by
  induction tbl with
  | nil => rfl
  | cons hd t ih =>
    obtain ⟨kk, v⟩ := hd
    by_cases hh : kk = c2
    · have hnc : ¬ kk = c := by rw [hh]; exact fun hc => h hc.symm
      simp only [delRoom, if_pos hh, getRoom, if_neg hnc]
    · by_cases hc : kk = c
      · simp only [delRoom, if_neg hh, getRoom, if_pos hc]
      · simp only [delRoom, if_neg hh, getRoom, if_neg hc, ih]

/-- With distinct keys, looking up a deleted key gives nothing. -/
theorem getRoom_delRoom_self (c : String) (tbl : RoomTable)
    (h : (tbl.map Prod.fst).Nodup) : getRoom c (delRoom c tbl) = none := by
  induction tbl with
  | nil => rfl
  | cons hd t ih =>
    obtain ⟨kk, v⟩ := hd
    rw [List.map_cons, List.nodup_cons] at h
    by_cases hh : kk = c
    · simp only [delRoom, if_pos hh]
      cases hg : getRoom c t with
      | none => rfl
      | some r => exact absurd (hh ▸ getRoom_some_mem_keys c t r hg) h.1
    · simp only [delRoom, if_neg hh, getRoom, if_neg hh]
      exact ih h.2

/-- `updateFirst` with a projection-preserving update leaves any projection
map unchanged. -/
theorem updateFirst_map {α β : Type} (p : α → Bool) (f : α → α) (g : α → β)
    (hg : ∀ a, g (f a) = g a) (l : List α) :
    (updateFirst p f l).map g = l.map g := by
  induction l with
  | nil => rfl
  | cons a t ih =>
    by_cases h : p a = true
    · simp [updateFirst, h, hg]
    · simp only [updateFirst, if_neg h, List.map_cons, ih]

/-- Membership after `updateFirst`: either an untouched original member, or
the image of an original member satisfying the predicate. -/
theorem mem_updateFirst {α : Type} (p : α → Bool) (f : α → α) (l : List α) (a : α)
    (h : a ∈ updateFirst p f l) : a ∈ l ∨ ∃ b, b ∈ l ∧ p b = true ∧ a = f b := by
  induction l with
  | nil => cases h
  | cons b t ih =>
    by_cases hb : p b = true
    · rw [updateFirst, if_pos hb] at h
      rcases List.mem_cons.mp h with h1 | h1
      · exact Or.inr ⟨b, List.mem_cons_self _ _, hb, h1⟩
      · exact Or.inl (List.mem_cons_of_mem _ h1)
    · rw [updateFirst, if_neg hb] at h
      rcases List.mem_cons.mp h with h1 | h1
      · exact Or.inl (h1 ▸ List.mem_cons_self _ _)
      · rcases ih h1 with h2 | ⟨b2, hb2, hpb2, hab2⟩
        · exact Or.inl (List.mem_cons_of_mem _ h2)
        · exact Or.inr ⟨b2, List.mem_cons_of_mem _ hb2, hpb2, hab2⟩

/-- In a list of players with distinct ids, rebinding the socket of the
player with id `pid` via `updateFirst` yields a list where every member with
id `pid` carries the new socket, and every other member is an untouched
original. -/
theorem updateFirst_rebind_char (pid sid : String) (l : List Player)
    (hNodup : (l.map Player.id).Nodup) (a : Player)
    (h : a ∈ updateFirst (fun q => q.id = pid) (fun q => { q with socketId := sid }) l) :
    (a.id ≠ pid ∧ a ∈ l) ∨ (a.id = pid ∧ a.socketId = sid) := by
  induction l with
  | nil => cases h
  | cons b t ih =>
    rw [List.map_cons, List.nodup_cons] at hNodup
    by_cases hb : b.id = pid
    · rw [updateFirst, if_pos (by simpa using hb)] at h
      rcases List.mem_cons.mp h with h1 | h1
      · exact Or.inr ⟨by rw [h1]; exact hb, by rw [h1]⟩
      · left
        refine ⟨?_, List.mem_cons_of_mem _ h1⟩
        intro hpid
        exact hNodup.1 (hb ▸ hpid ▸ List.mem_map_of_mem Player.id h1)
    · rw [updateFirst, if_neg (by simpa using hb)] at h
      rcases List.mem_cons.mp h with h1 | h1
      · exact Or.inl ⟨h1 ▸ hb, h1 ▸ List.mem_cons_self _ _⟩
      · rcases ih hNodup.2 h1 with ⟨h2, h3⟩ | h2
        · exact Or.inl ⟨h2, List.mem_cons_of_mem _ h3⟩
        · exact Or.inr h2

/-- The element extracted by `removeFirst` satisfies the predicate and was a
member. -/
theorem removeFirst_found {α : Type} (p : α → Bool) (l : List α) (a : α)
    (h : (removeFirst p l).1 = some a) : p a = true ∧ a ∈ l := by
  induction l with
  | nil => cases h
  | cons b t ih =>
    by_cases hb : p b = true
    · rw [removeFirst, if_pos hb] at h
      cases h
      exact ⟨hb, List.mem_cons_self _ _⟩
    · rw [removeFirst, if_neg hb] at h
      rcases ih h with ⟨h1, h2⟩
      exact ⟨h1, List.mem_cons_of_mem _ h2⟩

/-- The remainder of `removeFirst` is a sublist. -/
theorem removeFirst_sublist {α : Type} (p : α → Bool) (l : List α) :
    List.Sublist (removeFirst p l).2 l := by
  induction l with
  | nil => simp [removeFirst]
  | cons b t ih =>
    by_cases hb : p b = true
    · rw [removeFirst, if_pos hb]
      exact List.sublist_cons_of_sublist b (List.Sublist.refl t)
    · rw [removeFirst, if_neg hb]
      exact List.Sublist.cons₂ b ih

/-- Members that fail the predicate survive `removeFirst`. -/
theorem mem_removeFirst_of_neg {α : Type} (p : α → Bool) (l : List α) (a : α)
    (ha : a ∈ l) (hpa : p a = false) : a ∈ (removeFirst p l).2 := by
  induction l with
  | nil => cases ha
  | cons b t ih =>
    by_cases hb : p b = true
    · rw [removeFirst, if_pos hb]
      rcases List.mem_cons.mp ha with h1 | h1
      · rw [h1] at hpa; rw [hpa] at hb; cases hb
      · exact h1
    · rw [removeFirst, if_neg hb]
      rcases List.mem_cons.mp ha with h1 | h1
      · exact h1 ▸ List.mem_cons_self _ _
      · exact List.mem_cons_of_mem _ (ih h1)

/-- `HostInv` only depends on `players`, `host` and `hostSocketId`. -/
theorem HostInv_of_eq (r r2 : Room) (hp : r2.players = r.players) (hh : r2.host = r.host)
    (hs : r2.hostSocketId = r.hostSocketId) (h : HostInv r) : HostInv r2 := by
  obtain ⟨h1, h2, h3, h4⟩ := h
  exact ⟨by rw [hp]; exact h1, by rw [hp]; exact h2, by rw [hp, hh]; exact h3,
    by rw [hp, hh, hs]; exact h4⟩

/-- In a room satisfying `HostInv`, two current players with the host id are
the same player. -/
theorem host_unique (r : Room) (h : HostInv r) (p q : Player) (hp : p ∈ r.players)
    (hq : q ∈ r.players) (hpi : p.id = r.host) (hqi : q.id = r.host) : p = q :=
  List.inj_on_of_nodup_map h.2.1 hp hq (hpi.trans hqi.symm)

/-- A player found by socket id whose id is the host id carries the socket it
was found by; with `HostInv` every player with the host id then carries that
socket. -/
theorem hostRebind_sync (r : Room) (h : HostInv r) (sid : String) (player : Player)
    (hfind : r.players.find? (fun q => q.socketId = sid) = some player)
    (hhost : player.id = r.host) :
    ∀ p ∈ r.players, p.id = r.host → p.socketId = sid := by
  intro p hp hpi
  have hmem := List.mem_of_find?_eq_some hfind
  have hsock : player.socketId = sid := by simpa using List.find?_some hfind
  rw [host_unique r h p player hp hmem hpi hhost]
  exact hsock

/-- Shape of `endRound`: keys stay distinct, other rooms are untouched, and
the room at `code` (if any) keeps its players, host and host socket. -/
theorem endRound_shape (code : String) (tbl : RoomTable) :
    ((tbl.map Prod.fst).Nodup → (((endRound code tbl).1).map Prod.fst).Nodup) ∧
    (∀ c, c ≠ code → getRoom c (endRound code tbl).1 = getRoom c tbl) ∧
    (∀ r2, getRoom code (endRound code tbl).1 = some r2 →
      ∃ r1, getRoom code tbl = some r1 ∧ r2.players = r1.players ∧
        r2.host = r1.host ∧ r2.hostSocketId = r1.hostSocketId) := by
  refine ⟨?_, ?_, ?_⟩
  · intro h
    unfold endRound
    cases hg : getRoom code tbl
    · exact h
    · exact keys_setRoom_nodup _ _ _ h
  · intro c hc
    unfold endRound
    cases hg : getRoom code tbl
    · rfl
    · exact getRoom_setRoom_ne _ _ _ _ hc
  · intro r2 h
    unfold endRound at h
    cases hg : getRoom code tbl with
    | none =>
      rw [hg] at h
      dsimp only at h
      rw [hg] at h
      cases h
    | some room =>
      rw [hg] at h
      dsimp only at h
      rw [getRoom_setRoom_eq] at h
      cases h
      exact ⟨room, rfl, rfl, rfl, rfl⟩

/-- Shape of `maybeEndRoundEarly`: same guarantees as `endRound`. -/
theorem maybeEnd_shape (code : String) (tbl : RoomTable) :
    ((tbl.map Prod.fst).Nodup → (((maybeEndRoundEarly code tbl).1).map Prod.fst).Nodup) ∧
    (∀ c, c ≠ code → getRoom c (maybeEndRoundEarly code tbl).1 = getRoom c tbl) ∧
    (∀ r2, getRoom code (maybeEndRoundEarly code tbl).1 = some r2 →
      ∃ r1, getRoom code tbl = some r1 ∧ r2.players = r1.players ∧
        r2.host = r1.host ∧ r2.hostSocketId = r1.hostSocketId) := by
  have hend := endRound_shape code tbl
  refine ⟨?_, ?_, ?_⟩
  · intro h
    unfold maybeEndRoundEarly
    cases hg : getRoom code tbl
    · exact h
    · dsimp only
      split
      · exact h
      · split
        · exact hend.1 h
        · exact h
  · intro c hc
    unfold maybeEndRoundEarly
    cases hg : getRoom code tbl
    · rfl
    · dsimp only
      split
      · rfl
      · split
        · exact hend.2.1 c hc
        · rfl
  · intro r2 h
    unfold maybeEndRoundEarly at h
    cases hg : getRoom code tbl with
    | none =>
      rw [hg] at h
      dsimp only at h
      rw [hg] at h
      cases h
    | some room =>
      rw [hg] at h
      dsimp only at h
      split at h
      · have h2 : getRoom code tbl = some r2 := h
        rw [hg] at h2
        cases h2
        exact ⟨_, rfl, rfl, rfl, rfl⟩
      · split at h
        · rcases hend.2.2 r2 h with ⟨r1, h1, ha, hb, hc⟩
          rw [hg] at h1
          cases h1
          exact ⟨_, rfl, ha, hb, hc⟩
        · have h2 : getRoom code tbl = some r2 := h
          rw [hg] at h2
          cases h2
          exact ⟨_, rfl, rfl, rfl, rfl⟩

/-- Writing a room that satisfies `HostInv` preserves the table invariant. -/
theorem TableInv_setRoom (code : String) (r : Room) (tbl : RoomTable)
    (hInv : TableInv tbl) (hr : HostInv r) : TableInv (setRoom code r tbl) := by
  refine ⟨keys_setRoom_nodup _ _ _ hInv.1, ?_⟩
  intro c r2 hc
  rw [getRoom_setRoom] at hc
  split at hc
  · cases hc; exact hr
  · exact hInv.2 _ _ hc

/-- A table related to an invariant table by the `endRound` shape guarantees
is itself invariant. -/
theorem TableInv_shape (code : String) (tbl T : RoomTable)
    (hkeys : (tbl.map Prod.fst).Nodup → (T.map Prod.fst).Nodup)
    (hother : ∀ c, c ≠ code → getRoom c T = getRoom c tbl)
    (hat : ∀ r2, getRoom code T = some r2 →
      ∃ r1, getRoom code tbl = some r1 ∧ r2.players = r1.players ∧
        r2.host = r1.host ∧ r2.hostSocketId = r1.hostSocketId)
    (hInv : TableInv tbl) : TableInv T := by
  refine ⟨hkeys hInv.1, ?_⟩
  intro c r2 hc
  by_cases h : c = code
  · subst h
    rcases hat r2 hc with ⟨r1, h1, h2, h3, h4⟩
    exact HostInv_of_eq r1 r2 h2 h3 h4 (hInv.2 _ _ h1)
  · rw [hother c h] at hc
    exact hInv.2 _ _ hc

/-- `deadlineFire` preserves the table invariant. -/
theorem deadlineFire_tableInv (code : String) (tbl : RoomTable) (hInv : TableInv tbl) :
    TableInv (deadlineFire code tbl).1 := by
  simp only [deadlineFire]
  cases hg : getRoom code tbl with
  | none => exact hInv
  | some room =>
    dsimp only
    split
    · obtain ⟨h1, h2, h3⟩ := endRound_shape code tbl
      exact TableInv_shape code tbl _ h1 h2 h3 hInv
    · exact hInv

/-- `submit-drawing` preserves the table invariant. -/
theorem submit_tableInv (sid code : String) (payload : Option String) (now maxB : Nat)
    (tbl : RoomTable) (hInv : TableInv tbl) :
    TableInv (submitDrawing sid code payload now maxB tbl).1 := by
  simp only [submitDrawing]
  cases hg : getRoom (normalizeCode code) tbl with
  | none => exact hInv
  | some room =>
    dsimp only
    cases hEnds : room.endsAt with
    | none => exact hInv
    | some t =>
      dsimp only
      split
      · exact hInv
      · cases hfind : room.players.find? (fun p => p.socketId = sid) with
        | none => exact hInv
        | some player =>
          dsimp only
          cases payload with
          | none => exact hInv
          | some drawing =>
            dsimp only
            split
            · exact hInv
            · split
              · exact hInv
              · split
                · exact hInv
                · have hroom : HostInv room := hInv.2 _ _ hg
                  have hT0 : TableInv (setRoom (normalizeCode code)
                      { room with
                        drawings := setA player.id drawing room.drawings
                        endsAt := some t } tbl) :=
                    TableInv_setRoom _ _ _ hInv (HostInv_of_eq room _ rfl rfl rfl hroom)
                  obtain ⟨h1, h2, h3⟩ := maybeEnd_shape (normalizeCode code)
                    (setRoom (normalizeCode code)
                      { room with
                        drawings := setA player.id drawing room.drawings
                        endsAt := some t } tbl)
                  exact TableInv_shape _ _ _ h1 h2 h3 hT0

/-- `disconnecting` preserves the table invariant. -/
theorem disconnecting_tableInv (sid code : String) (tbl : RoomTable) (hInv : TableInv tbl) :
    TableInv (disconnecting sid code tbl) := by
  simp only [disconnecting]
  cases hg : getRoom code tbl with
  | none => exact hInv
  | some room =>
    dsimp only
    cases hfind : room.players.find? (fun p => p.socketId = sid) with
    | none => exact hInv
    | some lp =>
      exact TableInv_setRoom _ _ _ hInv
        (HostInv_of_eq room _ rfl rfl rfl (hInv.2 _ _ hg))

/-- A room whose players and host agree with an invariant room and whose
host socket was rebound to the socket of a found player carrying the host id
satisfies `HostInv`. -/
theorem hostRebindInv (room : Room) (hroom : HostInv room) (sid : String) (player : Player)
    (hfind : room.players.find? (fun q => q.socketId = sid) = some player)
    (hplayer : player.id = room.host) (r2 : Room) (hp : r2.players = room.players)
    (hh : r2.host = room.host) (hs : r2.hostSocketId = sid) : HostInv r2 := by
  refine ⟨by rw [hp]; exact hroom.1, by rw [hp]; exact hroom.2.1,
    by rw [hp, hh]; exact hroom.2.2.1, ?_⟩
  intro p hp2 hid
  rw [hs]
  have hmem : p ∈ room.players := hp ▸ hp2
  have hid2 : p.id = room.host := by rw [hid, hh]
  exact hostRebind_sync room hroom sid player hfind hplayer p hmem hid2

/-- `toggle-ready` preserves the table invariant. -/
theorem toggle_tableInv (sid code : String) (tbl : RoomTable) (hInv : TableInv tbl) :
    TableInv (toggleReady sid code tbl).1 := by
  simp only [toggleReady]
  cases hg : getRoom (normalizeCode code) tbl with
  | none => exact hInv
  | some room =>
    dsimp only
    cases hfind : room.players.find? (fun p => p.socketId = sid) with
    | none => exact hInv
    | some player =>
      dsimp only
      split
      · have hroom := hInv.2 _ _ hg
        apply TableInv_setRoom _ _ _ hInv
        have hmapid : (updateFirst (fun p => p.socketId = sid)
            (fun p => { p with isReady := ¬ p.isReady }) room.players).map Player.id =
            room.players.map Player.id :=
          updateFirst_map (fun p => p.socketId = sid)
            (fun p => { p with isReady := ¬ p.isReady }) Player.id (fun a => rfl) room.players
        refine ⟨?_, ?_, ?_, ?_⟩
        · intro hempty
          have hempty2 : updateFirst (fun p => p.socketId = sid)
              (fun p => { p with isReady := ¬ p.isReady }) room.players = [] := hempty
          apply hroom.1
          have hm := hmapid
          rw [hempty2] at hm
          simp only [List.map_nil] at hm
          exact List.map_eq_nil_iff.mp hm.symm
        · show (_ : List Player).map Player.id |>.Nodup
          rw [hmapid]
          exact hroom.2.1
        · show room.host ∈ _
          rw [hmapid]
          exact hroom.2.2.1
        · intro p hp hid
          rcases mem_updateFirst _ _ _ _ hp with h1 | ⟨b, hb, hpb, hab⟩
          · exact hroom.2.2.2 p h1 hid
          · subst hab
            exact hroom.2.2.2 b hb hid
      · exact hInv

/-- `update-settings` preserves the table invariant. -/
theorem settings_tableInv (sid code : String) (now : Nat) (rd : JsDur) (cat : JsCat)
    (tbl : RoomTable) (hInv : TableInv tbl) :
    TableInv (updateSettings sid code now rd cat tbl).1 := by
  simp only [updateSettings]
  cases hg : getRoom (normalizeCode code) tbl with
  | none => exact hInv
  | some room =>
    dsimp only
    cases hfind : room.players.find? (fun p => p.socketId = sid) with
    | none => exact hInv
    | some player =>
      dsimp only
      split
      · exact hInv
      · rename_i hne
        have hplayer : player.id = room.host := not_ne_iff.mp hne
        have hroom := hInv.2 _ _ hg
        split
        · exact TableInv_setRoom _ _ _ hInv
            (hostRebindInv room hroom sid player hfind hplayer _ rfl rfl rfl)
        · split
          · exact TableInv_setRoom _ _ _ hInv
              (hostRebindInv room hroom sid player hfind hplayer _ rfl rfl rfl)
          · rename_i room1 hstep1
            have hr1 : room1.players = room.players ∧ room1.host = room.host ∧
                room1.hostSocketId = sid := by
              cases rd with
              | undef => cases hstep1; exact ⟨rfl, rfl, rfl⟩
              | notNum => cases hstep1
              | nonIntNum => cases hstep1
              | num n =>
                simp only [] at hstep1
                split at hstep1
                · cases hstep1
                · cases hstep1; exact ⟨rfl, rfl, rfl⟩
            split
            · exact TableInv_setRoom _ _ _ hInv
                (hostRebindInv room hroom sid player hfind hplayer _ hr1.1 hr1.2.1 hr1.2.2)
            · rename_i room2 hstep2
              have hr2 : room2.players = room1.players ∧ room2.host = room1.host ∧
                  room2.hostSocketId = room1.hostSocketId := by
                cases cat with
                | undef => cases hstep2; exact ⟨rfl, rfl, rfl⟩
                | null => cases hstep2; exact ⟨rfl, rfl, rfl⟩
                | str s2 =>
                  simp only [] at hstep2
                  split at hstep2
                  · cases hstep2; exact ⟨rfl, rfl, rfl⟩
                  · cases hstep2
                | other => cases hstep2
              refine TableInv_setRoom _ _ _ hInv
                (hostRebindInv room hroom sid player hfind hplayer _ ?_ ?_ ?_)
              · show room2.players = room.players
                rw [hr2.1, hr1.1]
              · show room2.host = room.host
                rw [hr2.2.1, hr1.2.1]
              · show room2.hostSocketId = sid
                rw [hr2.2.2, hr1.2.2]

/-- `start-round` preserves the table invariant. -/
theorem start_tableInv (sid code : String) (now : Nat) (pickedPrompt : String)
    (pickedRandom : String × String) (tbl : RoomTable) (hInv : TableInv tbl) :
    TableInv (startRound sid code now pickedPrompt pickedRandom tbl).1 := by
  simp only [startRound]
  split
  · exact hInv
  · cases hg : getRoom (normalizeCode code) tbl with
    | none => exact hInv
    | some room =>
      dsimp only
      cases hfind : room.players.find? (fun p => p.socketId = sid) with
      | none => exact hInv
      | some player =>
        dsimp only
        split
        · exact hInv
        · rename_i hne
          have hplayer : player.id = room.host := not_ne_iff.mp hne
          have hroom := hInv.2 _ _ hg
          apply TableInv_setRoom _ _ _ hInv
          have hidF : ∀ p ∈ room.players,
              (if p.id ≠ room.host then { p with isReady := false } else p).id = p.id := by
            intro p hp
            by_cases h : p.id ≠ room.host <;> simp [h]
          have hmapid : (room.players.map
              (fun p => if p.id ≠ room.host then { p with isReady := false } else p)).map
              Player.id = room.players.map Player.id := by
            rw [List.map_map]
            exact List.map_congr_left hidF
          refine ⟨?_, ?_, ?_, ?_⟩
          · intro hempty
            have hempty2 : room.players.map
                (fun p => if p.id ≠ room.host then { p with isReady := false } else p) = [] :=
              hempty
            exact hroom.1 (List.map_eq_nil_iff.mp hempty2)
          · show (_ : List Player).map Player.id |>.Nodup
            rw [hmapid]
            exact hroom.2.1
          · show room.host ∈ _
            rw [hmapid]
            exact hroom.2.2.1
          · intro p hp hid
            rcases List.mem_map.mp hp with ⟨q, hq, hfq⟩
            have hqid : q.id = room.host := by
              rw [← hid, ← hfq]
              exact (hidF q hq).symm
            have hqs : q.socketId = sid :=
              hostRebind_sync room hroom sid player hfind hplayer q hq hqid
            have hps : p.socketId = q.socketId := by
              rw [← hfq]
              by_cases h : q.id ≠ room.host <;> simp [h]
            show p.socketId = sid
            rw [hps, hqs]

/-- `host-room` preserves the table invariant. -/
theorem host_tableInv (sid : String) (nickname : Option String) (newPid : String) (now : Nat)
    (stream : List Nat) (sign : String → String) (tbl : RoomTable) (hInv : TableInv tbl) :
    TableInv (hostRoom sid nickname newPid now stream sign tbl).1 := by
  simp only [hostRoom]
  cases validateNickname nickname with
  | some e => exact hInv
  | none =>
    dsimp only
    split
    · exact hInv
    · apply TableInv_setRoom _ _ _ hInv
      refine ⟨by simp, by simp, by simp, ?_⟩
      intro p hp hid
      rcases List.mem_singleton.mp hp with rfl
      rfl

/-- `join-room` preserves the table invariant (given a fresh `generateId`
draw). -/
theorem join_tableInv (sign : String → String) (sid code nickname newId : String)
    (maxPlayers : Nat) (rateLimited : Bool) (tbl : RoomTable) (hInv : TableInv tbl)
    (hfresh : ∀ c r, getRoom c tbl = some r → ∀ p ∈ r.players, p.id ≠ newId) :
    TableInv (joinRoom sign sid code nickname newId maxPlayers rateLimited tbl).1 := by
  simp only [joinRoom]
  cases validateRoomCode (some code) with
  | some e => exact hInv
  | none =>
    dsimp only
    cases validateNickname (some nickname) with
    | some e => exact hInv
    | none =>
      dsimp only
      cases hg : getRoom (normalizeCode code) tbl with
      | none => exact hInv
      | some room =>
        dsimp only
        split
        · exact hInv
        · split
          · exact hInv
          · split
            · exact hInv
            · have hroom := hInv.2 _ _ hg
              have hfr := hfresh _ _ hg
              apply TableInv_setRoom _ _ _ hInv
              refine ⟨by simp, ?_, ?_, ?_⟩
              · rw [List.map_append]
                rw [List.nodup_append]
                refine ⟨hroom.2.1, List.nodup_singleton _, ?_⟩
                intro a ha hb
                rcases List.mem_map.mp ha with ⟨q, hq, hqa⟩
                rcases List.mem_singleton.mp hb with rfl
                exact hfr q hq hqa
              · rw [List.map_append]
                exact List.mem_append_left _ hroom.2.2.1
              · intro p hp hid
                rcases List.mem_append.mp hp with h1 | h1
                · exact hroom.2.2.2 p h1 hid
                · rcases List.mem_singleton.mp h1 with rfl
                  exfalso
                  rcases List.mem_map.mp hroom.2.2.1 with ⟨q, hq, hqh⟩
                  exact hfr q hq (hqh.trans hid.symm)

/-- `rejoin-room` preserves the table invariant. -/
theorem rejoin_tableInv (sign : String → String) (sid code pid token : String)
    (nickname : Option String) (now : Nat) (tbl : RoomTable) (hInv : TableInv tbl) :
    TableInv (rejoinRoom sign sid code pid token nickname now tbl).1 := by
  simp only [rejoinRoom]
  cases hg : getRoom (normalizeCode code) tbl with
  | none => exact hInv
  | some room =>
    dsimp only
    split
    · exact hInv
    · split
      · exact hInv
      · have hroom := hInv.2 _ _ hg
        apply TableInv_setRoom _ _ _ hInv
        cases hfind : room.players.find? (fun p => p.id = pid) with
        | some p0 =>
          have hmapid : (updateFirst (fun q => q.id = pid)
              (fun q => { q with socketId := sid }) room.players).map Player.id =
              room.players.map Player.id :=
            updateFirst_map (fun q => q.id = pid) (fun q => { q with socketId := sid })
              Player.id (fun a => rfl) room.players
          have hne : updateFirst (fun q => q.id = pid)
              (fun q => { q with socketId := sid }) room.players ≠ [] := by
            intro hempty
            apply hroom.1
            have hm := hmapid
            rw [hempty] at hm
            simp only [List.map_nil] at hm
            exact List.map_eq_nil_iff.mp hm.symm
          split
          · rename_i hhost
            refine ⟨hne, by rw [hmapid]; exact hroom.2.1, by rw [hmapid]; exact hroom.2.2.1, ?_⟩
            intro p hp hid
            rcases updateFirst_rebind_char pid sid room.players hroom.2.1 p hp with
              ⟨h1, h2⟩ | ⟨h1, h2⟩
            · exact absurd (hid.trans hhost) h1
            · exact h2
          · rename_i hhost
            refine ⟨hne, by rw [hmapid]; exact hroom.2.1, by rw [hmapid]; exact hroom.2.2.1, ?_⟩
            intro p hp hid
            rcases updateFirst_rebind_char pid sid room.players hroom.2.1 p hp with
              ⟨h1, h2⟩ | ⟨h1, h2⟩
            · exact hroom.2.2.2 p h2 hid
            · have hhost2 : ¬ (room.host = pid) := fun hc => hhost hc
              have hid2 : p.id = room.host := hid
              exact absurd (hid2.symm.trans h1) hhost2
        | none =>
          have hnone := List.find?_eq_none.mp hfind
          have hne2 : room.host ≠ pid := by
            rcases List.mem_map.mp hroom.2.2.1 with ⟨q, hq, hqh⟩
            intro hc
            exact hnone q hq (by simp [hqh, hc])
          split
          · rename_i hhost
            exact absurd hhost hne2
          · refine ⟨by simp, ?_, ?_, ?_⟩
            · rw [List.map_append, List.nodup_append]
              refine ⟨hroom.2.1, List.nodup_singleton _, ?_⟩
              intro a ha hb
              rcases List.mem_map.mp ha with ⟨q, hq, hqa⟩
              rcases List.mem_singleton.mp hb with rfl
              exact hnone q hq (by simp [hqa])
            · rw [List.map_append]
              exact List.mem_append_left _ hroom.2.2.1
            · intro p hp hid
              rcases List.mem_append.mp hp with h1 | h1
              · exact hroom.2.2.2 p h1 hid
              · rcases List.mem_singleton.mp h1 with rfl
                exact absurd hid hne2.symm

/-- Promoting the first remaining player to host preserves the table
invariant, provided the written room's player ids are distinct. -/
theorem TableInv_promote (code : String) (tbl T1 : RoomTable) (r2 : Room) (newHost : Player)
    (rest : List Player) (hInv : TableInv tbl) (hkeys : (T1.map Prod.fst).Nodup)
    (hother : ∀ c, c ≠ code → getRoom c T1 = getRoom c tbl)
    (hNodup : (r2.players.map Player.id).Nodup) (hpl : r2.players = newHost :: rest) :
    TableInv (setRoom code
      { r2 with host := newHost.id, hostSocketId := newHost.socketId } T1) := by
  refine ⟨keys_setRoom_nodup _ _ _ hkeys, ?_⟩
  intro c r hc
  rw [getRoom_setRoom] at hc
  split at hc
  · cases hc
    refine ⟨by simp [hpl], hNodup, ?_, ?_⟩
    · show newHost.id ∈ r2.players.map Player.id
      rw [hpl]
      exact List.mem_map_of_mem Player.id (List.mem_cons_self _ _)
    · intro p hp hid
      have hpmem : p ∈ r2.players := hp
      have hnm : newHost ∈ r2.players := by rw [hpl]; exact List.mem_cons_self _ _
      have : p = newHost := List.inj_on_of_nodup_map hNodup hpmem hnm hid
      rw [this]
  · rename_i h
    rw [hother c h] at hc
    exact hInv.2 _ _ hc

/-- Deleting the affected room preserves the table invariant. -/
theorem TableInv_del (code : String) (tbl T1 : RoomTable) (hInv : TableInv tbl)
    (hkeys : (T1.map Prod.fst).Nodup)
    (hother : ∀ c, c ≠ code → getRoom c T1 = getRoom c tbl) :
    TableInv (delRoom code T1) := by
  refine ⟨keys_delRoom_nodup _ _ hkeys, ?_⟩
  intro c r hc
  by_cases h : c = code
  · subst h
    rw [getRoom_delRoom_self _ _ hkeys] at hc
    cases hc
  · rw [getRoom_delRoom_ne _ _ _ h, hother c h] at hc
    exact hInv.2 _ _ hc

/-- Keeping the intermediate table preserves the invariant when the room at
the affected key (if any) satisfies `HostInv`. -/
theorem TableInv_keep (code : String) (tbl T1 : RoomTable) (hInv : TableInv tbl)
    (hkeys : (T1.map Prod.fst).Nodup)
    (hother : ∀ c, c ≠ code → getRoom c T1 = getRoom c tbl)
    (hat : ∀ r2, getRoom code T1 = some r2 → HostInv r2) : TableInv T1 := by
  refine ⟨hkeys, ?_⟩
  intro c r hc
  by_cases h : c = code
  · subst h
    exact hat r hc
  · rw [hother c h] at hc
    exact hInv.2 _ _ hc

/-- Common final stage of the two player-removal paths (explicit leave,
grace expiry): whichever branch is taken — keep the pruned table when the
room vanished, delete an emptied room, promote the first remaining player,
or keep the table when the host survived — the table invariant is
preserved. -/
theorem removal_branches_inv (code : String) (tbl T : RoomTable) (room : Room)
    (players1 : List Player) (hInv : TableInv tbl) (hroom : HostInv room)
    (hkeys : (T.map Prod.fst).Nodup)
    (hother : ∀ c, c ≠ code → getRoom c T = getRoom c tbl)
    (hsub : List.Sublist players1 room.players)
    (hat : ∀ r2, getRoom code T = some r2 → r2.players = players1 ∧
      r2.host = room.host ∧ r2.hostSocketId = room.hostSocketId) :
    (getRoom code T = none → TableInv T) ∧
    TableInv (delRoom code T) ∧
    (∀ room2 newHost rest, getRoom code T = some room2 → room2.players = newHost :: rest →
      TableInv (setRoom code
        { room2 with host := newHost.id, hostSocketId := newHost.socketId } T)) ∧
    ((∀ p ∈ room.players, p.id = room.host → p ∈ players1) → TableInv T) := by
  have hN1 : (players1.map Player.id).Nodup := hroom.2.1.sublist (hsub.map Player.id)
  refine ⟨?_, ?_, ?_, ?_⟩
  · intro h0
    refine TableInv_keep code tbl T hInv hkeys hother ?_
    intro r2 h2
    rw [h0] at h2
    cases h2
  · exact TableInv_del code tbl T hInv hkeys hother
  · intro room2 newHost rest h2 hpl
    have hfacts := hat room2 h2
    exact TableInv_promote code tbl T room2 newHost rest hInv hkeys hother
      (by rw [hfacts.1]; exact hN1) hpl
  · intro hsurv
    refine TableInv_keep code tbl T hInv hkeys hother ?_
    intro r2 h2
    obtain ⟨hp1, hh1, hs1⟩ := hat r2 h2
    rcases List.mem_map.mp hroom.2.2.1 with ⟨q, hq, hqid⟩
    have hqin : q ∈ players1 := hsurv q hq hqid
    refine ⟨?_, by rw [hp1]; exact hN1, ?_, ?_⟩
    · intro hempty
      rw [hempty] at hp1
      rw [← hp1] at hqin
      cases hqin
    · rw [hp1, hh1]
      exact hqid ▸ List.mem_map_of_mem Player.id hqin
    · intro p hp hid
      have hpin : p ∈ room.players := hsub.subset (hp1 ▸ hp)
      rw [hs1]
      exact hroom.2.2.2 p hpin (by rw [← hh1, hid])

/-- `leave-room` preserves the table invariant. -/
theorem leave_tableInv (sid code : String) (tbl : RoomTable) (hInv : TableInv tbl) :
    TableInv (leaveRoom sid code tbl).1 := by
  simp only [leaveRoom]
  cases hg : getRoom (normalizeCode code) tbl with
  | none => exact hInv
  | some room =>
    dsimp only
    have hroom := hInv.2 _ _ hg
    have hsub : List.Sublist (room.players.filter (fun p => p.socketId ≠ sid)) room.players :=
      List.filter_sublist room.players
    have hsurv : ¬ (sid = room.hostSocketId) →
        ∀ p ∈ room.players, p.id = room.host →
          p ∈ room.players.filter (fun p => p.socketId ≠ sid) := by
      intro hw p hp hid
      refine List.mem_filter.mpr ⟨hp, ?_⟩
      have := hroom.2.2.2 p hp hid
      simp only [this]
      simpa using fun hc => hw hc.symm
    cases hparts : room.participants with
    | some parts =>
      cases hfind : room.players.find? (fun p => p.socketId = sid) with
      | some lp =>
        dsimp only
        obtain ⟨m1, m2, m3⟩ := maybeEnd_shape (normalizeCode code)
          (setRoom (normalizeCode code)
            { room with
              players := room.players.filter (fun p => p.socketId ≠ sid)
              participants := some (parts.filter (fun i => i ≠ lp.id)) } tbl)
        have hkeys := m1 (keys_setRoom_nodup _ _ _ hInv.1)
        have hother : ∀ c, c ≠ normalizeCode code →
            getRoom c (maybeEndRoundEarly (normalizeCode code)
              (setRoom (normalizeCode code)
                { room with
                  players := room.players.filter (fun p => p.socketId ≠ sid)
                  participants := some (parts.filter (fun i => i ≠ lp.id)) } tbl)).1 =
            getRoom c tbl := by
          intro c hc
          rw [m2 c hc]
          exact getRoom_setRoom_ne _ _ _ _ hc
        have hat : ∀ r2, getRoom (normalizeCode code)
            (maybeEndRoundEarly (normalizeCode code)
              (setRoom (normalizeCode code)
                { room with
                  players := room.players.filter (fun p => p.socketId ≠ sid)
                  participants := some (parts.filter (fun i => i ≠ lp.id)) } tbl)).1 = some r2 →
            r2.players = room.players.filter (fun p => p.socketId ≠ sid) ∧
            r2.host = room.host ∧ r2.hostSocketId = room.hostSocketId := by
          intro r2 h2
          rcases m3 r2 h2 with ⟨r1, h1, ha, hb, hc⟩
          rw [getRoom_setRoom_eq] at h1
          cases h1
          exact ⟨ha, hb, hc⟩
        have hbr := removal_branches_inv (normalizeCode code) tbl _ room _ hInv hroom
          hkeys hother hsub hat
        split
        · rename_i heq
          exact hbr.1 heq
        · rename_i room2 heq
          have hfacts := hat room2 heq
          split
          · split
            · rename_i newHost rest hpl
              exact hbr.2.2.1 room2 newHost rest heq hpl
            · exact hbr.2.1
          · rename_i hw
            split
            · exact hbr.2.1
            · exact hbr.2.2.2 (hsurv hw)
      | none =>
        dsimp only
        have hkeys := keys_setRoom_nodup (normalizeCode code)
          { room with
              players := room.players.filter (fun p => p.socketId ≠ sid)
              participants := some parts } tbl hInv.1
        have hother : ∀ c, c ≠ normalizeCode code →
            getRoom c (setRoom (normalizeCode code)
              { room with
              players := room.players.filter (fun p => p.socketId ≠ sid)
              participants := some parts } tbl) =
            getRoom c tbl := by
          intro c hc
          exact getRoom_setRoom_ne _ _ _ _ hc
        have hat : ∀ r2, getRoom (normalizeCode code)
            (setRoom (normalizeCode code)
              { room with
              players := room.players.filter (fun p => p.socketId ≠ sid)
              participants := some parts } tbl) =
            some r2 →
            r2.players = room.players.filter (fun p => p.socketId ≠ sid) ∧
            r2.host = room.host ∧ r2.hostSocketId = room.hostSocketId := by
          intro r2 h2
          rw [getRoom_setRoom_eq] at h2
          cases h2
          exact ⟨rfl, rfl, rfl⟩
        have hbr := removal_branches_inv (normalizeCode code) tbl _ room _ hInv hroom
          hkeys hother hsub hat
        split
        · rename_i heq
          exact hbr.1 heq
        · rename_i room2 heq
          split
          · split
            · rename_i newHost rest hpl
              exact hbr.2.2.1 room2 newHost rest heq hpl
            · exact hbr.2.1
          · rename_i hw
            split
            · exact hbr.2.1
            · exact hbr.2.2.2 (hsurv hw)
    | none =>
      dsimp only
      have hkeys := keys_setRoom_nodup (normalizeCode code)
        { room with
            players := room.players.filter (fun p => p.socketId ≠ sid)
            participants := none } tbl hInv.1
      have hother : ∀ c, c ≠ normalizeCode code →
          getRoom c (setRoom (normalizeCode code)
            { room with
            players := room.players.filter (fun p => p.socketId ≠ sid)
            participants := none } tbl) =
          getRoom c tbl := by
        intro c hc
        exact getRoom_setRoom_ne _ _ _ _ hc
      have hat : ∀ r2, getRoom (normalizeCode code)
          (setRoom (normalizeCode code)
            { room with
            players := room.players.filter (fun p => p.socketId ≠ sid)
            participants := none } tbl) =
          some r2 →
          r2.players = room.players.filter (fun p => p.socketId ≠ sid) ∧
          r2.host = room.host ∧ r2.hostSocketId = room.hostSocketId := by
        intro r2 h2
        rw [getRoom_setRoom_eq] at h2
        cases h2
        exact ⟨rfl, rfl, rfl⟩
      have hbr := removal_branches_inv (normalizeCode code) tbl _ room _ hInv hroom
        hkeys hother hsub hat
      split
      · rename_i heq
        exact hbr.1 heq
      · rename_i room2 heq
        split
        · split
          · rename_i newHost rest hpl
            exact hbr.2.2.1 room2 newHost rest heq hpl
          · exact hbr.2.1
        · rename_i hw
          split
          · exact hbr.2.1
          · exact hbr.2.2.2 (hsurv hw)

/-- Grace-expiry removal preserves the table invariant. -/
theorem grace_tableInv (code pid : String) (tbl : RoomTable) (hInv : TableInv tbl) :
    TableInv (graceExpire code pid tbl).1 := by
  simp only [graceExpire]
  cases hg : getRoom code tbl with
  | none => exact hInv
  | some room =>
    dsimp only
    have hroom := hInv.2 _ _ hg
    cases hrem : (removeFirst (fun p => p.id = pid) room.players).1 with
    | none => exact hInv
    | some removedPlayer =>
      dsimp only
      have hfound := removeFirst_found (fun p => p.id = pid) room.players removedPlayer hrem
      have hremid : removedPlayer.id = pid := of_decide_eq_true hfound.1
      have hsub : List.Sublist (removeFirst (fun p => p.id = pid) room.players).2 room.players :=
        removeFirst_sublist _ _
      have hsurv : ¬ (room.host = removedPlayer.id) →
          ∀ p ∈ room.players, p.id = room.host →
            p ∈ (removeFirst (fun p => p.id = pid) room.players).2 := by
        intro hw p hp hid
        refine mem_removeFirst_of_neg _ _ _ hp ?_
        apply decide_eq_false
        intro hc
        exact hw (by rw [← hid, hc, hremid])
      cases hparts : room.participants with
      | some parts =>
        dsimp only
        obtain ⟨m1, m2, m3⟩ := maybeEnd_shape code
          (setRoom code
            { room with
              players := (removeFirst (fun p => p.id = pid) room.players).2
              participants := some (parts.filter (fun i => i ≠ removedPlayer.id)) } tbl)
        have hkeys := m1 (keys_setRoom_nodup _ _ _ hInv.1)
        have hother : ∀ c, c ≠ code →
            getRoom c (maybeEndRoundEarly code
              (setRoom code
                { room with
                  players := (removeFirst (fun p => p.id = pid) room.players).2
                  participants := some (parts.filter (fun i => i ≠ removedPlayer.id)) } tbl)).1 =
            getRoom c tbl := by
          intro c hc
          rw [m2 c hc]
          exact getRoom_setRoom_ne _ _ _ _ hc
        have hat : ∀ r2, getRoom code (maybeEndRoundEarly code
            (setRoom code
              { room with
                players := (removeFirst (fun p => p.id = pid) room.players).2
                participants := some (parts.filter (fun i => i ≠ removedPlayer.id)) } tbl)).1 =
            some r2 →
            r2.players = (removeFirst (fun p => p.id = pid) room.players).2 ∧
            r2.host = room.host ∧ r2.hostSocketId = room.hostSocketId := by
          intro r2 h2
          rcases m3 r2 h2 with ⟨r1, h1, ha, hb, hc⟩
          rw [getRoom_setRoom_eq] at h1
          cases h1
          exact ⟨ha, hb, hc⟩
        have hbr := removal_branches_inv code tbl _ room _ hInv hroom hkeys hother hsub hat
        split
        · rename_i heq
          exact hbr.1 heq
        · rename_i room2 heq
          split
          · split
            · rename_i newHost rest hpl
              exact hbr.2.2.1 room2 newHost rest heq hpl
            · exact hbr.2.1
          · rename_i hw
            split
            · exact hbr.2.2.2 (hsurv hw)
            · exact hbr.2.1
      | none =>
        dsimp only
        have hkeys := keys_setRoom_nodup code
          { room with
            players := (removeFirst (fun p => p.id = pid) room.players).2
            participants := none } tbl hInv.1
        have hother : ∀ c, c ≠ code →
            getRoom c (setRoom code
              { room with
                players := (removeFirst (fun p => p.id = pid) room.players).2
                participants := none } tbl) = getRoom c tbl := by
          intro c hc
          exact getRoom_setRoom_ne _ _ _ _ hc
        have hat : ∀ r2, getRoom code (setRoom code
            { room with
              players := (removeFirst (fun p => p.id = pid) room.players).2
              participants := none } tbl) = some r2 →
            r2.players = (removeFirst (fun p => p.id = pid) room.players).2 ∧
            r2.host = room.host ∧ r2.hostSocketId = room.hostSocketId := by
          intro r2 h2
          rw [getRoom_setRoom_eq] at h2
          cases h2
          exact ⟨rfl, rfl, rfl⟩
        have hbr := removal_branches_inv code tbl _ room _ hInv hroom hkeys hother hsub hat
        split
        · rename_i heq
          exact hbr.1 heq
        · rename_i room2 heq
          split
          · split
            · rename_i newHost rest hpl
              exact hbr.2.2.1 room2 newHost rest heq hpl
            · exact hbr.2.1
          · rename_i hw
            split
            · exact hbr.2.2.2 (hsurv hw)
            · exact hbr.2.1

/-- Every reachable table satisfies the table invariant. -/
theorem reachable_tableInv (sign : String → String) (tbl : RoomTable)
    (h : Reachable sign tbl) : TableInv tbl := by
  induction h with
  | empty => exact ⟨List.nodup_nil, fun c r hc => by cases hc⟩
  | host sid nickname newPid now stream tbl h ih =>
    exact host_tableInv sid nickname newPid now stream sign tbl ih
  | join sid code nickname newId maxPlayers rateLimited tbl h hfresh ih =>
    exact join_tableInv sign sid code nickname newId maxPlayers rateLimited tbl ih hfresh
  | rejoin sid code pid token nickname now tbl h ih =>
    exact rejoin_tableInv sign sid code pid token nickname now tbl ih
  | toggle sid code tbl h ih => exact toggle_tableInv sid code tbl ih
  | start sid code now pickedPrompt pickedRandom tbl h ih =>
    exact start_tableInv sid code now pickedPrompt pickedRandom tbl ih
  | settings sid code now rd cat tbl h ih => exact settings_tableInv sid code now rd cat tbl ih
  | submit sid code payload now maxB tbl h ih =>
    exact submit_tableInv sid code payload now maxB tbl ih
  | leave sid code tbl h ih => exact leave_tableInv sid code tbl ih
  | gracex code pid tbl h ih => exact grace_tableInv code pid tbl ih
  | deadline code tbl h ih => exact deadlineFire_tableInv code tbl ih
  | disc sid code tbl h ih => exact disconnecting_tableInv sid code tbl ih

/-- C2 counterexample: a reachable room — `Ann` hosts, `Bob` joins, `Ann`
leaves, promoting `Bob` — whose host `Bob` has `isReady = false`: host
promotion does not set the new host's ready flag. -/
theorem host_not_ready_after_promotion :
    Reachable c2sign c2t3 ∧
    getRoom ("4XMVU") c2t3 = some c2FinalRoom ∧
    c2FinalRoom.players =
      [{ id := "idB", socketId := "sB", nickname := "Bob".data, isReady := false }] ∧
    c2FinalRoom.host = "idB" := by
  refine ⟨?_, rfl, rfl, rfl⟩
  have hfresh : ∀ c r, getRoom c c2t1 = some r → ∀ p ∈ r.players, p.id ≠ ("idB" : String) := by
    intro c r hc
    have ht1 : getRoom c c2t1 = (if "4XMVU" = c then some c2RoomA else none) := rfl
    rw [ht1] at hc
    split at hc
    · cases hc
      intro p hp
      rcases List.mem_singleton.mp hp with rfl
      decide
    · cases hc
  exact Reachable.leave ("sA") ("4XMVU") c2t2
    (Reachable.join ("sB") ("4XMVU") ("Bob") ("idB") 12 false c2t1
      (Reachable.host ("sA") (some ("Ann")) ("idA") 0 [1234567890123456] []
        Reachable.empty) hfresh)

/-- C2 amended: in every reachable room, exactly one current player carries
the host id (and in particular the host is a member and the room is
non-empty); this survives host promotion on explicit leave and on grace
expiry.  The promoted host, however, keeps their previous `isReady` flag —
hosts are treated as ready only in that `toggle-ready` ignores them and
`start-round` skips them when resetting flags. -/
theorem host_membership_invariant (sign : String → String) (tbl : RoomTable)
    (h : Reachable sign tbl) (c : String) (r : Room) (hc : getRoom c tbl = some r) :
    r.players ≠ [] ∧
    r.players.countP (fun p => p.id == r.host) = 1 ∧
    r.host ∈ r.players.map Player.id := by
  have hInv := (reachable_tableInv sign tbl h).2 _ _ hc
  refine ⟨hInv.1, ?_, hInv.2.2.1⟩
  have hcount : (r.players.map Player.id).count r.host = 1 :=
    List.count_eq_one_of_mem hInv.2.1 hInv.2.2.1
  have h2 : (r.players.map Player.id).countP (fun x => x == r.host) = 1 := hcount
  rw [List.countP_map] at h2
  exact h2

/-- C2 witness: the invariant evaluated on the concrete reachable room of the
fixture — `Bob` is the unique host after promotion. -/
theorem host_membership_invariant_witness :
    getRoom ("4XMVU") c2t3 = some c2FinalRoom ∧
    c2FinalRoom.players ≠ [] ∧
    c2FinalRoom.players.countP (fun p => p.id == c2FinalRoom.host) = 1 := by
  have hfresh : ∀ c r, getRoom c c2t1 = some r → ∀ p ∈ r.players, p.id ≠ ("idB" : String) := by
    intro c r hc
    have ht1 : getRoom c c2t1 = (if "4XMVU" = c then some c2RoomA else none) := rfl
    rw [ht1] at hc
    split at hc
    · cases hc
      intro p hp
      rcases List.mem_singleton.mp hp with rfl
      decide
    · cases hc
  have hreach : Reachable c2sign c2t3 :=
    Reachable.leave ("sA") ("4XMVU") c2t2
      (Reachable.join ("sB") ("4XMVU") ("Bob") ("idB") 12 false c2t1
        (Reachable.host ("sA") (some ("Ann")) ("idA") 0 [1234567890123456] []
          Reachable.empty) hfresh)
  have hres := host_membership_invariant c2sign c2t3 hreach ("4XMVU") c2FinalRoom rfl
  exact ⟨rfl, hres.1, hres.2.1⟩

/- ## C8: nickname disambiguation (`assignUniqueNickname`)

Character-class groundwork: the whitespace, digit and parenthesis classes and
ASCII lower-casing interact in the ways the suffix regex depends on. -/

/-- `Char.ofNat` round-trips through `toNat` on the basic plane. -/
theorem char_toNat_ofNat (n : Nat) (h : n < 55296) : (Char.ofNat n).toNat = n := by
  have hv : n.isValidChar := Or.inl h
  unfold Char.ofNat
  rw [dif_pos hv]
  rfl

/-- A whitespace character has one of the six ASCII whitespace codes. -/
theorem isWs_codes (c : Char) (h : isWs c = true) :
    c.toNat = 32 ∨ c.toNat = 9 ∨ c.toNat = 10 ∨ c.toNat = 11 ∨
    c.toNat = 12 ∨ c.toNat = 13 := by
  simp only [isWs, Bool.or_eq_true, decide_eq_true_eq] at h
  rcases h with ((((h | h) | h) | h) | h) | h <;> subst h <;> decide

/-- A character whose code is outside the six whitespace codes is not
whitespace. -/
theorem isWs_false_of_codes (c : Char) (h32 : c.toNat ≠ 32)
    (hlo : c.toNat < 9 ∨ 13 < c.toNat) : isWs c = false := by
  cases hw : isWs c
  · rfl
  · rcases isWs_codes c hw with h | h | h | h | h | h <;> omega

/-- Digits (codes 48–57) are not whitespace. -/
theorem isWs_of_digit (c : Char) (h : isDigitCh c = true) : isWs c = false := by
  have hc : 48 ≤ c.toNat ∧ c.toNat ≤ 57 := of_decide_eq_true h
  exact isWs_false_of_codes c (by omega) (by omega)

/-- Lower-casing a non-letter (code below 65) is the identity. -/
theorem jsToLower_eq_self (c : Char) (h : c.toNat < 65) : jsToLower c = c := by
  unfold jsToLower
  rw [if_neg]
  omega

/-- The code of the lower-cased form of an upper-case letter. -/
theorem jsToLower_toNat_upper (c : Char) (h : 65 ≤ c.toNat ∧ c.toNat ≤ 90) :
    (jsToLower c).toNat = c.toNat + 32 := by
  unfold jsToLower
  rw [if_pos h]
  exact char_toNat_ofNat _ (by omega)

/-- Lower-casing preserves the whitespace class. -/
theorem isWs_jsToLower (c : Char) : isWs (jsToLower c) = isWs c := by
  by_cases h : 65 ≤ c.toNat ∧ c.toNat ≤ 90
  · have h1 : (jsToLower c).toNat = c.toNat + 32 := jsToLower_toNat_upper c h
    rw [isWs_false_of_codes _ (by omega) (by omega),
      isWs_false_of_codes c (by omega) (by omega)]
  · unfold jsToLower
    rw [if_neg h]

/-- Lower-casing preserves the digit class. -/
theorem isDigit_jsToLower (c : Char) : isDigitCh (jsToLower c) = isDigitCh c := by
  by_cases h : 65 ≤ c.toNat ∧ c.toNat ≤ 90
  · have h1 : (jsToLower c).toNat = c.toNat + 32 := jsToLower_toNat_upper c h
    unfold isDigitCh
    rw [h1]
    simp only [decide_eq_decide]
    omega
  · unfold jsToLower
    rw [if_neg h]

/-- Lower-casing fixes every character outside `A`–`Z`. -/
theorem jsToLower_eq_self_of_not_upper (c : Char)
    (h : ¬(65 ≤ c.toNat ∧ c.toNat ≤ 90)) : jsToLower c = c := by
  unfold jsToLower
  rw [if_neg h]

/-- ASCII lower-casing is idempotent. -/
theorem jsToLower_idem (c : Char) : jsToLower (jsToLower c) = jsToLower c := by
  by_cases h : 65 ≤ c.toNat ∧ c.toNat ≤ 90
  · have h1 : (jsToLower c).toNat = c.toNat + 32 := jsToLower_toNat_upper c h
    exact jsToLower_eq_self_of_not_upper _ (by omega)
  · unfold jsToLower
    rw [if_neg h, if_neg h]

/-- Lower-casing neither produces nor destroys a closing parenthesis. -/
theorem jsToLower_eq_rpar (c : Char) : jsToLower c = rparChar ↔ c = rparChar := by
  constructor
  · intro h
    by_cases hu : 65 ≤ c.toNat ∧ c.toNat ≤ 90
    · have h1 : (jsToLower c).toNat = c.toNat + 32 := jsToLower_toNat_upper c hu
      rw [h] at h1
      have : rparChar.toNat = 41 := by decide
      omega
    · unfold jsToLower at h
      rwa [if_neg hu] at h
  · intro h
    subst h
    decide

/-- Lower-casing neither produces nor destroys an opening parenthesis. -/
theorem jsToLower_eq_lpar (c : Char) : jsToLower c = lparChar ↔ c = lparChar := by
  constructor
  · intro h
    by_cases hu : 65 ≤ c.toNat ∧ c.toNat ≤ 90
    · have h1 : (jsToLower c).toNat = c.toNat + 32 := jsToLower_toNat_upper c hu
      rw [h] at h1
      have : lparChar.toNat = 40 := by decide
      omega
    · unfold jsToLower at h
      rwa [if_neg hu] at h
  · intro h
    subst h
    decide

/-- Lower-casing fixes a digit. -/
theorem jsToLower_digit (c : Char) (h : isDigitCh c = true) : jsToLower c = c := by
  have hc : 48 ≤ c.toNat ∧ c.toNat ≤ 57 := of_decide_eq_true h
  exact jsToLower_eq_self c (by omega)

/- List-scanning utilities used by the whitespace-normalization proofs. -/

/-- `dropWhile` skips past a block that satisfies the predicate. -/
theorem dropWhile_append_allP {p : Char → Bool} {a : List Char} (b : List Char)
    (h : ∀ c ∈ a, p c = true) :
    List.dropWhile p (a ++ b) = List.dropWhile p b := by
  induction a with
  | nil => rfl
  | cons c t ih =>
    simp only [List.cons_append, List.dropWhile_cons, h c (List.mem_cons_self c t)]
    exact ih (fun x hx => h x (List.mem_cons_of_mem c hx))

/-- `dropWhile` stops no later than a failing element. -/
theorem dropWhile_append_stop {p : Char → Bool} {c : Char} (x z : List Char)
    (h : p c = false) :
    List.dropWhile p (x ++ c :: z) = List.dropWhile p x ++ c :: z := by
  induction x with
  | nil => simp [List.dropWhile_cons, h]
  | cons a t ih =>
    cases ha : p a
    · simp [List.dropWhile_cons, ha]
    · simp only [List.cons_append, List.dropWhile_cons, ha, if_pos]
      exact ih

/-- `dropWhile` is idempotent. -/
theorem dropWhile_idem {p : Char → Bool} (l : List Char) :
    List.dropWhile p (List.dropWhile p l) = List.dropWhile p l := by
  induction l with
  | nil => rfl
  | cons c t ih =>
    cases hc : p c
    · simp [List.dropWhile_cons, hc]
    · simp only [List.dropWhile_cons, hc, if_pos]
      exact ih

/-- The head surviving a `dropWhile` fails the predicate. -/
theorem dropWhile_head_false {p : Char → Bool} {l : List Char} {c : Char}
    (h : (List.dropWhile p l).head? = some c) : p c = false := by
  induction l with
  | nil => cases h
  | cons a t ih =>
    by_cases ha : p a
    · rw [List.dropWhile_cons, if_pos ha] at h
      exact ih h
    · rw [List.dropWhile_cons, if_neg ha] at h
      rw [List.head?_cons, Option.some_inj] at h
      subst h
      cases hpa : p a
      · rfl
      · exact absurd hpa ha

/-- A list whose head fails the predicate is untouched by `dropWhile`. -/
theorem dropWhile_eq_self_of_head {p : Char → Bool} {l : List Char} {c : Char}
    (h : l.head? = some c) (hc : p c = false) : List.dropWhile p l = l := by
  cases l with
  | nil => cases h
  | cons a t =>
    rw [List.head?_cons, Option.some_inj] at h
    subst h
    rw [List.dropWhile_cons, if_neg (by simp [hc])]

/-- `takeWhile` passes through a block that satisfies the predicate. -/
theorem takeWhile_append_allP {p : Char → Bool} {a : List Char} (b : List Char)
    (h : ∀ c ∈ a, p c = true) :
    List.takeWhile p (a ++ b) = a ++ List.takeWhile p b := by
  induction a with
  | nil => rfl
  | cons c t ih =>
    simp only [List.cons_append, List.takeWhile_cons, h c (List.mem_cons_self c t),
      if_true, List.cons.injEq, true_and]
    exact ih (fun x hx => h x (List.mem_cons_of_mem c hx))

/-- `takeWhile` never reaches a block that fails the predicate throughout. -/
theorem takeWhile_append_allNeg {p : Char → Bool} {y : List Char} (x : List Char)
    (h : ∀ c ∈ y, p c = false) :
    List.takeWhile p (x ++ y) = List.takeWhile p x := by
  induction x with
  | nil =>
    cases y with
    | nil => rfl
    | cons c t =>
      simp [List.takeWhile_cons, h c (List.mem_cons_self c t)]
  | cons a t ih =>
    cases ha : p a
    · simp [List.takeWhile_cons, ha]
    · simp only [List.cons_append, List.takeWhile_cons, ha, if_pos]
      rw [ih]

/-- A `takeWhile` by a stronger predicate ignores an outer `takeWhile` by a
weaker one. -/
theorem takeWhile_takeWhile_mono {p q : Char → Bool}
    (himp : ∀ c, p c = true → q c = true) (l : List Char) :
    List.takeWhile p (List.takeWhile q l) = List.takeWhile p l := by
  induction l with
  | nil => rfl
  | cons c t ih =>
    cases hp : p c
    · cases hq : q c
      · simp [List.takeWhile_cons, hp, hq]
      · simp [List.takeWhile_cons, hp, hq]
    · have hq : q c = true := himp c hp
      simp only [List.takeWhile_cons, hq, hp, if_pos]
      rw [ih]

/-- `dropWhile` distributes over an append whose first part is not fully
consumed. -/
theorem dropWhile_append_of_ne_nil {p : Char → Bool} {x : List Char} (y : List Char)
    (h : List.dropWhile p x ≠ []) :
    List.dropWhile p (x ++ y) = List.dropWhile p x ++ y := by
  induction x with
  | nil => exact absurd rfl h
  | cons a t ih =>
    cases ha : p a
    · simp [List.dropWhile_cons, ha]
    · rw [List.dropWhile_cons, if_pos (by simp [ha])] at h
      simp only [List.cons_append, List.dropWhile_cons, ha, if_pos]
      exact ih h

/-- A non-empty `dropWhile` keeps the last element. -/
theorem getLast?_dropWhile {p : Char → Bool} (l : List Char)
    (h : List.dropWhile p l ≠ []) :
    (List.dropWhile p l).getLast? = l.getLast? := by
  obtain ⟨pre, hpre⟩ := (List.dropWhile_suffix p : List.dropWhile p l <:+ l)
  conv_rhs => rw [← hpre]
  rw [List.getLast?_append]
  cases hg : (List.dropWhile p l).getLast? with
  | some c => rfl
  | none => exact absurd (List.getLast?_eq_none_iff.mp hg) h

/- `trim` lemmas. -/

/-- A trim-invariant list is invariant under both one-sided whitespace
drops. -/
theorem trim_fix_parts (l : List Char) (h : trimWs l = l) :
    l.dropWhile isWs = l ∧ l.reverse.dropWhile isWs = l.reverse := by
  have hd : l.dropWhile isWs = l := by
    have h1 : ((l.dropWhile isWs).reverse.dropWhile isWs).length ≤
        (l.dropWhile isWs).length := by
      simpa using
        (List.dropWhile_suffix isWs :
          List.dropWhile isWs ((l.dropWhile isWs).reverse) <:+
            (l.dropWhile isWs).reverse).length_le
    have h2 : (l.dropWhile isWs).length ≤ l.length :=
      (List.dropWhile_suffix isWs : List.dropWhile isWs l <:+ l).length_le
    have h3 : (trimWs l).length = l.length := by rw [h]
    have h4 : (l.dropWhile isWs).length = l.length := by
      unfold trimWs at h3
      simp only [List.length_reverse] at h3
      omega
    exact (List.dropWhile_suffix isWs : List.dropWhile isWs l <:+ l).eq_of_length h4
  refine ⟨hd, ?_⟩
  have h5 : (l.reverse.dropWhile isWs).reverse = l := by
    unfold trimWs at h
    rwa [hd] at h
  have := congrArg List.reverse h5
  rwa [List.reverse_reverse] at this

/-- Trailing whitespace does not affect `trim`. -/
theorem trim_append_ws (y w : List Char) (hw : ∀ c ∈ w, isWs c = true) :
    trimWs (y ++ w) = trimWs y := by
  unfold trimWs
  by_cases hd : y.dropWhile isWs = []
  · have hy : ∀ c ∈ y, isWs c = true := List.dropWhile_eq_nil_iff.mp hd
    rw [dropWhile_append_allP w hy, hd]
    have hw2 : w.dropWhile isWs = [] := List.dropWhile_eq_nil_iff.mpr hw
    rw [hw2]
  · rw [dropWhile_append_of_ne_nil w hd, List.reverse_append,
      dropWhile_append_allP _ (fun c hc => hw c (List.mem_reverse.mp hc))]

/-- A list ending in a non-whitespace character only trims on the left. -/
theorem trim_notrail (l : List Char) (c : Char) (hl : l.getLast? = some c)
    (hc : isWs c = false) : trimWs l = l.dropWhile isWs := by
  have hd : l.dropWhile isWs ≠ [] := by
    intro hnil
    have hall := List.dropWhile_eq_nil_iff.mp hnil
    exact absurd (hall c (List.mem_of_mem_getLast? hl)) (by simp [hc])
  have hlast : (l.dropWhile isWs).getLast? = some c := by
    rw [getLast?_dropWhile l hd, hl]
  have hhead : (l.dropWhile isWs).reverse.head? = some c := by
    rw [List.head?_reverse, hlast]
  unfold trimWs
  rw [dropWhile_eq_self_of_head hhead hc, List.reverse_reverse]

/-- `trim` is idempotent. -/
theorem trim_idem (l : List Char) : trimWs (trimWs l) = trimWs l := by
  by_cases he : trimWs l = []
  · rw [he]
    rfl
  · have hX : (l.dropWhile isWs).reverse.dropWhile isWs ≠ [] := by
      intro hnil
      unfold trimWs at he
      rw [hnil] at he
      exact he rfl
    have hd : l.dropWhile isWs ≠ [] := by
      intro hnil
      rw [hnil] at hX
      exact hX rfl
    obtain ⟨c, hc⟩ : ∃ c, ((l.dropWhile isWs).reverse.dropWhile isWs).head? = some c := by
      cases hh : ((l.dropWhile isWs).reverse.dropWhile isWs).head? with
      | some c => exact ⟨c, rfl⟩
      | none => exact absurd (List.head?_eq_none_iff.mp hh) hX
    have hcw : isWs c = false := dropWhile_head_false hc
    have hlast : (trimWs l).getLast? = some c := by
      unfold trimWs
      rw [List.getLast?_reverse, hc]
    rw [trim_notrail (trimWs l) c hlast hcw]
    have hfirst : (trimWs l).head? = some ((l.dropWhile isWs).head?.getD c) := by
      obtain ⟨c', hc'⟩ : ∃ c', (l.dropWhile isWs).head? = some c' := by
        cases hh : (l.dropWhile isWs).head? with
        | some x => exact ⟨x, rfl⟩
        | none => exact absurd (List.head?_eq_none_iff.mp hh) hd
      unfold trimWs
      rw [List.head?_reverse, getLast?_dropWhile _ hX, List.getLast?_reverse, hc']
      rfl
    obtain ⟨c', hc'⟩ : ∃ c', (l.dropWhile isWs).head? = some c' := by
      cases hh : (l.dropWhile isWs).head? with
      | some x => exact ⟨x, rfl⟩
      | none => exact absurd (List.head?_eq_none_iff.mp hh) hd
    have hcw' : isWs c' = false := dropWhile_head_false hc'
    rw [hc'] at hfirst
    exact dropWhile_eq_self_of_head hfirst hcw'

/-- `trim` commutes with ASCII lower-casing. -/
theorem trim_map_lower (l : List Char) : trimWs (lowerStr l) = lowerStr (trimWs l) := by
  have hws : (isWs ∘ jsToLower) = isWs := funext isWs_jsToLower
  unfold trimWs lowerStr
  rw [List.dropWhile_map, hws, ← List.map_reverse, List.dropWhile_map, hws,
    ← List.map_reverse]

/-- Leading whitespace does not affect `trim`. -/
theorem trim_dropWhile (l : List Char) : trimWs (l.dropWhile isWs) = trimWs l := by
  unfold trimWs
  rw [dropWhile_idem]


/- `collapseAux` lemmas.  The three step equations below let proofs rewrite
one input character at a time without unfolding the recursive calls. -/

/-- Step equation: a non-whitespace character is emitted as-is. -/
theorem collapseAux_cons_nonws (b : Bool) (c : Char) (t : List Char)
    (h : isWs c = false) : collapseAux b (c :: t) = c :: collapseAux false t := by
  simp [collapseAux, h]

/-- Step equation: whitespace after whitespace is swallowed. -/
theorem collapseAux_cons_ws_true (c : Char) (t : List Char)
    (h : isWs c = true) : collapseAux true (c :: t) = collapseAux true t := by
  simp [collapseAux, h]

/-- Step equation: whitespace after a non-whitespace character becomes one
space. -/
theorem collapseAux_cons_ws_false (c : Char) (t : List Char)
    (h : isWs c = true) : collapseAux false (c :: t) = spaceChar :: collapseAux true t := by
  simp [collapseAux, h]

/-- Whitespace-free input passes through `collapseAux` unchanged. -/
theorem collapse_nonWs (l : List Char) (h : ∀ c ∈ l, isWs c = false) (b : Bool) :
    collapseAux b l = l := by
  induction l generalizing b with
  | nil => rfl
  | cons c t ih =>
    rw [collapseAux_cons_nonws b c t (h c (List.mem_cons_self c t)),
      ih (fun x hx => h x (List.mem_cons_of_mem c hx)) false]

/-- All-whitespace input is swallowed entirely when the previous character
was already whitespace. -/
theorem collapse_allWs_true (l : List Char) (h : ∀ c ∈ l, isWs c = true) :
    collapseAux true l = [] := by
  induction l with
  | nil => rfl
  | cons c t ih =>
    rw [collapseAux_cons_ws_true c t (h c (List.mem_cons_self c t)),
      ih (fun x hx => h x (List.mem_cons_of_mem c hx))]

/-- Non-empty all-whitespace input collapses to a single space. -/
theorem collapse_allWs_false (l : List Char) (hne : l ≠ [])
    (h : ∀ c ∈ l, isWs c = true) : collapseAux false l = [spaceChar] := by
  cases l with
  | nil => exact absurd rfl hne
  | cons c t =>
    rw [collapseAux_cons_ws_false c t (h c (List.mem_cons_self c t)),
      collapse_allWs_true t (fun x hx => h x (List.mem_cons_of_mem c hx))]

/-- `collapseAux` splits over an append whose second part starts with a
non-whitespace character. -/
theorem collapse_append_headNonWs (l1 l2 : List Char)
    (h : ∀ c, l2.head? = some c → isWs c = false) (b : Bool) :
    collapseAux b (l1 ++ l2) = collapseAux b l1 ++ collapseAux false l2 := by
  induction l1 generalizing b with
  | nil =>
    cases l2 with
    | nil => rfl
    | cons c t =>
      rw [List.nil_append, collapseAux_cons_nonws b c t (h c rfl),
        collapseAux_cons_nonws false c t (h c rfl)]
      rfl
  | cons a t ih =>
    rw [List.cons_append]
    cases hw : isWs a with
    | false =>
      rw [collapseAux_cons_nonws b a (t ++ l2) hw, collapseAux_cons_nonws b a t hw,
        ih false, List.cons_append]
    | true =>
      cases b with
      | true =>
        rw [collapseAux_cons_ws_true a (t ++ l2) hw, collapseAux_cons_ws_true a t hw,
          ih true]
      | false =>
        rw [collapseAux_cons_ws_false a (t ++ l2) hw, collapseAux_cons_ws_false a t hw,
          ih true, List.cons_append]

/-- `collapseAux` splits over an append whose first part ends with a
non-whitespace character. -/
theorem collapse_append_lastNonWs (l1 l2 : List Char) (d : Char)
    (hlast : l1.getLast? = some d) (hd : isWs d = false) (b : Bool) :
    collapseAux b (l1 ++ l2) = collapseAux b l1 ++ collapseAux false l2 := by
  induction l1 generalizing b with
  | nil => cases hlast
  | cons a t ih =>
    cases t with
    | nil =>
      rw [List.getLast?_singleton, Option.some_inj] at hlast
      subst hlast
      rw [List.cons_append, List.nil_append, collapseAux_cons_nonws b a l2 hd,
        collapseAux_cons_nonws b a [] hd]
      rfl
    | cons a2 t2 =>
      have hlast2 : (a2 :: t2).getLast? = some d := by
        rwa [List.getLast?_cons_cons] at hlast
      rw [List.cons_append]
      cases hw : isWs a with
      | false =>
        rw [collapseAux_cons_nonws b a ((a2 :: t2) ++ l2) hw,
          collapseAux_cons_nonws b a (a2 :: t2) hw, ih hlast2 false, List.cons_append]
      | true =>
        cases b with
        | true =>
          rw [collapseAux_cons_ws_true a ((a2 :: t2) ++ l2) hw,
            collapseAux_cons_ws_true a (a2 :: t2) hw, ih hlast2 true]
        | false =>
          rw [collapseAux_cons_ws_false a ((a2 :: t2) ++ l2) hw,
            collapseAux_cons_ws_false a (a2 :: t2) hw, ih hlast2 true, List.cons_append]

/-- `collapseAux` keeps a non-whitespace last character. -/
theorem collapse_getLast_nonWs (l : List Char) (c : Char)
    (hlast : l.getLast? = some c) (hc : isWs c = false) (b : Bool) :
    (collapseAux b l).getLast? = some c := by
  induction l generalizing b with
  | nil => cases hlast
  | cons a t ih =>
    cases t with
    | nil =>
      rw [List.getLast?_singleton, Option.some_inj] at hlast
      subst hlast
      rw [collapseAux_cons_nonws b a [] hc]
      rfl
    | cons a2 t2 =>
      have hlast2 : (a2 :: t2).getLast? = some c := by
        rwa [List.getLast?_cons_cons] at hlast
      cases hw : isWs a with
      | false =>
        rw [collapseAux_cons_nonws b a (a2 :: t2) hw,
          show (a :: collapseAux false (a2 :: t2)) =
            [a] ++ collapseAux false (a2 :: t2) from rfl,
          List.getLast?_append, ih hlast2 false]
        rfl
      | true =>
        cases b with
        | true =>
          rw [collapseAux_cons_ws_true a (a2 :: t2) hw]
          exact ih hlast2 true
        | false =>
          rw [collapseAux_cons_ws_false a (a2 :: t2) hw,
            show (spaceChar :: collapseAux true (a2 :: t2)) =
              [spaceChar] ++ collapseAux true (a2 :: t2) from rfl,
            List.getLast?_append, ih hlast2 true]
          rfl

/-- `collapseAux` turns a whitespace last character into a trailing single
space (or swallows everything in the `true` state). -/
theorem collapse_getLast_ws (l : List Char) (c : Char)
    (hlast : l.getLast? = some c) (hc : isWs c = true) :
    (collapseAux false l).getLast? = some spaceChar ∧
    (collapseAux true l = [] ∨ (collapseAux true l).getLast? = some spaceChar) := by
  induction l with
  | nil => cases hlast
  | cons a t ih =>
    cases t with
    | nil =>
      rw [List.getLast?_singleton, Option.some_inj] at hlast
      subst hlast
      refine ⟨?_, Or.inl ?_⟩
      · rw [collapseAux_cons_ws_false a [] hc]
        rfl
      · rw [collapseAux_cons_ws_true a [] hc]
        rfl
    | cons a2 t2 =>
      have hlast2 : (a2 :: t2).getLast? = some c := by
        rwa [List.getLast?_cons_cons] at hlast
      obtain ⟨ihf, iht⟩ := ih hlast2
      cases hw : isWs a with
      | false =>
        have hstep : ∀ b : Bool, collapseAux b (a :: a2 :: t2) =
            [a] ++ collapseAux false (a2 :: t2) :=
          fun b => collapseAux_cons_nonws b a (a2 :: t2) hw
        constructor
        · rw [hstep false, List.getLast?_append, ihf]
          rfl
        · right
          rw [hstep true, List.getLast?_append, ihf]
          rfl
      | true =>
        constructor
        · rw [collapseAux_cons_ws_false a (a2 :: t2) hw,
            show (spaceChar :: collapseAux true (a2 :: t2)) =
              [spaceChar] ++ collapseAux true (a2 :: t2) from rfl,
            List.getLast?_append]
          rcases iht with he | hs
          · rw [he]
            rfl
          · rw [hs]
            rfl
        · rw [collapseAux_cons_ws_true a (a2 :: t2) hw]
          exact iht

/-- `collapseAux` is idempotent (in both entry states). -/
theorem collapse_idem_pair (l : List Char) :
    collapseAux false (collapseAux false l) = collapseAux false l ∧
    collapseAux true (collapseAux true l) = collapseAux true l := by
  induction l with
  | nil => exact ⟨rfl, rfl⟩
  | cons c t ih =>
    obtain ⟨ihf, iht⟩ := ih
    cases hw : isWs c with
    | false =>
      constructor
      · rw [collapseAux_cons_nonws false c t hw, collapseAux_cons_nonws false c _ hw, ihf]
      · rw [collapseAux_cons_nonws true c t hw, collapseAux_cons_nonws true c _ hw, ihf]
    | true =>
      constructor
      · rw [collapseAux_cons_ws_false c t hw,
          collapseAux_cons_ws_false spaceChar (collapseAux true t) (by decide), iht]
      · rw [collapseAux_cons_ws_true c t hw, iht]

/-- `collapseWs` is idempotent. -/
theorem collapse_idem (l : List Char) : collapseWs (collapseWs l) = collapseWs l :=
  (collapse_idem_pair l).1

/-- `collapseAux` commutes with ASCII lower-casing. -/
theorem collapse_map_lower (l : List Char) (b : Bool) :
    collapseAux b (lowerStr l) = lowerStr (collapseAux b l) := by
  induction l generalizing b with
  | nil => rfl
  | cons c t ih =>
    have hmap : lowerStr (c :: t) = jsToLower c :: lowerStr t := rfl
    cases hw : isWs c with
    | false =>
      have hw2 : isWs (jsToLower c) = false := by rw [isWs_jsToLower, hw]
      rw [hmap, collapseAux_cons_nonws b (jsToLower c) (lowerStr t) hw2,
        collapseAux_cons_nonws b c t hw, ih false]
      rfl
    | true =>
      have hw2 : isWs (jsToLower c) = true := by rw [isWs_jsToLower, hw]
      cases b with
      | true =>
        rw [hmap, collapseAux_cons_ws_true (jsToLower c) (lowerStr t) hw2,
          collapseAux_cons_ws_true c t hw, ih true]
      | false =>
        rw [hmap, collapseAux_cons_ws_false (jsToLower c) (lowerStr t) hw2,
          collapseAux_cons_ws_false c t hw, ih true]
        have hsp : jsToLower spaceChar = spaceChar := by decide
        show spaceChar :: lowerStr (collapseAux true t) =
          lowerStr (spaceChar :: collapseAux true t)
        rw [show lowerStr (spaceChar :: collapseAux true t) =
          jsToLower spaceChar :: lowerStr (collapseAux true t) from rfl, hsp]

/-- Dropping leading whitespace commutes with collapsing (in both entry
states the result restarts in the `false` state). -/
theorem dropWhile_collapse_pair (l : List Char) :
    List.dropWhile isWs (collapseAux false l) =
      collapseAux false (List.dropWhile isWs l) ∧
    List.dropWhile isWs (collapseAux true l) =
      collapseAux false (List.dropWhile isWs l) := by
  induction l with
  | nil => exact ⟨rfl, rfl⟩
  | cons c t ih =>
    obtain ⟨ihf, iht⟩ := ih
    cases hw : isWs c with
    | false =>
      have hdw : List.dropWhile isWs (c :: t) = c :: t := by
        rw [List.dropWhile_cons, if_neg (by simp [hw])]
      constructor
      · rw [collapseAux_cons_nonws false c t hw, hdw,
          collapseAux_cons_nonws false c t hw, List.dropWhile_cons,
          if_neg (by simp [hw])]
      · rw [collapseAux_cons_nonws true c t hw, hdw,
          collapseAux_cons_nonws false c t hw, List.dropWhile_cons,
          if_neg (by simp [hw])]
    | true =>
      have hdw : List.dropWhile isWs (c :: t) = List.dropWhile isWs t := by
        rw [List.dropWhile_cons, if_pos hw]
      constructor
      · rw [collapseAux_cons_ws_false c t hw, hdw, List.dropWhile_cons,
          if_pos (by decide), iht]
      · rw [collapseAux_cons_ws_true c t hw, hdw, iht]

/-- Collapsing a non-empty list is non-empty. -/
theorem collapse_ne_nil (l : List Char) (h : l ≠ []) : collapseAux false l ≠ [] := by
  cases l with
  | nil => exact absurd rfl h
  | cons c t =>
    cases hw : isWs c with
    | false =>
      rw [collapseAux_cons_nonws false c t hw]
      exact List.cons_ne_nil _ _
    | true =>
      rw [collapseAux_cons_ws_false c t hw]
      exact List.cons_ne_nil _ _

/- `normDisplay` / `normalizeNickname` algebra. -/

/-- All-whitespace input trims to nothing. -/
theorem trim_allWs (l : List Char) (h : ∀ c ∈ l, isWs c = true) : trimWs l = [] := by
  unfold trimWs
  rw [List.dropWhile_eq_nil_iff.mpr h]
  rfl

/-- `normDisplay` commutes with ASCII lower-casing. -/
theorem nd_lower_comm (l : List Char) :
    normDisplay (lowerStr l) = lowerStr (normDisplay l) := by
  unfold normDisplay collapseWs
  rw [trim_map_lower, collapse_map_lower]

/-- `trim` and `collapse` commute. -/
theorem trim_collapse_comm (l : List Char) :
    trimWs (collapseWs l) = collapseWs (trimWs l) := by
  have hsplit : l = (l.reverse.dropWhile isWs).reverse ++
      (l.reverse.takeWhile isWs).reverse := by
    conv_lhs => rw [← List.reverse_reverse l,
      ← List.takeWhile_append_dropWhile isWs l.reverse]
    rw [List.reverse_append]
  have hw : ∀ c ∈ (l.reverse.takeWhile isWs).reverse, isWs c = true :=
    fun c hc => List.mem_takeWhile_imp (List.mem_reverse.mp hc)
  by_cases hx : (l.reverse.dropWhile isWs).reverse = []
  · have hall : ∀ c ∈ l, isWs c = true := by
      intro c hc
      rw [hsplit, hx, List.nil_append] at hc
      exact hw c hc
    by_cases hnil : l = []
    · subst hnil
      rfl
    · rw [trim_allWs l hall]
      unfold collapseWs
      rw [collapse_allWs_false l hnil hall, trim_allWs [spaceChar] (by decide)]
      rfl
  · obtain ⟨d, hd⟩ : ∃ d, ((l.reverse.dropWhile isWs).reverse).getLast? = some d := by
      cases hh : ((l.reverse.dropWhile isWs).reverse).getLast? with
      | some x => exact ⟨x, rfl⟩
      | none => exact absurd (List.getLast?_eq_none_iff.mp hh) hx
    have hdrop_ne : l.reverse.dropWhile isWs ≠ [] := by
      intro hnil
      rw [hnil] at hx
      exact hx rfl
    have hdws : isWs d = false := by
      have : (l.reverse.dropWhile isWs).head? = some d := by
        rwa [List.getLast?_reverse] at hd
      exact dropWhile_head_false this
    have hRHS : trimWs l = List.dropWhile isWs ((l.reverse.dropWhile isWs).reverse) := by
      conv_lhs => rw [hsplit]
      rw [trim_append_ws _ _ hw, trim_notrail _ d hd hdws]
    by_cases hwnil : (l.reverse.takeWhile isWs).reverse = []
    · have hl : l = (l.reverse.dropWhile isWs).reverse := by
        conv_lhs => rw [hsplit]
        rw [hwnil, List.append_nil]
      rw [hRHS, ← hl]
      have hlastc : (collapseWs l).getLast? = some d := by
        unfold collapseWs
        rw [hl]
        exact collapse_getLast_nonWs _ d hd hdws false
      rw [trim_notrail _ d hlastc hdws]
      unfold collapseWs
      rw [hl, (dropWhile_collapse_pair _).1]
    · have hLHS : collapseWs l =
          collapseWs ((l.reverse.dropWhile isWs).reverse) ++ [spaceChar] := by
        unfold collapseWs
        conv_lhs => rw [hsplit]
        rw [collapse_append_lastNonWs _ _ d hd hdws false,
          collapse_allWs_false _ hwnil hw]
      rw [hLHS, trim_append_ws _ [spaceChar] (by decide)]
      have hlastc : (collapseWs ((l.reverse.dropWhile isWs).reverse)).getLast? = some d := by
        unfold collapseWs
        exact collapse_getLast_nonWs _ d hd hdws false
      rw [trim_notrail _ d hlastc hdws, hRHS]
      unfold collapseWs
      rw [(dropWhile_collapse_pair _).1]

/-- Pre-collapsing does not change `normDisplay`. -/
theorem nd_collapse (l : List Char) : normDisplay (collapseWs l) = normDisplay l := by
  unfold normDisplay
  rw [trim_collapse_comm, collapse_idem]

/-- Leading whitespace does not change `normDisplay`. -/
theorem nd_dropWhile (l : List Char) :
    normDisplay (l.dropWhile isWs) = normDisplay l := by
  unfold normDisplay
  rw [trim_dropWhile]

/-- `normDisplay` is idempotent. -/
theorem nd_idem (l : List Char) : normDisplay (normDisplay l) = normDisplay l := by
  unfold normDisplay
  rw [trim_collapse_comm, trim_idem, collapse_idem]

/-- ASCII lower-casing of a string is idempotent. -/
theorem lower_idem (l : List Char) : lowerStr (lowerStr l) = lowerStr l := by
  unfold lowerStr
  rw [List.map_map]
  exact List.map_congr_left (fun c _ => jsToLower_idem c)

/-- `normalizeNickname` absorbs a preceding `normDisplay`. -/
theorem nn_nd (l : List Char) :
    normalizeNickname (normDisplay l) = normalizeNickname l := by
  unfold normalizeNickname
  rw [nd_idem]

/-- `normalizeNickname` absorbs a preceding lower-casing. -/
theorem nn_lower (l : List Char) :
    normalizeNickname (lowerStr l) = normalizeNickname l := by
  unfold normalizeNickname
  rw [nd_lower_comm, lower_idem]

/- The suffix regex: characterization of `suffixSplit`. -/

/-- Any decomposition `g ++ "(" ++ digits ++ ")" ++ trailing-whitespace`
is parsed by `suffixSplit` exactly as written (the parse works from the
right, so the split point is forced). -/
theorem suffixSplit_build (g ds w : List Char) (hds : ds ≠ [])
    (hdig : ∀ c ∈ ds, isDigitCh c = true) (hw : ∀ c ∈ w, isWs c = true) :
    suffixSplit (g ++ lparChar :: (ds ++ rparChar :: w)) = some (g, digitsToNat ds) := by
  have hrev : (g ++ lparChar :: (ds ++ rparChar :: w)).reverse
      = w.reverse ++ rparChar :: (ds.reverse ++ lparChar :: g.reverse) := by
    simp [List.reverse_append, List.append_assoc]
  unfold suffixSplit
  rw [hrev, dropWhile_append_allP _ (fun c hc => hw c (List.mem_reverse.mp hc)),
    List.dropWhile_cons, if_neg (by decide)]
  dsimp only
  rw [if_pos rfl]
  have htw : (ds.reverse ++ lparChar :: g.reverse).takeWhile isDigitCh = ds.reverse := by
    rw [takeWhile_append_allP _ (fun c hc => hdig c (List.mem_reverse.mp hc)),
      List.takeWhile_cons, if_neg (by decide)]
    exact List.append_nil _
  have hdw : (ds.reverse ++ lparChar :: g.reverse).dropWhile isDigitCh
      = lparChar :: g.reverse := by
    rw [dropWhile_append_allP _ (fun c hc => hdig c (List.mem_reverse.mp hc)),
      List.dropWhile_cons, if_neg (by decide)]
  rw [htw, hdw]
  rw [if_neg (by simp [List.reverse_eq_nil_iff, hds])]
  dsimp only
  rw [if_pos rfl, List.reverse_reverse, List.reverse_reverse]

/-- A successful `suffixSplit` exhibits the decomposition
`g ++ "(" ++ digits ++ ")" ++ trailing-whitespace`. -/
theorem suffixSplit_elim (l g : List Char) (k : Nat)
    (h : suffixSplit l = some (g, k)) :
    ∃ ds w, l = g ++ lparChar :: (ds ++ rparChar :: w) ∧ ds ≠ [] ∧
      (∀ c ∈ ds, isDigitCh c = true) ∧ (∀ c ∈ w, isWs c = true) ∧
      k = digitsToNat ds := by
  unfold suffixSplit at h
  cases hR : l.reverse.dropWhile isWs with
  | nil =>
    rw [hR] at h
    cases h
  | cons c r2 =>
    rw [hR] at h
    dsimp only at h
    by_cases hc : c = rparChar
    case neg =>
      rw [if_neg hc] at h
      cases h
    case pos =>
      rw [if_pos hc] at h
      subst hc
      by_cases hds : r2.takeWhile isDigitCh = []
      case pos =>
        rw [if_pos hds] at h
        cases h
      case neg =>
        rw [if_neg hds] at h
        cases hD : r2.dropWhile isDigitCh with
        | nil =>
          rw [hD] at h
          cases h
        | cons c2 r3 =>
          rw [hD] at h
          dsimp only at h
          by_cases hc2 : c2 = lparChar
          case neg =>
            rw [if_neg hc2] at h
            cases h
          case pos =>
            rw [if_pos hc2] at h
            subst hc2
            have hpair : (r3.reverse, digitsToNat (r2.takeWhile isDigitCh).reverse)
                = (g, k) := by
              injection h
            have hg : r3.reverse = g := congrArg Prod.fst hpair
            have hk : digitsToNat (r2.takeWhile isDigitCh).reverse = k :=
              congrArg Prod.snd hpair
            refine ⟨(r2.takeWhile isDigitCh).reverse, (l.reverse.takeWhile isWs).reverse,
              ?_, ?_, ?_, ?_, ?_⟩
            · have h1 : l.reverse = l.reverse.takeWhile isWs ++ (rparChar :: r2) := by
                conv_lhs => rw [← List.takeWhile_append_dropWhile isWs l.reverse]
                rw [hR]
              have h2 : r2 = r2.takeWhile isDigitCh ++ (lparChar :: r3) := by
                conv_lhs => rw [← List.takeWhile_append_dropWhile isDigitCh r2]
                rw [hD]
              have h3 := congrArg List.reverse h1
              rw [List.reverse_reverse] at h3
              have hl : l = r3.reverse ++ lparChar ::
                  ((r2.takeWhile isDigitCh).reverse ++ rparChar ::
                    (l.reverse.takeWhile isWs).reverse) := by
                conv_lhs => rw [h3]
                conv_lhs => rw [h2]
                simp [List.reverse_append, List.append_assoc]
              rw [hg] at hl
              exact hl
            · simp [List.reverse_eq_nil_iff, hds]
            · exact fun c hc => List.mem_takeWhile_imp (List.mem_reverse.mp hc)
            · exact fun c hc => List.mem_takeWhile_imp (List.mem_reverse.mp hc)
            · exact hk.symm

/- Decimal rendering, the `taken` set, and the `while` loop. -/

/-- Decimal rendering is never empty. -/
theorem natDigits_ne_nil (n : Nat) : natDigits n ≠ [] := by
  unfold natDigits
  by_cases h : n < 10
  · rw [dif_pos h]
    exact List.cons_ne_nil _ _
  · rw [dif_neg h]
    intro hc
    exact absurd (List.append_eq_nil.mp hc).2 (List.cons_ne_nil _ _)

/-- Decimal rendering produces only digits. -/
theorem natDigits_digits (n : Nat) : ∀ c ∈ natDigits n, isDigitCh c = true := by
  induction n using Nat.strong_induction_on with
  | _ n ih =>
    unfold natDigits
    by_cases h : n < 10
    · rw [dif_pos h]
      intro c hc
      rcases List.mem_singleton.mp hc with rfl
      unfold isDigitCh
      rw [char_toNat_ofNat _ (by omega)]
      exact decide_eq_true (by omega)
    · rw [dif_neg h]
      intro c hc
      rcases List.mem_append.mp hc with hc1 | hc2
      · exact ih (n / 10) (Nat.div_lt_self (by omega) (by omega)) c hc1
      · rcases List.mem_singleton.mp hc2 with rfl
        unfold isDigitCh
        have hm : n % 10 < 10 := Nat.mod_lt _ (by omega)
        rw [char_toNat_ofNat _ (by omega)]
        exact decide_eq_true (by omega)

/-- `digitsToNat` peels the last digit. -/
theorem digitsToNat_append (l : List Char) (c : Char) :
    digitsToNat (l ++ [c]) = digitsToNat l * 10 + (c.toNat - 48) := by
  unfold digitsToNat
  rw [List.foldl_append]
  rfl

/-- `parseInt` round-trips the decimal rendering. -/
theorem digitsToNat_natDigits (n : Nat) : digitsToNat (natDigits n) = n := by
  induction n using Nat.strong_induction_on with
  | _ n ih =>
    unfold natDigits
    by_cases h : n < 10
    · rw [dif_pos h]
      unfold digitsToNat
      show 0 * 10 + ((Char.ofNat (48 + n)).toNat - 48) = n
      rw [char_toNat_ofNat _ (by omega)]
      omega
    · rw [dif_neg h]
      rw [digitsToNat_append, ih (n / 10) (Nat.div_lt_self (by omega) (by omega)),
        char_toNat_ofNat _ (by omega)]
      omega

/-- A member of a list of naturals is bounded by the folded maximum. -/
theorem mem_le_foldr_max (l : List Nat) (k : Nat) (h : k ∈ l) :
    k ≤ l.foldr max 0 := by
  induction l with
  | nil => cases h
  | cons a t ih =>
    rcases List.mem_cons.mp h with rfl | hm
    · exact le_max_left _ _
    · exact le_trans (ih hm) (le_max_right _ _)

/-- The `while (taken.has(k)) k++` loop returns the smallest number at least
the start value that is not taken. -/
theorem nextFree_spec (taken : List Nat) (k0 : Nat) :
    k0 ≤ nextFree taken k0 ∧ nextFree taken k0 ∉ taken ∧
    ∀ j, k0 ≤ j → j < nextFree taken k0 → j ∈ taken := by
  have main : ∀ M k0, taken.foldr max 0 + 1 - k0 ≤ M →
      k0 ≤ nextFree taken k0 ∧ nextFree taken k0 ∉ taken ∧
      ∀ j, k0 ≤ j → j < nextFree taken k0 → j ∈ taken := by
    intro M
    induction M with
    | zero =>
      intro k0 hM
      have hnot : k0 ∉ taken := by
        intro hmem
        have := mem_le_foldr_max taken k0 hmem
        omega
      have heq : nextFree taken k0 = k0 := by
        unfold nextFree
        rw [dif_neg hnot]
      rw [heq]
      exact ⟨le_refl _, hnot, fun j h1 h2 => absurd (lt_of_le_of_lt h1 h2) (lt_irrefl _)⟩
    | succ M ih =>
      intro k0 hM
      by_cases hmem : k0 ∈ taken
      · have heq : nextFree taken k0 = nextFree taken (k0 + 1) := by
          conv_lhs => rw [nextFree]
          rw [dif_pos hmem]
        have hb := mem_le_foldr_max taken k0 hmem
        obtain ⟨h1, h2, h3⟩ := ih (k0 + 1) (by omega)
        rw [heq]
        refine ⟨by omega, h2, ?_⟩
        intro j hj1 hj2
        rcases Nat.eq_or_lt_of_le hj1 with rfl | hlt
        · exact hmem
        · exact h3 j (by omega) hj2
      · have heq : nextFree taken k0 = k0 := by
          unfold nextFree
          rw [dif_neg hmem]
        rw [heq]
        exact ⟨le_refl _, hmem, fun j h1 h2 => absurd (lt_of_le_of_lt h1 h2) (lt_irrefl _)⟩
  exact main (taken.foldr max 0 + 1 - k0) k0 (le_refl _)

/-- Whatever one existing nickname contributes to the `taken` set, it keeps
the contributions of the rest. -/
theorem takenSlots_cons_super (b : List Char) (m : List Char)
    (t : List (List Char)) (x : Nat) (hx : x ∈ takenSlots b t) :
    x ∈ takenSlots b (m :: t) := by
  unfold takenSlots
  rw [List.foldr_cons]
  show x ∈ (if normalizeNickname (normDisplay (stripSuffix m)) = b then
    match suffixSplit m with
    | some (_, num) => if 2 ≤ num then num :: takenSlots b t else takenSlots b t
    | none => 1 :: takenSlots b t
    else takenSlots b t)
  split
  · split
    · split
      · exact List.mem_cons_of_mem _ hx
      · exact hx
    · exact List.mem_cons_of_mem _ hx
  · exact hx

/-- An unsuffixed existing nickname with the same base registers slot `1`. -/
theorem takenSlots_mem_one (b : List Char) (existing : List (List Char))
    (n : List Char) (hn : n ∈ existing)
    (hb : normalizeNickname (normDisplay (stripSuffix n)) = b)
    (hs : suffixSplit n = none) : 1 ∈ takenSlots b existing := by
  induction existing with
  | nil => cases hn
  | cons m t ih =>
    rcases List.mem_cons.mp hn with rfl | hm
    · unfold takenSlots
      rw [List.foldr_cons]
      show 1 ∈ (if normalizeNickname (normDisplay (stripSuffix n)) = b then
        match suffixSplit n with
        | some (_, num) => if 2 ≤ num then num :: takenSlots b t else takenSlots b t
        | none => 1 :: takenSlots b t
        else takenSlots b t)
      rw [if_pos hb, hs]
      exact List.mem_cons_self _ _
    · exact takenSlots_cons_super b m t 1 (ih hm)

/-- A suffixed existing nickname with the same base registers its suffix
number (when at least 2). -/
theorem takenSlots_mem_num (b : List Char) (existing : List (List Char))
    (n g : List Char) (k : Nat) (hn : n ∈ existing)
    (hb : normalizeNickname (normDisplay (stripSuffix n)) = b)
    (hs : suffixSplit n = some (g, k)) (hk : 2 ≤ k) :
    k ∈ takenSlots b existing := by
  induction existing with
  | nil => cases hn
  | cons m t ih =>
    rcases List.mem_cons.mp hn with rfl | hm
    · unfold takenSlots
      rw [List.foldr_cons]
      show k ∈ (if normalizeNickname (normDisplay (stripSuffix n)) = b then
        match suffixSplit n with
        | some (_, num) => if 2 ≤ num then num :: takenSlots b t else takenSlots b t
        | none => 1 :: takenSlots b t
        else takenSlots b t)
      rw [if_pos hb, hs]
      dsimp only
      rw [if_pos hk]
      exact List.mem_cons_self _ _
    · exact takenSlots_cons_super b m t k (ih hm)

/- The suffix-number parse factors through the trailing non-whitespace run. -/

/-- A successful `suffixSplit` shows up in the trailing run. -/
theorem parseNum_frontRun_of_some (l g : List Char) (k : Nat)
    (h : suffixSplit l = some (g, k)) : parseNum (frontRun l) = some k := by
  obtain ⟨ds, w, hl, hds, hdig, hw, hk⟩ := suffixSplit_elim l g k h
  have hdig' : ∀ c ∈ ds.reverse, (!isWs c) = true := by
    intro c hc
    rw [isWs_of_digit c (hdig c (List.mem_reverse.mp hc))]
    rfl
  have hrev : l.reverse = w.reverse ++ rparChar :: (ds.reverse ++ lparChar :: g.reverse) := by
    rw [hl]
    simp [List.reverse_append, List.append_assoc]
  have hdw : l.reverse.dropWhile isWs = rparChar :: (ds.reverse ++ lparChar :: g.reverse) := by
    rw [hrev, dropWhile_append_allP _ (fun c hc => hw c (List.mem_reverse.mp hc)),
      List.dropWhile_cons, if_neg (by decide)]
  have hfr : frontRun l = rparChar ::
      (ds.reverse ++ lparChar :: (g.reverse.takeWhile (fun c => !isWs c))) := by
    unfold frontRun
    rw [hdw, List.takeWhile_cons, if_pos (by decide),
      takeWhile_append_allP _ hdig', List.takeWhile_cons, if_pos (by decide)]
  rw [hfr]
  unfold parseNum
  dsimp only
  rw [if_pos rfl]
  have htw : (ds.reverse ++ lparChar ::
      (g.reverse.takeWhile (fun c => !isWs c))).takeWhile isDigitCh = ds.reverse := by
    rw [takeWhile_append_allP _ (fun c hc => hdig c (List.mem_reverse.mp hc)),
      List.takeWhile_cons, if_neg (by decide), List.append_nil]
  have hdw2 : (ds.reverse ++ lparChar ::
      (g.reverse.takeWhile (fun c => !isWs c))).dropWhile isDigitCh
      = lparChar :: (g.reverse.takeWhile (fun c => !isWs c)) := by
    rw [dropWhile_append_allP _ (fun c hc => hdig c (List.mem_reverse.mp hc)),
      List.dropWhile_cons, if_neg (by decide)]
  rw [htw, hdw2, if_neg (by simp [List.reverse_eq_nil_iff, hds])]
  dsimp only
  rw [if_pos rfl, List.reverse_reverse, hk]

/-- A suffix-number parse of the trailing run lifts back to `suffixSplit`. -/
theorem suffixSplit_of_parseNum_frontRun (l : List Char) (k : Nat)
    (h : parseNum (frontRun l) = some k) :
    ∃ g, suffixSplit l = some (g, k) := by
  unfold parseNum at h
  cases hF : frontRun l with
  | nil =>
    rw [hF] at h
    cases h
  | cons c r2 =>
    rw [hF] at h
    dsimp only at h
    by_cases hc : c = rparChar
    case neg =>
      rw [if_neg hc] at h
      cases h
    case pos =>
      rw [if_pos hc] at h
      subst hc
      by_cases hds : r2.takeWhile isDigitCh = []
      case pos =>
        rw [if_pos hds] at h
        cases h
      case neg =>
        rw [if_neg hds] at h
        cases hD : r2.dropWhile isDigitCh with
        | nil =>
          rw [hD] at h
          cases h
        | cons c2 r3 =>
          rw [hD] at h
          dsimp only at h
          by_cases hc2 : c2 = lparChar
          case neg =>
            rw [if_neg hc2] at h
            cases h
          case pos =>
            rw [if_pos hc2] at h
            subst hc2
            have hk : digitsToNat (r2.takeWhile isDigitCh).reverse = k := by
              injection h
            have hsplit2 : l.reverse.dropWhile isWs = rparChar :: (r2 ++
                (l.reverse.dropWhile isWs).dropWhile (fun c => !isWs c)) := by
              conv_lhs => rw [← List.takeWhile_append_dropWhile (fun c => !isWs c)
                (l.reverse.dropWhile isWs)]
              rw [show (l.reverse.dropWhile isWs).takeWhile (fun c => !isWs c)
                = frontRun l from rfl, hF]
              rfl
            have hsplit3 : r2 = r2.takeWhile isDigitCh ++ (lparChar :: r3) := by
              conv_lhs => rw [← List.takeWhile_append_dropWhile isDigitCh r2]
              rw [hD]
            have hdw : l.reverse.dropWhile isWs = rparChar :: (r2.takeWhile isDigitCh ++
                lparChar :: (r3 ++ (l.reverse.dropWhile isWs).dropWhile (fun c => !isWs c))) := by
              conv_lhs => rw [hsplit2]
              have h9 : r2 ++ (l.reverse.dropWhile isWs).dropWhile (fun c => !isWs c)
                  = r2.takeWhile isDigitCh ++ lparChar ::
                    (r3 ++ (l.reverse.dropWhile isWs).dropWhile (fun c => !isWs c)) := by
                conv_lhs => rw [hsplit3]
                simp [List.append_assoc]
              rw [h9]
            refine ⟨(r3 ++ (l.reverse.dropWhile isWs).dropWhile (fun c => !isWs c)).reverse, ?_⟩
            unfold suffixSplit
            conv_lhs => rw [hdw]
            dsimp only
            rw [if_pos rfl]
            have htw : (r2.takeWhile isDigitCh ++ lparChar ::
                (r3 ++ (l.reverse.dropWhile isWs).dropWhile (fun c => !isWs c))).takeWhile isDigitCh
                = r2.takeWhile isDigitCh := by
              rw [takeWhile_append_allP _ (fun c hc => List.mem_takeWhile_imp hc),
                List.takeWhile_cons, if_neg (by decide), List.append_nil]
            have hdw2 : (r2.takeWhile isDigitCh ++ lparChar ::
                (r3 ++ (l.reverse.dropWhile isWs).dropWhile (fun c => !isWs c))).dropWhile isDigitCh
                = lparChar :: (r3 ++ (l.reverse.dropWhile isWs).dropWhile (fun c => !isWs c)) := by
              rw [dropWhile_append_allP _ (fun c hc => List.mem_takeWhile_imp hc),
                List.dropWhile_cons, if_neg (by decide)]
            rw [htw, hdw2, if_neg hds]
            dsimp only
            rw [if_pos rfl, hk]

/-- The suffix number of a nickname is a function of its trailing
non-whitespace run. -/
theorem sNum_frontRun (l : List Char) : sNum l = parseNum (frontRun l) := by
  cases hp : parseNum (frontRun l) with
  | some k =>
    obtain ⟨g, hg⟩ := suffixSplit_of_parseNum_frontRun l k hp
    unfold sNum
    rw [hg]
  | none =>
    cases hs : suffixSplit l with
    | none =>
      unfold sNum
      rw [hs]
    | some gk =>
      have := parseNum_frontRun_of_some l gk.1 gk.2 (by rw [hs])
      rw [hp] at this
      cases this

/-- The trailing run commutes with lower-casing. -/
theorem frontRun_lower (l : List Char) : frontRun (lowerStr l) = lowerStr (frontRun l) := by
  have hws : (isWs ∘ jsToLower) = isWs := funext isWs_jsToLower
  have hnws : ((fun c => !isWs c) ∘ jsToLower) = (fun c => !isWs c) := by
    funext c
    simp only [Function.comp_apply, isWs_jsToLower]
  unfold frontRun lowerStr
  rw [← List.map_reverse, List.dropWhile_map, hws, List.takeWhile_map, hnws]

/-- The trailing run ignores `trim`. -/
theorem frontRun_trim (l : List Char) : frontRun (trimWs l) = frontRun l := by
  have step1 : frontRun (trimWs l) = frontRun (l.dropWhile isWs) := by
    unfold frontRun trimWs
    rw [List.reverse_reverse, dropWhile_idem]
  rw [step1]
  by_cases hb : l.dropWhile isWs = []
  · rw [hb]
    have hall : ∀ c ∈ l, isWs c = true := List.dropWhile_eq_nil_iff.mp hb
    unfold frontRun
    rw [List.dropWhile_eq_nil_iff.mpr (fun c hc => hall c (List.mem_reverse.mp hc))]
    rfl
  · obtain ⟨c0, hc0⟩ : ∃ c0, (l.dropWhile isWs).head? = some c0 := by
      cases hh : (l.dropWhile isWs).head? with
      | some x => exact ⟨x, rfl⟩
      | none => exact absurd (List.head?_eq_none_iff.mp hh) hb
    have hc0w : isWs c0 = false := dropWhile_head_false hc0
    have hsplit : l.reverse = (l.dropWhile isWs).reverse ++ (l.takeWhile isWs).reverse := by
      conv_lhs => rw [← List.takeWhile_append_dropWhile isWs l]
      rw [List.reverse_append]
    have hne : (l.dropWhile isWs).reverse.dropWhile isWs ≠ [] := by
      intro hnil
      have hall := List.dropWhile_eq_nil_iff.mp hnil
      have hmem : c0 ∈ (l.dropWhile isWs).reverse :=
        List.mem_reverse.mpr (List.mem_of_mem_head? hc0)
      rw [hall c0 hmem] at hc0w
      cases hc0w
    unfold frontRun
    rw [hsplit, dropWhile_append_of_ne_nil _ hne,
      takeWhile_append_allNeg _ (fun c hc => by
        rw [List.mem_takeWhile_imp (List.mem_reverse.mp hc)]
        rfl)]

/-- The trailing run ignores appended whitespace. -/
theorem frontRun_append_ws (y w2 : List Char) (hw : ∀ c ∈ w2, isWs c = true) :
    frontRun (y ++ w2) = frontRun y := by
  unfold frontRun
  rw [List.reverse_append,
    dropWhile_append_allP _ (fun c hc => hw c (List.mem_reverse.mp hc))]


/-- The trailing run ignores `collapse`, for inputs ending in a
non-whitespace character. -/
theorem frontRun_collapse_notrail (x : List Char) (d : Char)
    (hd : x.getLast? = some d) (hdws : isWs d = false) :
    frontRun (collapseWs x) = frontRun x := by
  have hrrev : x.reverse.head? = some d := by
    rw [List.head?_reverse, hd]
  have hrhead : (x.reverse.takeWhile (fun c => !isWs c)).head? = some d := by
    cases hrv : x.reverse with
    | nil =>
      rw [hrv] at hrrev
      cases hrrev
    | cons a t =>
      rw [hrv] at hrrev
      rw [List.head?_cons, Option.some_inj] at hrrev
      subst hrrev
      rw [List.takeWhile_cons, if_pos (by simp [hdws])]
      rfl
  have hfrx : frontRun x = x.reverse.takeWhile (fun c => !isWs c) := by
    unfold frontRun
    rw [dropWhile_eq_self_of_head hrrev hdws]
  have hxu : x = (x.reverse.dropWhile (fun c => !isWs c)).reverse ++
      (x.reverse.takeWhile (fun c => !isWs c)).reverse := by
    conv_lhs => rw [← List.reverse_reverse x]
    conv_lhs => rw [← List.takeWhile_append_dropWhile (fun c => !isWs c) x.reverse]
    rw [List.reverse_append]
  have hrmem : ∀ c ∈ (x.reverse.takeWhile (fun c => !isWs c)).reverse,
      isWs c = false := by
    intro c hc
    have := List.mem_takeWhile_imp (List.mem_reverse.mp hc)
    simpa using this
  have hcoll : collapseWs x =
      collapseAux false ((x.reverse.dropWhile (fun c => !isWs c)).reverse) ++
      (x.reverse.takeWhile (fun c => !isWs c)).reverse := by
    unfold collapseWs
    conv_lhs => rw [hxu]
    rw [collapse_append_headNonWs _ _
      (fun c hcc => hrmem c (List.mem_of_mem_head? hcc)) false,
      collapse_nonWs _ hrmem false]
  have hswallow : ((collapseAux false
      ((x.reverse.dropWhile (fun c => !isWs c)).reverse)).reverse).takeWhile
      (fun c => !isWs c) = [] := by
    by_cases hu0 : (x.reverse.dropWhile (fun c => !isWs c)).reverse = []
    · rw [hu0]
      rfl
    · obtain ⟨e, he⟩ : ∃ e,
          ((x.reverse.dropWhile (fun c => !isWs c)).reverse).getLast? = some e := by
        cases hh : ((x.reverse.dropWhile (fun c => !isWs c)).reverse).getLast? with
        | some y => exact ⟨y, rfl⟩
        | none => exact absurd (List.getLast?_eq_none_iff.mp hh) hu0
      have hew : isWs e = true := by
        have hh : (x.reverse.dropWhile (fun c => !isWs c)).head? = some e := by
          rwa [List.getLast?_reverse] at he
        have := dropWhile_head_false hh
        simpa using this
      have hlast := (collapse_getLast_ws _ e he hew).1
      have hhead : ((collapseAux false
          ((x.reverse.dropWhile (fun c => !isWs c)).reverse)).reverse).head?
          = some spaceChar := by
        rw [List.head?_reverse, hlast]
      cases hcv : (collapseAux false
          ((x.reverse.dropWhile (fun c => !isWs c)).reverse)).reverse with
      | nil => rfl
      | cons a t =>
        rw [hcv] at hhead
        rw [List.head?_cons, Option.some_inj] at hhead
        subst hhead
        rw [List.takeWhile_cons, if_neg (by decide)]
  rw [hcoll, hfrx]
  unfold frontRun
  rw [List.reverse_append, List.reverse_reverse]
  have hfull : (x.reverse.takeWhile (fun c => !isWs c) ++
      (collapseAux false ((x.reverse.dropWhile (fun c => !isWs c)).reverse)).reverse).head?
      = some d := by
    cases hrv : x.reverse.takeWhile (fun c => !isWs c) with
    | nil =>
      rw [hrv] at hrhead
      cases hrhead
    | cons a t =>
      rw [hrv] at hrhead
      rw [List.head?_cons, Option.some_inj] at hrhead
      subst hrhead
      rfl
  rw [dropWhile_eq_self_of_head hfull hdws,
    takeWhile_append_allP _ (fun c hc => by
      have := List.mem_takeWhile_imp hc
      simpa using this),
    hswallow, List.append_nil]

/-- The trailing run ignores `collapse`. -/
theorem frontRun_collapse (l : List Char) : frontRun (collapseWs l) = frontRun l := by
  have hsplit : l = (l.reverse.dropWhile isWs).reverse ++
      (l.reverse.takeWhile isWs).reverse := by
    conv_lhs => rw [← List.reverse_reverse l,
      ← List.takeWhile_append_dropWhile isWs l.reverse]
    rw [List.reverse_append]
  have hwtrail : ∀ c ∈ (l.reverse.takeWhile isWs).reverse, isWs c = true :=
    fun c hc => List.mem_takeWhile_imp (List.mem_reverse.mp hc)
  by_cases hx : (l.reverse.dropWhile isWs).reverse = []
  · have hall : ∀ c ∈ l, isWs c = true := by
      intro c hc
      rw [hsplit, hx, List.nil_append] at hc
      exact hwtrail c hc
    by_cases hnil : l = []
    · subst hnil
      rfl
    · unfold collapseWs
      rw [collapse_allWs_false l hnil hall]
      unfold frontRun
      rw [List.dropWhile_eq_nil_iff.mpr (fun c hc => hall c (List.mem_reverse.mp hc)),
        show ([spaceChar] : List Char).reverse.dropWhile isWs = [] by decide]
  · obtain ⟨d, hd⟩ : ∃ d, ((l.reverse.dropWhile isWs).reverse).getLast? = some d := by
      cases hh : ((l.reverse.dropWhile isWs).reverse).getLast? with
      | some y => exact ⟨y, rfl⟩
      | none => exact absurd (List.getLast?_eq_none_iff.mp hh) hx
    have hdws : isWs d = false := by
      have hh : (l.reverse.dropWhile isWs).head? = some d := by
        rwa [List.getLast?_reverse] at hd
      exact dropWhile_head_false hh
    have hcore := frontRun_collapse_notrail ((l.reverse.dropWhile isWs).reverse) d hd hdws
    by_cases hwnil : (l.reverse.takeWhile isWs).reverse = []
    · have hlx : l = (l.reverse.dropWhile isWs).reverse := by
        conv_lhs => rw [hsplit]
        rw [hwnil, List.append_nil]
    
      rw [hlx]
      exact hcore
    · have hcoll : collapseWs l =
          collapseWs ((l.reverse.dropWhile isWs).reverse) ++ [spaceChar] := by
        unfold collapseWs
        conv_lhs => rw [hsplit]
        rw [collapse_append_lastNonWs _ _ d hd hdws false,
          collapse_allWs_false _ hwnil hwtrail]
      rw [hcoll, frontRun_append_ws _ [spaceChar] (by decide), hcore]
      conv_rhs => rw [hsplit]
      rw [frontRun_append_ws _ _ hwtrail]

/-- `parseNum` is blind to ASCII case. -/
theorem parseNum_lower (r : List Char) : parseNum (lowerStr r) = parseNum r := by
  have hcomp : (isDigitCh ∘ jsToLower) = isDigitCh := funext isDigit_jsToLower
  cases r with
  | nil => rfl
  | cons c r2 =>
    have hmap : lowerStr (c :: r2) = jsToLower c :: lowerStr r2 := rfl
    rw [hmap]
    unfold parseNum
    dsimp only
    by_cases hc : c = rparChar
    case neg =>
      rw [if_neg hc, if_neg (fun hcc => hc ((jsToLower_eq_rpar c).mp hcc))]
    case pos =>
      subst hc
      rw [if_pos rfl, if_pos (by decide)]
      have htwmap : (lowerStr r2).takeWhile isDigitCh
          = lowerStr (r2.takeWhile isDigitCh) := by
        unfold lowerStr
        rw [List.takeWhile_map, hcomp]
      have hdwmap : (lowerStr r2).dropWhile isDigitCh
          = lowerStr (r2.dropWhile isDigitCh) := by
        unfold lowerStr
        rw [List.dropWhile_map, hcomp]
      by_cases hds : r2.takeWhile isDigitCh = []
      case pos =>
        rw [if_pos hds, if_pos (by rw [htwmap, hds]; rfl)]
      case neg =>
        have hds2 : (lowerStr r2).takeWhile isDigitCh ≠ [] := by
          rw [htwmap]
          intro hcc
          exact hds (List.map_eq_nil_iff.mp hcc)
        rw [if_neg hds, if_neg hds2, hdwmap]
        cases hD : r2.dropWhile isDigitCh with
        | nil => rfl
        | cons c2 r3 =>
          have hmap2 : lowerStr (c2 :: r3) = jsToLower c2 :: lowerStr r3 := rfl
          rw [hmap2]
          dsimp only
          by_cases hc2 : c2 = lparChar
          case neg =>
            rw [if_neg hc2, if_neg (fun hcc => hc2 ((jsToLower_eq_lpar c2).mp hcc))]
          case pos =>
            subst hc2
            rw [if_pos rfl, if_pos (by decide), htwmap]
            have hfix : lowerStr (r2.takeWhile isDigitCh) = r2.takeWhile isDigitCh := by
              unfold lowerStr
              have hcong : (r2.takeWhile isDigitCh).map jsToLower
                  = (r2.takeWhile isDigitCh).map id :=
                List.map_congr_left (fun c hc =>
                  jsToLower_digit c (List.mem_takeWhile_imp hc))
              rw [hcong, List.map_id]
            rw [hfix]

/-- The suffix number is invariant under full nickname normalization. -/
theorem sNum_norm (l : List Char) : sNum (normalizeNickname l) = sNum l := by
  rw [sNum_frontRun, sNum_frontRun]
  unfold normalizeNickname normDisplay
  rw [frontRun_lower, frontRun_collapse, frontRun_trim, parseNum_lower]

/-- Normalizing a nickname that parses as `g ++ "(" ++ digits ++ ")" ++ ws`
yields the normalized group followed by the same `"(digits)"` suffix. -/
theorem normalize_of_suffixSplit (s g : List Char) (k : Nat)
    (h : suffixSplit s = some (g, k)) :
    ∃ ds, ds ≠ [] ∧ (∀ c ∈ ds, isDigitCh c = true) ∧ k = digitsToNat ds ∧
      normalizeNickname s =
        lowerStr (collapseWs (g.dropWhile isWs)) ++ lparChar :: (ds ++ [rparChar]) := by
  obtain ⟨ds, w, hl, hds, hdig, hw, hk⟩ := suffixSplit_elim s g k h
  refine ⟨ds, hds, hdig, hk, ?_⟩
  have hsuffmem : ∀ c ∈ lparChar :: (ds ++ [rparChar]), isWs c = false := by
    intro c hc
    rcases List.mem_cons.mp hc with rfl | hc2
    · decide
    · rcases List.mem_append.mp hc2 with hc3 | hc4
      · exact isWs_of_digit c (hdig c hc3)
      · rcases List.mem_singleton.mp hc4 with rfl
        decide
  have hshape : s = (g ++ lparChar :: (ds ++ [rparChar])) ++ w := by
    rw [hl]
    simp [List.append_assoc]
  have hlast : (g ++ lparChar :: (ds ++ [rparChar])).getLast? = some rparChar := by
    have : g ++ lparChar :: (ds ++ [rparChar]) = (g ++ lparChar :: ds) ++ [rparChar] := by
      simp [List.append_assoc]
    rw [this, List.getLast?_concat]
  have htrim : trimWs s = g.dropWhile isWs ++ lparChar :: (ds ++ [rparChar]) := by
    rw [hshape, trim_append_ws _ w hw,
      trim_notrail _ rparChar hlast (by decide),
      dropWhile_append_stop _ _ (by decide)]
  have hcoll : collapseWs (trimWs s) =
      collapseWs (g.dropWhile isWs) ++ lparChar :: (ds ++ [rparChar]) := by
    rw [htrim]
    unfold collapseWs
    rw [collapse_append_headNonWs _ _
      (fun c hcc => hsuffmem c (List.mem_of_mem_head? hcc)) false,
      collapse_nonWs _ hsuffmem false]
  have hlow : lowerStr (lparChar :: (ds ++ [rparChar])) = lparChar :: (ds ++ [rparChar]) := by
    unfold lowerStr
    have hcong : (lparChar :: (ds ++ [rparChar])).map jsToLower
        = (lparChar :: (ds ++ [rparChar])).map id := by
      refine List.map_congr_left ?_
      intro c hc
      rcases List.mem_cons.mp hc with rfl | hc2
      · decide
      · rcases List.mem_append.mp hc2 with hc3 | hc4
        · exact jsToLower_digit c (hdig c hc3)
        · rcases List.mem_singleton.mp hc4 with rfl
          decide
    rw [hcong, List.map_id]
  unfold normalizeNickname normDisplay
  rw [hcoll]
  unfold lowerStr
  rw [List.map_append]
  show lowerStr (collapseWs (g.dropWhile isWs)) ++ lowerStr (lparChar :: (ds ++ [rparChar]))
    = lowerStr (collapseWs (g.dropWhile isWs)) ++ lparChar :: (ds ++ [rparChar])
  rw [hlow]

/-- The suffix-stripped case-insensitive base used by `assignUniqueNickname`
is invariant under full nickname normalization. -/
theorem baseNorm_norm (s : List Char) :
    normalizeNickname (normDisplay (stripSuffix (normalizeNickname s)))
      = normalizeNickname (normDisplay (stripSuffix s)) := by
  cases hs : suffixSplit s with
  | none =>
    have hnum : sNum s = none := by
      unfold sNum
      rw [hs]
    have hnumn : sNum (normalizeNickname s) = none := by
      rw [sNum_norm, hnum]
    have hsn : suffixSplit (normalizeNickname s) = none := by
      cases hq : suffixSplit (normalizeNickname s) with
      | none => rfl
      | some gk =>
        unfold sNum at hnumn
        rw [hq] at hnumn
        cases hnumn
    unfold stripSuffix
    rw [hs, hsn]
    rw [nd_idem, nd_idem, nn_nd, nn_nd]
    rw [show normalizeNickname (normalizeNickname s)
      = normalizeNickname (lowerStr (normDisplay s)) from rfl, nn_lower, nn_nd]
  | some gk =>
    obtain ⟨g, k⟩ := gk
    obtain ⟨ds, hds, hdig, hk, hn⟩ := normalize_of_suffixSplit s g k hs
    have hbuild : suffixSplit (normalizeNickname s)
        = some (lowerStr (collapseWs (g.dropWhile isWs)), digitsToNat ds) := by
      rw [hn]
      have : lparChar :: (ds ++ [rparChar]) = lparChar :: (ds ++ rparChar :: ([] : List Char)) := rfl
      rw [this]
      exact suffixSplit_build _ ds [] hds hdig (fun c hc => absurd hc (List.not_mem_nil c))
    unfold stripSuffix
    rw [hs, hbuild]
    rw [nd_idem, nd_idem]
    have hnd2 : normDisplay (lowerStr (collapseWs (g.dropWhile isWs)))
        = lowerStr (normDisplay g) := by
      rw [nd_lower_comm, nd_collapse, nd_dropWhile]
    rw [hnd2, nn_lower, nn_nd]

/-- A `dropWhile` fixed point has a head failing the predicate. -/
theorem dropWhile_fix_head {p : Char → Bool} {l : List Char} {c : Char}
    (hfix : l.dropWhile p = l) (h : l.head? = some c) : p c = false := by
  cases l with
  | nil => cases h
  | cons a t =>
    rw [List.head?_cons, Option.some_inj] at h
    subst h
    cases hp : p a
    · rfl
    · rw [List.dropWhile_cons, if_pos (by simp [hp])] at hfix
      have hlen : (t.dropWhile p).length ≤ t.length :=
        (List.dropWhile_suffix p : List.dropWhile p t <:+ t).length_le
      rw [hfix] at hlen
      simp at hlen

/-- C8 (amended): on a whitespace-normalized requested nickname that does not
itself carry a `" (n)"` suffix — which is what `join-room` passes, since
`validateNickname` admits only trimmed single-spaced nicknames —
`assignUniqueNickname` never collides case-insensitively with an existing
nickname; it returns the request verbatim when slot 1 of its base is free and
otherwise appends `" (k)"` for the smallest free `k ≥ 2`. -/
theorem assign_nickname_no_collision (preferred : List Char)
    (existing : List (List Char))
    (hTrim : trimWs preferred = preferred) (hColl : collapseWs preferred = preferred)
    (hNe : preferred ≠ []) (hU : suffixSplit preferred = none) :
    (∀ n ∈ existing,
      normalizeNickname (assignUniqueNickname preferred existing)
        ≠ normalizeNickname n) ∧
    (1 ∉ takenSlots (normalizeNickname preferred) existing →
      assignUniqueNickname preferred existing = preferred) ∧
    (1 ∈ takenSlots (normalizeNickname preferred) existing →
      2 ≤ nextFree (takenSlots (normalizeNickname preferred) existing) 2 ∧
      nextFree (takenSlots (normalizeNickname preferred) existing) 2 ∉
        takenSlots (normalizeNickname preferred) existing ∧
      (∀ j, 2 ≤ j → j < nextFree (takenSlots (normalizeNickname preferred) existing) 2 →
        j ∈ takenSlots (normalizeNickname preferred) existing) ∧
      assignUniqueNickname preferred existing = preferred ++ spaceChar :: lparChar ::
        (natDigits (nextFree (takenSlots (normalizeNickname preferred) existing) 2)
          ++ [rparChar])) := by
  have hND : normDisplay preferred = preferred := by
    unfold normDisplay
    rw [hTrim, hColl]
  have hPB : stripSuffix preferred = preferred := by
    unfold stripSuffix
    rw [hU, hND]
  have hNormPref : normalizeNickname preferred = lowerStr preferred := by
    unfold normalizeNickname
    rw [hND]
  have hA : assignUniqueNickname preferred existing =
      (if 1 ∈ takenSlots (normalizeNickname preferred) existing then
        preferred ++ spaceChar :: lparChar ::
          (natDigits (nextFree (takenSlots (normalizeNickname preferred) existing) 2)
            ++ [rparChar])
      else preferred) := by
    have h0 : assignUniqueNickname preferred existing =
        (if 1 ∈ takenSlots (normalizeNickname (stripSuffix
            (if preferred = [] then ("Player".data) else preferred))) existing then
          normDisplay (if preferred = [] then ("Player".data) else preferred) ++
            spaceChar :: lparChar ::
            (natDigits (nextFree (takenSlots (normalizeNickname (stripSuffix
              (if preferred = [] then ("Player".data) else preferred))) existing) 2)
              ++ [rparChar])
        else normDisplay (if preferred = [] then ("Player".data) else preferred)) := rfl
    rw [h0, if_neg hNe, hPB, hND]
  have hdwPref : preferred.dropWhile isWs = preferred := (trim_fix_parts preferred hTrim).1
  have hdwPrefRev : preferred.reverse.dropWhile isWs = preferred.reverse :=
    (trim_fix_parts preferred hTrim).2
  obtain ⟨c0, hc0⟩ : ∃ c0, preferred.head? = some c0 := by
    cases hh : preferred.head? with
    | some x => exact ⟨x, rfl⟩
    | none => exact absurd (List.head?_eq_none_iff.mp hh) hNe
  have hc0w : isWs c0 = false := dropWhile_fix_head hdwPref hc0
  obtain ⟨d0, hd0⟩ : ∃ d0, preferred.getLast? = some d0 := by
    cases hh : preferred.getLast? with
    | some x => exact ⟨x, rfl⟩
    | none => exact absurd (List.getLast?_eq_none_iff.mp hh) hNe
  have hd0w : isWs d0 = false := by
    have hh : preferred.reverse.head? = some d0 := by
      rw [List.head?_reverse, hd0]
    exact dropWhile_fix_head hdwPrefRev hh
  have hsNumPrefL : sNum (lowerStr preferred) = none := by
    have h1 : sNum (normalizeNickname preferred) = sNum preferred := sNum_norm preferred
    rw [hNormPref] at h1
    rw [h1]
    unfold sNum
    rw [hU]
  have hssL : suffixSplit (lowerStr preferred) = none := by
    cases hq : suffixSplit (lowerStr preferred) with
    | none => rfl
    | some gk =>
      unfold sNum at hsNumPrefL
      rw [hq] at hsNumPrefL
      cases hsNumPrefL
  -- the slot-1-free branch
  by_cases hmem : 1 ∈ takenSlots (normalizeNickname preferred) existing
  case neg =>
    have hres : assignUniqueNickname preferred existing = preferred := by
      rw [hA, if_neg hmem]
    refine ⟨?_, fun _ => hres, fun hctr => absurd hctr hmem⟩
    intro n hn hEq
    rw [hres] at hEq
    have hsn : suffixSplit n = none := by
      have h1 : sNum (normalizeNickname n) = sNum n := sNum_norm n
      have h2 : sNum (normalizeNickname preferred) = sNum preferred := sNum_norm preferred
      rw [hEq] at h2
      have h3 : sNum n = sNum preferred := h1.symm.trans h2
      have h4 : sNum preferred = none := by
        unfold sNum
        rw [hU]
      rw [h4] at h3
      cases hq : suffixSplit n with
      | none => rfl
      | some gk =>
        unfold sNum at h3
        rw [hq] at h3
        cases h3
    have hbase : normalizeNickname (normDisplay (stripSuffix n))
        = normalizeNickname preferred := by
      have hb := baseNorm_norm n
      rw [← hEq, hNormPref] at hb
      have hstripL : stripSuffix (lowerStr preferred) = normDisplay (lowerStr preferred) := by
        unfold stripSuffix
        rw [hssL]
      rw [hstripL, nd_idem, nn_nd, nn_lower] at hb
      rw [← hb]
    exact hmem (takenSlots_mem_one _ existing n hn hbase hsn)
  case pos =>
    obtain ⟨hk2, hknot, hleast⟩ :=
      nextFree_spec (takenSlots (normalizeNickname preferred) existing) 2
    have hres : assignUniqueNickname preferred existing = preferred ++
        spaceChar :: lparChar ::
        (natDigits (nextFree (takenSlots (normalizeNickname preferred) existing) 2)
          ++ [rparChar]) := by
      rw [hA, if_pos hmem]
    refine ⟨?_, fun hctr => absurd hmem hctr, fun _ => ⟨hk2, hknot, hleast, hres⟩⟩
    intro n hn hEq
    rw [hres] at hEq
    set k := nextFree (takenSlots (normalizeNickname preferred) existing) 2 with hkdef
    set nd := natDigits k with hnddef
    have hndd : ∀ c ∈ nd, isDigitCh c = true := natDigits_digits k
    have hndne : nd ≠ [] := natDigits_ne_nil k
    have hsuffw : ∀ c ∈ spaceChar :: lparChar :: (nd ++ [rparChar]), isWs c = false →
        True := fun _ _ _ => trivial
    -- trim fixes the suffixed result
    have htrimR : trimWs (preferred ++ spaceChar :: lparChar :: (nd ++ [rparChar]))
        = preferred ++ spaceChar :: lparChar :: (nd ++ [rparChar]) := by
      have hhead : (preferred ++ spaceChar :: lparChar :: (nd ++ [rparChar])).head?
          = some c0 := by
        cases hpv : preferred with
        | nil => exact absurd hpv hNe
        | cons a t =>
          rw [hpv] at hc0
          rw [List.head?_cons, Option.some_inj] at hc0
          subst hc0
          rfl
      have hdl : (preferred ++ spaceChar :: lparChar :: (nd ++ [rparChar])).dropWhile isWs
          = preferred ++ spaceChar :: lparChar :: (nd ++ [rparChar]) :=
        dropWhile_eq_self_of_head hhead hc0w
      have hshape : preferred ++ spaceChar :: lparChar :: (nd ++ [rparChar])
          = (preferred ++ spaceChar :: lparChar :: nd) ++ [rparChar] := by
        simp [List.append_assoc]
      unfold trimWs
      rw [hdl, hshape, List.reverse_concat, List.dropWhile_cons, if_neg (by decide),
        ← List.reverse_concat, List.reverse_reverse]
    have hndws : ∀ c ∈ nd ++ [rparChar], isWs c = false := by
      intro c hc
      rcases List.mem_append.mp hc with hc1 | hc2
      · exact isWs_of_digit c (hndd c hc1)
      · rcases List.mem_singleton.mp hc2 with rfl
        decide
    have hcollR : collapseWs (preferred ++ spaceChar :: lparChar :: (nd ++ [rparChar]))
        = preferred ++ spaceChar :: lparChar :: (nd ++ [rparChar]) := by
      unfold collapseWs
      rw [collapse_append_lastNonWs preferred _ d0 hd0 hd0w false,
        show collapseAux false preferred = preferred from hColl,
        collapseAux_cons_ws_false spaceChar _ (by decide),
        collapseAux_cons_nonws true lparChar _ (by decide),
        collapse_nonWs (nd ++ [rparChar]) hndws false]
    have hndR : normDisplay (preferred ++ spaceChar :: lparChar :: (nd ++ [rparChar]))
        = preferred ++ spaceChar :: lparChar :: (nd ++ [rparChar]) := by
      unfold normDisplay
      rw [htrimR]
      exact hcollR
    have hlowSuffix : lowerStr (spaceChar :: lparChar :: (nd ++ [rparChar]))
        = spaceChar :: lparChar :: (nd ++ [rparChar]) := by
      unfold lowerStr
      have hcong : (spaceChar :: lparChar :: (nd ++ [rparChar])).map jsToLower
          = (spaceChar :: lparChar :: (nd ++ [rparChar])).map id := by
        refine List.map_congr_left ?_
        intro c hc
        rcases List.mem_cons.mp hc with rfl | hc2
        · decide
        · rcases List.mem_cons.mp hc2 with rfl | hc3
          · decide
          · rcases List.mem_append.mp hc3 with hc4 | hc5
            · exact jsToLower_digit c (hndd c hc4)
            · rcases List.mem_singleton.mp hc5 with rfl
              decide
      rw [hcong, List.map_id]
    have hnormR : normalizeNickname (preferred ++ spaceChar :: lparChar :: (nd ++ [rparChar]))
        = lowerStr preferred ++ spaceChar :: lparChar :: (nd ++ [rparChar]) := by
      unfold normalizeNickname
      rw [hndR]
      unfold lowerStr
      rw [List.map_append]
      show lowerStr preferred ++ lowerStr (spaceChar :: lparChar :: (nd ++ [rparChar]))
        = lowerStr preferred ++ spaceChar :: lparChar :: (nd ++ [rparChar])
      rw [hlowSuffix]
    have hdigk : digitsToNat nd = k := by
      rw [hnddef]
      exact digitsToNat_natDigits k
    have hparseR : suffixSplit (normalizeNickname
        (preferred ++ spaceChar :: lparChar :: (nd ++ [rparChar])))
        = some (lowerStr preferred ++ [spaceChar], k) := by
      rw [hnormR]
      have hshape2 : lowerStr preferred ++ spaceChar :: lparChar :: (nd ++ [rparChar])
          = (lowerStr preferred ++ [spaceChar]) ++
            lparChar :: (nd ++ rparChar :: ([] : List Char)) := by
        simp [List.append_assoc]
      rw [hshape2, suffixSplit_build _ nd [] hndne hndd
        (fun c hc => absurd hc (List.not_mem_nil c)), hdigk]
    obtain ⟨gn, hsn⟩ : ∃ gn, suffixSplit n = some (gn, k) := by
      have h1 : sNum (normalizeNickname n) = sNum n := sNum_norm n
      have h2 : sNum (normalizeNickname
          (preferred ++ spaceChar :: lparChar :: (nd ++ [rparChar]))) = some k := by
        unfold sNum
        rw [hparseR]
      rw [hEq] at h2
      have h3 : sNum n = some k := h1.symm.trans h2
      cases hq : suffixSplit n with
      | none =>
        unfold sNum at h3
        rw [hq] at h3
        cases h3
      | some gk =>
        obtain ⟨g2, k2⟩ := gk
        unfold sNum at h3
        rw [hq] at h3
        have : k2 = k := by injection h3
        subst this
        exact ⟨g2, rfl⟩
    have hbase : normalizeNickname (normDisplay (stripSuffix n))
        = normalizeNickname preferred := by
      have hb := baseNorm_norm n
      rw [← hEq] at hb
      have hstripR : stripSuffix (normalizeNickname
          (preferred ++ spaceChar :: lparChar :: (nd ++ [rparChar])))
          = normDisplay (lowerStr preferred ++ [spaceChar]) := by
        unfold stripSuffix
        rw [hparseR]
      have hndLP : normDisplay (lowerStr preferred ++ [spaceChar]) = lowerStr preferred := by
        unfold normDisplay
        rw [trim_append_ws _ [spaceChar] (by decide), trim_map_lower, hTrim]
        unfold collapseWs
        rw [collapse_map_lower, show collapseAux false preferred = preferred from hColl]
      rw [hstripR, hndLP, nd_lower_comm, hND, nn_lower] at hb
      exact hb.symm
    exact hknot (takenSlots_mem_num _ existing n gn k hn hbase hsn hk2)

/-- C8 counterexample: a requested nickname that already carries a `" (n)"`
suffix is returned verbatim whenever slot 1 of its base is free — here
`"Joe (2)"` is requested in a room whose only player is already named
`"Joe (2)"` (that player registers slot 2, not slot 1), so the claimed
"never collides case-insensitively with an existing nickname" fails: the
result equals the existing nickname exactly. -/
theorem nickname_suffix_collision :
    assignUniqueNickname ("Joe (2)".data) [("Joe (2)".data)] = "Joe (2)".data ∧
    "Joe (2)".data ∈ [("Joe (2)".data)] ∧
    normalizeNickname (assignUniqueNickname ("Joe (2)".data) [("Joe (2)".data)])
      = normalizeNickname ("Joe (2)".data) := by
  refine ⟨by decide, by decide, by decide⟩

/-- C8 witness: requesting `"Joe"` in a room containing `"Joe"` and
`"joe (2)"` — the hypotheses hold and the assigned nickname (here
`"Joe (3)"`) collides with neither existing nickname. -/
theorem assign_nickname_no_collision_witness :
    (trimWs ("Joe".data) = "Joe".data ∧ collapseWs ("Joe".data) = "Joe".data ∧
      "Joe".data ≠ [] ∧ suffixSplit ("Joe".data) = none) ∧
    (∀ n ∈ [("Joe".data), ("joe (2)".data)],
      normalizeNickname (assignUniqueNickname ("Joe".data)
        [("Joe".data), ("joe (2)".data)]) ≠ normalizeNickname n) := by
  constructor
  · exact ⟨by decide, by decide, by decide, by decide⟩
  · exact (assign_nickname_no_collision ("Joe".data) [("Joe".data), ("joe (2)".data)]
      (by decide) (by decide) (by decide) (by decide)).1
